import Mathlib

/-!
# toml++ UTF-8 front end (`include/toml++/toml_utf8.h`)

A shallow embedding of the UTF-8 decoding automaton, the byte sources, the
codepoint reader and the buffered (backtracking) reader of `toml_utf8.h`,
followed by theorems about them.

Conventions of the embedding:
* a byte (`uint8_t`) is a natural number below 256; byte sequences are `List Nat`;
* `char32_t` / `uint_least32_t` values are naturals, reduced modulo `2 ^ 32` where the
  source performs arithmetic on them;
* `size_t` counters and the line/column of a position are naturals;
* a C++ object with mutable members is a structure, a member function is a function
  returning the new object next to its result.
-/

namespace toml

/-! ## Definitions -/

/-- Table `utf8_decoder::state_table`: 256 byte classes followed by the transition rows
(12 classes per state, states are multiples of 12). -/
def state_table : List Nat := [
  0,0,0,0,0,0,0,0,0,0,0,0,0,0,0,0,    0,0,0,0,0,0,0,0,0,0,0,0,0,0,0,0,
  0,0,0,0,0,0,0,0,0,0,0,0,0,0,0,0,    0,0,0,0,0,0,0,0,0,0,0,0,0,0,0,0,
  0,0,0,0,0,0,0,0,0,0,0,0,0,0,0,0,    0,0,0,0,0,0,0,0,0,0,0,0,0,0,0,0,
  0,0,0,0,0,0,0,0,0,0,0,0,0,0,0,0,    0,0,0,0,0,0,0,0,0,0,0,0,0,0,0,0,
  1,1,1,1,1,1,1,1,1,1,1,1,1,1,1,1,    9,9,9,9,9,9,9,9,9,9,9,9,9,9,9,9,
  7,7,7,7,7,7,7,7,7,7,7,7,7,7,7,7,    7,7,7,7,7,7,7,7,7,7,7,7,7,7,7,7,
  8,8,2,2,2,2,2,2,2,2,2,2,2,2,2,2,    2,2,2,2,2,2,2,2,2,2,2,2,2,2,2,2,
  10,3,3,3,3,3,3,3,3,3,3,3,3,4,3,3,   11,6,6,6,5,8,8,8,8,8,8,8,8,8,8,8,

  0,12,24,36,60,96,84,12,12,12,48,72,   12,12,12,12,12,12,12,12,12,12,12,12,
  12, 0,12,12,12,12,12, 0,12, 0,12,12,  12,24,12,12,12,12,12,24,12,24,12,12,
  12,12,12,12,12,12,12,24,12,12,12,12,  12,24,12,12,12,12,12,12,12,24,12,12,
  12,12,12,12,12,12,12,36,12,36,12,12,  12,36,12,12,12,12,12,36,12,36,12,12,
  12,36,12,12,12,12,12,12,12,12,12,12]

/-- The decoder `struct utf8_decoder`: `state` (`uint_least32_t`) and `codepoint`
(`char32_t`), both zero-initialised. -/
structure utf8_decoder where
  state : Nat
  codepoint : Nat
deriving DecidableEq

namespace utf8_decoder

/-- A value-initialised decoder (`utf8_decoder decoder;` as a member with `{}` defaults). -/
def fresh : utf8_decoder := { state := 0, codepoint := 0 }

/-- Member `error()`: `state == 12`. -/
def error (d : utf8_decoder) : Bool := d.state == 12

/-- Member `has_code_point()`: `state == 0`. -/
def has_code_point (d : utf8_decoder) : Bool := d.state == 0

/-- Member `needs_more_input()`: `state > 0 && state != 12`. -/
def needs_more_input (d : utf8_decoder) : Bool := decide (d.state > 0) && d.state != 12

/-- Member `operator()(uint8_t byte)`. The table is indexed as in the source; the new
codepoint is converted to `char32_t`, hence the reduction modulo `2 ^ 32`. -/
def step (d : utf8_decoder) (byte : Nat) : utf8_decoder :=
  let type := state_table.getD byte 0
  { codepoint :=
      (if d.has_code_point then (255 >>> type) &&& byte
       else (byte &&& 63) ||| (d.codepoint <<< 6)) % 2 ^ 32
    state := state_table.getD (d.state + 256 + type) 0 }

end utf8_decoder

/-- Feed a byte sequence to a decoder, one byte at a time. -/
def feed (d : utf8_decoder) (bs : List Nat) : utf8_decoder :=
  bs.foldl utf8_decoder.step d

/-- Feed a byte sequence to a decoder one byte at a time, stopping as soon as `error()`
holds (a decoder in the reject state is not stepped again). -/
def run (d : utf8_decoder) : List Nat → utf8_decoder
  | [] => d
  | b :: bs => if d.error then d else run (d.step b) bs

/-- Unicode scalar values: `0 .. 0x10FFFF` without the surrogates `0xD800 .. 0xDFFF`. -/
def isScalar (v : Nat) : Prop := v ≤ 0x10FFFF ∧ ¬ (0xD800 ≤ v ∧ v ≤ 0xDFFF)

instance (v : Nat) : Decidable (isScalar v) := by
  unfold isScalar; infer_instance

/-- The standard UTF-8 encoding of a scalar value (Unicode, table 3-6): one to four
bytes, `0xxxxxxx`, `110xxxxx 10xxxxxx`, `1110xxxx 10xxxxxx 10xxxxxx`,
`11110xxx 10xxxxxx 10xxxxxx 10xxxxxx`. -/
def utf8Encode (v : Nat) : List Nat :=
  if v < 0x80 then [v]
  else if v < 0x800 then [0xC0 + v / 64, 0x80 + v % 64]
  else if v < 0x10000 then [0xE0 + v / 4096, 0x80 + v / 64 % 64, 0x80 + v % 64]
  else [0xF0 + v / 262144, 0x80 + v / 4096 % 64, 0x80 + v / 64 % 64, 0x80 + v % 64]

/-- The concatenation of the encodings of a list of values. -/
def utf8EncodeAll (vs : List Nat) : List Nat :=
  vs.flatMap utf8Encode

/-- State reached from the ready state on a byte, by byte range. -/
def leadNext (b : Nat) : Nat :=
  if b < 0x80 then 0 else if b < 0xC2 then 12 else if b < 0xE0 then 24
  else if b = 0xE0 then 48 else if b < 0xED then 36 else if b = 0xED then 60
  else if b < 0xF0 then 36 else if b = 0xF0 then 72 else if b < 0xF4 then 84
  else if b = 0xF4 then 96 else 12

/-- Payload bits of a lead byte. -/
def leadVal (b : Nat) : Nat :=
  if b < 0x80 then b else if b < 0xE0 then b - 0xC0 else if b < 0xF0 then b - 0xE0
  else b - 0xF0

/-- State reached from a non-ready state on a byte, by byte range. -/
def contNext (s b : Nat) : Nat :=
  if s = 24 then (if 0x80 ≤ b ∧ b < 0xC0 then 0 else 12)
  else if s = 36 then (if 0x80 ≤ b ∧ b < 0xC0 then 24 else 12)
  else if s = 48 then (if 0xA0 ≤ b ∧ b < 0xC0 then 24 else 12)
  else if s = 60 then (if 0x80 ≤ b ∧ b < 0xA0 then 24 else 12)
  else if s = 72 then (if 0x90 ≤ b ∧ b < 0xC0 then 36 else 12)
  else if s = 84 then (if 0x80 ≤ b ∧ b < 0xC0 then 36 else 12)
  else if s = 96 then (if 0x80 ≤ b ∧ b < 0x90 then 36 else 12)
  else 12

/-- One step of the automaton written with byte ranges and arithmetic instead of the
table and bit operations (proved equal to `utf8_decoder.step` below). -/
def specStep (d : utf8_decoder) (b : Nat) : utf8_decoder :=
  if d.state = 0 then { state := leadNext b, codepoint := leadVal b }
  else { state := contNext d.state b, codepoint := (d.codepoint * 64 + b % 64) % 2 ^ 32 }

/-- The nine states of the automaton. -/
def validState (s : Nat) : Prop := s ∈ [0, 12, 24, 36, 48, 60, 72, 84, 96]

instance (s : Nat) : Decidable (validState s) := by
  unfold validState; infer_instance

/-- Second byte allowed after the lead `a` of a three-byte form (Unicode, table 3-7). -/
def second3 (a b : Nat) : Prop :=
  (a = 0xE0 ∧ 0xA0 ≤ b ∧ b < 0xC0) ∨ (0xE1 ≤ a ∧ a < 0xF0 ∧ a ≠ 0xED ∧ 0x80 ≤ b ∧ b < 0xC0) ∨
  (a = 0xED ∧ 0x80 ≤ b ∧ b < 0xA0)

/-- Second byte allowed after the lead `a` of a four-byte form (Unicode, table 3-7). -/
def second4 (a b : Nat) : Prop :=
  (a = 0xF0 ∧ 0x90 ≤ b ∧ b < 0xC0) ∨ (0xF1 ≤ a ∧ a < 0xF4 ∧ 0x80 ≤ b ∧ b < 0xC0) ∨
  (a = 0xF4 ∧ 0x80 ≤ b ∧ b < 0x90)

/-- Byte patterns of the proper prefixes of well-formed encodings, each with the state the
automaton is in after reading it from the ready state (the empty prefix: ready). -/
def pendingAt : List Nat → Nat → Prop
  | [], s => s = 0
  | [a], s =>
      (0xC2 ≤ a ∧ a < 0xE0 ∧ s = 24) ∨ (a = 0xE0 ∧ s = 48) ∨
      (0xE1 ≤ a ∧ a < 0xF0 ∧ a ≠ 0xED ∧ s = 36) ∨ (a = 0xED ∧ s = 60) ∨
      (a = 0xF0 ∧ s = 72) ∨ (0xF1 ≤ a ∧ a < 0xF4 ∧ s = 84) ∨ (a = 0xF4 ∧ s = 96)
  | [a, b], s => (second3 a b ∧ s = 24) ∨ (second4 a b ∧ s = 36)
  | [a, b, c], s => second4 a b ∧ 0x80 ≤ c ∧ c < 0xC0 ∧ s = 24
  | _, _ => False

/-- A byte sequence is well-formed UTF-8: a concatenation of encodings of scalar values. -/
def wellFormed (bs : List Nat) : Prop :=
  ∃ vs : List Nat, (∀ v ∈ vs, isScalar v) ∧ bs = utf8EncodeAll vs

/-- A proper non-empty prefix of the encoding of a scalar value. -/
def properPrefix (p : List Nat) : Prop :=
  ∃ v, isScalar v ∧ p ≠ [] ∧ p ≠ utf8Encode v ∧ p <+: utf8Encode v

/-- A well-formed sequence followed by a proper non-empty prefix of an encoding. -/
def truncatedForm (bs : List Nat) : Prop :=
  ∃ (vs : List Nat) (p : List Nat), (∀ v ∈ vs, isScalar v) ∧ properPrefix p ∧
    bs = utf8EncodeAll vs ++ p

/-! ### Character classes -/

/-- Function `is_line_break<CR>`: the template parameter `CR` says whether a carriage
return counts as a line break. -/
def is_line_break (CR : Bool) (codepoint : Nat) : Bool :=
  let low_range_end := if CR then 0x0D else 0x0C
  (decide (codepoint ≥ 0x0A) && decide (codepoint ≤ low_range_end))
    || codepoint == 0x85 || codepoint == 0x2028 || codepoint == 0x2029

/-! ### Byte sources -/

/-- The contract the codepoint reader uses of its byte source `utf8_byte_stream<T>`:
`eof()`, `error()` and `operator()` (the next byte, if any, and the advanced source). -/
structure byte_stream_ops (σ : Type) where
  eof : σ → Bool
  error : σ → Bool
  next_byte : σ → Option Nat × σ

/-- Class `utf8_byte_stream<std::basic_string_view<CHAR>>`: the viewed bytes and a cursor. -/
structure utf8_byte_stream_view where
  source : List Nat
  position : Nat
deriving DecidableEq

namespace utf8_byte_stream_view

/-- Constructor: skips a leading `EF BB BF`. -/
def create (sv : List Nat) : utf8_byte_stream_view :=
  { source := sv
    position :=
      if sv.length ≥ 3 ∧ sv.getD 0 0 = 0xEF ∧ sv.getD 1 0 = 0xBB ∧ sv.getD 2 0 = 0xBF then 3
      else 0 }

/-- Member `eof()`. -/
def eof (s : utf8_byte_stream_view) : Bool := decide (s.position ≥ s.source.length)

/-- Member `error()`: always false. -/
def error (_ : utf8_byte_stream_view) : Bool := false

/-- Member `operator()`: the byte at the cursor, advancing it; nothing at the end. -/
def next_byte (s : utf8_byte_stream_view) : Option Nat × utf8_byte_stream_view :=
  if s.position ≥ s.source.length then (none, s)
  else (some (s.source.getD s.position 0), { s with position := s.position + 1 })

/-- The three operations, as the reader sees them. -/
def ops : byte_stream_ops utf8_byte_stream_view :=
  { eof := eof, error := error, next_byte := next_byte }

end utf8_byte_stream_view

/-- Call `operator()` of a byte source until it returns nothing, at most `n` times, and
collect the bytes delivered. -/
def read_bytes {σ : Type} (ops : byte_stream_ops σ) : Nat → σ → List Nat × σ
  | 0, s => ([], s)
  | n + 1, s =>
    match ops.next_byte s with
    | (none, s') => ([], s')
    | (some b, s') => let r := read_bytes ops n s'; (b :: r.1, r.2)

/-- A `std::basic_istream<CHAR>` reading a fixed content (standard library, C++17):
the content, the get position and the state bits. -/
structure istream where
  content : List Nat
  pos : Nat
  eofbit : Bool
  failbit : Bool
  badbit : Bool
deriving DecidableEq

namespace istream

/-- A stream in the good state at the start of its content. -/
def ofContent (content : List Nat) : istream :=
  { content := content, pos := 0, eofbit := false, failbit := false, badbit := false }

/-- Standard `good()`. -/
def good (s : istream) : Bool := !s.eofbit && !s.failbit && !s.badbit

/-- Standard `fail()`. -/
def fail (s : istream) : Bool := s.failbit || s.badbit

/-- Standard `operator bool`: `!fail()`. -/
def toBool (s : istream) : Bool := !s.fail

/-- Standard `eof()`. -/
def eof (s : istream) : Bool := s.eofbit

/-- Standard `get()`: an unformatted input function. The sentry sets `failbit` when the
stream is not good; at the end of the content `eofbit` and `failbit` are set. Nothing
stands for `traits_type::eof()`. -/
def get (s : istream) : Option Nat × istream :=
  if !s.good then (none, { s with failbit := true })
  else if s.pos ≥ s.content.length then (none, { s with eofbit := true, failbit := true })
  else (some (s.content.getD s.pos 0), { s with pos := s.pos + 1 })

/-- Standard `tellg()`: the position, or `pos_type(-1)` (nothing) when the stream fails. -/
def tellg (s : istream) : Option Nat × istream :=
  if !s.good then (none, { s with failbit := true }) else (some s.pos, s)

/-- Standard `seekg(pos)` (since C++11): clears `eofbit`, then seeks unless the stream
fails; an invalid position sets `failbit`. -/
def seekg (s : istream) (p : Option Nat) : istream :=
  let s := { s with eofbit := false }
  if !s.good then { s with failbit := true }
  else
    match p with
    | some n => if n ≤ s.content.length then { s with pos := n } else { s with failbit := true }
    | none => { s with failbit := true }

end istream

/-- Class `utf8_byte_stream<std::basic_istream<CHAR>>`: a pointer to the stream, here the
stream itself. -/
structure utf8_byte_stream_istream where
  source : istream
deriving DecidableEq

namespace utf8_byte_stream_istream

/-- The array `bom` of the constructor, `{0xEF, 0xBB, 0xBF}`. An index of 3 or more is
outside the array; what such a read returns is not fixed by the program and is given by
`past`. -/
def bom (past : Nat → Nat) (i : Nat) : Nat :=
  if i = 0 then 0xEF else if i = 1 then 0xBB else if i = 2 then 0xBF else past i

/-- The `while` loop of the constructor: `bom_char` is the last result of `get()`. Every
turn calls `get()` once, so `fuel` above the length of the content is never used up. -/
def bom_loop (past : Nat → Nat) : Nat → istream → Nat → Option Nat → istream × Nat
  | 0, s, bom_pos, _ => (s, bom_pos)
  | fuel + 1, s, bom_pos, bom_char =>
    if s.toBool && bom_char.isSome && bom_char == some (bom past bom_pos) then
      let g := s.get
      bom_loop past fuel g.2 (bom_pos + 1) g.1
    else (s, bom_pos)

/-- Constructor: looks for a byte-order mark at the start of the stream. -/
def create (past : Nat → Nat) (stream : istream) : utf8_byte_stream_istream :=
  if stream.toBool then
    let t := stream.tellg
    let initial_pos := t.1
    let g := t.2.get
    let l := bom_loop past (stream.content.length + 1) g.2 0 g.1
    if !l.1.toBool || decide (l.2 < 3) then { source := l.1.seekg initial_pos }
    else { source := l.1 }
  else { source := stream }

/-- Member `eof()`. -/
def eof (s : utf8_byte_stream_istream) : Bool := s.source.eof

/-- Member `error()`: `!(*source)`. -/
def error (s : utf8_byte_stream_istream) : Bool := !s.source.toBool

/-- Member `operator()`: `source->get()`, nothing for `traits_type::eof()`. -/
def next_byte (s : utf8_byte_stream_istream) : Option Nat × utf8_byte_stream_istream :=
  let g := s.source.get
  (g.1, { source := g.2 })

/-- The three operations, as the reader sees them. -/
def ops : byte_stream_ops utf8_byte_stream_istream :=
  { eof := eof, error := error, next_byte := next_byte }

end utf8_byte_stream_istream

/-! ### Codepoint records and the codepoint reader -/

/-- Modelled from the spec: `toml::source_position`, declared in `toml_common.h`, which is
not part of this file: a line and a column, both 1-based. -/
structure source_position where
  line : Nat
  column : Nat
deriving DecidableEq

/-- Modelled from the spec: `toml::parse_error`, declared in `toml_common.h`, which is not
part of this file: a message, a position and the optional source label. -/
structure parse_error where
  what : String
  position : source_position
  source_path : Option String
deriving DecidableEq

/-- Struct `utf8_codepoint`: the value, the four-byte array `bytes` and the position. -/
structure utf8_codepoint where
  value : Nat
  bytes : List Nat
  position : source_position
deriving DecidableEq

namespace utf8_codepoint

/-- A value-initialised record (`utf8_codepoint prev{}`). -/
def zero : utf8_codepoint := { value := 0, bytes := [0, 0, 0, 0], position := ⟨0, 0⟩ }

instance : Inhabited utf8_codepoint := ⟨zero⟩

/-- Member `as_view()`: all four bytes when `bytes[3]` is not zero, otherwise the bytes up
to the first zero (a view built from a pointer to a zero-terminated string). -/
def as_view (c : utf8_codepoint) : List Nat :=
  if c.bytes.getD 3 0 ≠ 0 then c.bytes.take 4 else c.bytes.takeWhile (fun b => b != 0)

end utf8_codepoint

/-- What a call of `read_next` hands back: a pointer to a record, `nullptr`, or, when
the library is built with exceptions, a thrown `parse_error`. -/
inductive read_result where
  | codepoint (c : utf8_codepoint)
  | null
  | thrown (e : parse_error)
deriving DecidableEq

/-- Class `utf8_reader<T>`. The member `err` exists when the library is built without
exceptions and is left empty otherwise. -/
structure utf8_reader (σ : Type) where
  stream : σ
  decoder : utf8_decoder
  prev : utf8_codepoint
  current : utf8_codepoint
  current_byte_count : Nat
  source_path_ : Option String
  err : Option parse_error

namespace utf8_reader

variable {σ : Type}

/-- Constructor: `current.position = { 1, 1 }`, everything else value-initialised; the
source path is kept when it is not empty. -/
def create (stream : σ) (source_path : String) : utf8_reader σ :=
  { stream := stream
    decoder := utf8_decoder.fresh
    prev := utf8_codepoint.zero
    current := { utf8_codepoint.zero with position := ⟨1, 1⟩ }
    current_byte_count := 0
    source_path_ := if source_path.isEmpty then none else some source_path
    err := none }

/-- Macro `TOML_ERROR(msg, prev.position, source_path_)` together with the
`TOML_ERROR_CHECK` or `return nullptr` that follows it: with exceptions (`exc`) the error
is thrown, without them it is stored in `err` and the call returns `nullptr`. -/
def raise (exc : Bool) (r : utf8_reader σ) (msg : String) : read_result × utf8_reader σ :=
  let e : parse_error := { what := msg, position := r.prev.position, source_path := r.source_path_ }
  if exc then (read_result.thrown e, r) else (read_result.null, { r with err := some e })

/-- The `while (true)` loop of `read_next`. Each turn reads one byte; `fuel` bounds the
number of turns, and nothing is returned when it runs out. -/
def read_loop (exc : Bool) (ops : byte_stream_ops σ) :
    Nat → utf8_reader σ → Option (read_result × utf8_reader σ)
  | 0, _ => none
  | fuel + 1, r =>
    let nb := ops.next_byte r.stream
    let r := { r with stream := nb.2 }
    match nb.1 with
    | none =>
      if ops.eof r.stream then
        if r.decoder.needs_more_input then
          some (raise exc r "Encountered EOF during incomplete utf-8 code point sequence")
        else some (read_result.null, r)
      else some (raise exc r "An error occurred while reading from the underlying stream")
    | some nextByte =>
      let r := { r with decoder := r.decoder.step nextByte }
      if r.decoder.error then some (raise exc r "Encountered invalid utf-8 sequence")
      else
        let r := { r with
          current := { r.current with bytes := r.current.bytes.set r.current_byte_count nextByte }
          current_byte_count := r.current_byte_count + 1 }
        if r.decoder.has_code_point then
          let prev := { r.current with value := r.decoder.codepoint }
          some (read_result.codepoint prev,
            { r with
              prev := prev
              current :=
                { value := prev.value
                  bytes := [0, 0, 0, 0]
                  position :=
                    if is_line_break false prev.value then ⟨prev.position.line + 1, 1⟩
                    else ⟨prev.position.line, prev.position.column + 1⟩ }
              current_byte_count := 0 })
        else read_loop exc ops fuel r

/-- Member `read_next()`. `exc` is the build option `TOML_EXCEPTIONS`; `fuel` bounds the
turns of the inner loop. -/
def read_next (exc : Bool) (ops : byte_stream_ops σ) (fuel : Nat) (r : utf8_reader σ) :
    Option (read_result × utf8_reader σ) :=
  if !exc && r.err.isSome then some (read_result.null, r)
  else if ops.eof r.stream then some (read_result.null, r)
  else if ops.error r.stream then
    some (raise exc r "An error occurred while reading from the underlying stream")
  else if r.decoder.error then some (raise exc r "Encountered invalid utf-8 sequence")
  else read_loop exc ops fuel r

/-- Call `read_next` until it returns `nullptr` or fails, at most `calls` times; the
records returned, the result of the last call and the reader after it. -/
def read_all (exc : Bool) (ops : byte_stream_ops σ) (fuel : Nat) :
    Nat → utf8_reader σ → Option (List utf8_codepoint × read_result × utf8_reader σ)
  | 0, _ => none
  | calls + 1, r =>
    match read_next exc ops fuel r with
    | none => none
    | some (read_result.codepoint c, r') =>
      match read_all exc ops fuel calls r' with
      | none => none
      | some (cs, res, r'') => some (c :: cs, res, r'')
    | some (res, r') => some ([], res, r')

end utf8_reader

/-- A reader over an in-memory buffer: `utf8_reader<std::basic_string_view<CHAR>>`. -/
def buffer_reader (source : List Nat) (source_path : String) :
    utf8_reader utf8_byte_stream_view :=
  utf8_reader.create (utf8_byte_stream_view.create source) source_path

/-! ### Notions used to state the theorems -/

/-- The bytes a buffer-backed source has not delivered yet. -/
def remaining (s : utf8_byte_stream_view) : List Nat :=
  s.source.drop s.position

/-- The byte-order mark `EF BB BF`. -/
def BOM : List Nat := [0xEF, 0xBB, 0xBF]

/-- A buffer without a leading byte-order mark. -/
def stripBOM (bs : List Nat) : List Nat :=
  if BOM <+: bs then bs.drop 3 else bs

/-- The reader after one turn of the loop of `read_next` that read the byte `b` and left
the decoder pending. -/
def consume (r : utf8_reader utf8_byte_stream_view) (b : Nat) :
    utf8_reader utf8_byte_stream_view :=
  { r with
    stream := { r.stream with position := r.stream.position + 1 }
    decoder := r.decoder.step b
    current := { r.current with bytes := r.current.bytes.set r.current_byte_count b }
    current_byte_count := r.current_byte_count + 1 }

/-- The position after a codepoint `v` at position `pos`: the next line after a line break
(carriage return excluded), the next column otherwise. -/
def next_position (pos : source_position) (v : Nat) : source_position :=
  if is_line_break false v then ⟨pos.line + 1, 1⟩ else ⟨pos.line, pos.column + 1⟩

/-- The record of the codepoint `v` read at `pos`: its encoding in `bytes`, padded with
zeros to four bytes. -/
def record_of (pos : source_position) (v : Nat) : utf8_codepoint :=
  { value := v
    bytes := utf8Encode v ++ List.replicate (4 - (utf8Encode v).length) 0
    position := pos }

/-- The records of the codepoints `vs` read from position `pos` on. -/
def expected_records : source_position → List Nat → List utf8_codepoint
  | _, [] => []
  | pos, v :: vs => record_of pos v :: expected_records (next_position pos v) vs

/-- The position reached after the codepoints `vs` read from position `pos` on. -/
def end_position : source_position → List Nat → source_position
  | pos, [] => pos
  | pos, v :: vs => end_position (next_position pos v) vs

/-- A reader between two codepoints: decoder ready, no byte of a codepoint stored, no
error recorded. -/
def Ready (r : utf8_reader utf8_byte_stream_view) : Prop :=
  r.decoder.state = 0 ∧ r.current_byte_count = 0 ∧ r.current.bytes = [0, 0, 0, 0] ∧ r.err = none

/-- A call reports the error `e`: thrown when the library is built with exceptions,
otherwise `nullptr` is returned and the error is recorded in the reader. -/
def reports {σ : Type} (exc : Bool) (res : read_result) (r : utf8_reader σ) (e : parse_error) :
    Prop :=
  if exc then res = read_result.thrown e else res = read_result.null ∧ r.err = some e

/-- The source label kept by the constructor of the reader. -/
def label_of (source_path : String) : Option String :=
  if source_path.isEmpty then none else some source_path

/-- The line breaks of `is_line_break<false>`. -/
def lineBreak (v : Nat) : Prop :=
  v = 0x0A ∨ v = 0x0B ∨ v = 0x0C ∨ v = 0x85 ∨ v = 0x2028 ∨ v = 0x2029

instance (v : Nat) : Decidable (lineBreak v) := by
  unfold lineBreak; infer_instance

/-! ### The buffered reader -/

/-- Struct `utf8_reader_interface`: the virtual members a buffered reader calls on the
reader it wraps. `read_next` returns nothing when the wrapped call does not return;
`error` says whether `error()` holds an error (library built without exceptions). -/
structure utf8_reader_interface (ρ : Type) where
  read_next : ρ → Option (read_result × ρ)
  error : ρ → Bool
  source_path : ρ → Option String

/-- A `utf8_reader<T>` seen through `utf8_reader_interface`. -/
def utf8_reader.interface {σ : Type} (exc : Bool) (ops : byte_stream_ops σ) (fuel : Nat) :
    utf8_reader_interface (utf8_reader σ) :=
  { read_next := utf8_reader.read_next exc ops fuel
    error := fun r => r.err.isSome
    source_path := fun r => r.source_path_ }

/-- Constant `utf8_buffered_reader::max_history_length`. -/
def max_history_length : Nat := 64

/-- Constant `utf8_buffered_reader::history_buffer_size`: the head is stored outside the
buffer. -/
def history_buffer_size : Nat := max_history_length - 1

/-- The number of values of `size_t`, taken as 64 bits wide: unsigned arithmetic on
`size_t` is modulo this number. The members `history.count`, `history.first` and
`negative_offset` are bounded by the number of codepoints read and are kept as natural
numbers; the argument of `step_back` is chosen by the caller. -/
def size_modulus : Nat := 2 ^ 64

/-- Class `utf8_buffered_reader`: the wrapped reader, the members `buffer`, `count` and
`first` of `history`, the record `head` points to (nothing for `nullptr`) and
`negative_offset`. -/
structure utf8_buffered_reader (ρ : Type) where
  reader : ρ
  history_buffer : List utf8_codepoint
  history_count : Nat
  history_first : Nat
  head : Option utf8_codepoint
  negative_offset : Nat

/-- A pointer to a record, or `nullptr`, as the result of a call. -/
def to_result (p : Option utf8_codepoint) : read_result :=
  match p with
  | some c => read_result.codepoint c
  | none => read_result.null

namespace utf8_buffered_reader

variable {ρ : Type}

/-- Constructor: everything but the reference to the wrapped reader is zero. -/
def create (reader : ρ) : utf8_buffered_reader ρ :=
  { reader := reader
    history_buffer := List.replicate history_buffer_size utf8_codepoint.zero
    history_count := 0
    history_first := 0
    head := none
    negative_offset := 0 }

/-- The record `history.buffer + ((first + count - negative_offset) % history_buffer_size)`. -/
def history_at (b : utf8_buffered_reader ρ) : utf8_codepoint :=
  b.history_buffer.getD
    ((b.history_first + b.history_count - b.negative_offset) % history_buffer_size)
    utf8_codepoint.zero

/-- The statements `head = reader.read_next(); return head;`. When the wrapped call
throws, `head` keeps its value. -/
def pull (I : utf8_reader_interface ρ) (b : utf8_buffered_reader ρ) :
    Option (read_result × utf8_buffered_reader ρ) :=
  match I.read_next b.reader with
  | none => none
  | some (read_result.thrown e, rd) => some (read_result.thrown e, { b with reader := rd })
  | some (read_result.codepoint c, rd) =>
    some (read_result.codepoint c, { b with reader := rd, head := some c })
  | some (read_result.null, rd) => some (read_result.null, { b with reader := rd, head := none })

/-- Member `read_next()`. -/
def read_next (exc : Bool) (I : utf8_reader_interface ρ) (b : utf8_buffered_reader ρ) :
    Option (read_result × utf8_buffered_reader ρ) :=
  if !exc && I.error b.reader then some (read_result.null, b)
  else if b.negative_offset ≠ 0 then
    let b := { b with negative_offset := b.negative_offset - 1 }
    if b.negative_offset = 0 then some (to_result b.head, b)
    else some (read_result.codepoint b.history_at, b)
  else if b.history_count = 0 ∧ b.head.isNone then pull I b
  else
    match b.head with
    | some h =>
      let b :=
        if b.history_count < history_buffer_size then
          { b with
            history_buffer := b.history_buffer.set b.history_count h
            history_count := b.history_count + 1 }
        else
          { b with
            history_buffer :=
              b.history_buffer.set
                ((b.history_first + history_buffer_size) % history_buffer_size) h
            history_first := b.history_first + 1 }
      pull I b
    | none => some (read_result.null, b)

/-- Member `step_back(count)`. Nothing is returned when one of the two assertions
(`history.count` and `negative_offset + count <= history.count`) fails. The argument is
any value of `size_t`, so the sum `negative_offset + count` is reduced modulo
`size_modulus`, in the assertion and in `negative_offset += count`. -/
def step_back (exc : Bool) (I : utf8_reader_interface ρ) (b : utf8_buffered_reader ρ)
    (count : Nat) : Option (read_result × utf8_buffered_reader ρ) :=
  if !exc && I.error b.reader then some (read_result.null, b)
  else if b.history_count = 0 then none
  else if ¬ ((b.negative_offset + count) % size_modulus ≤ b.history_count) then none
  else
    let b := { b with negative_offset := (b.negative_offset + count) % size_modulus }
    some (if b.negative_offset ≠ 0 then read_result.codepoint b.history_at
      else to_result b.head, b)

/-- `n` calls of `read_next` in a row: their results and the reader after them. -/
def read_many (exc : Bool) (I : utf8_reader_interface ρ) :
    Nat → utf8_buffered_reader ρ → Option (List read_result × utf8_buffered_reader ρ)
  | 0, b => some ([], b)
  | n + 1, b =>
    match read_next exc I b with
    | none => none
    | some (res, b') =>
      match read_many exc I n b' with
      | none => none
      | some (rs, b'') => some (res :: rs, b'')

end utf8_buffered_reader

/-- The state of a buffered reader after forward reads that returned the records `cs`,
at most `max_history_length` of them: nothing overwritten yet. -/
def forward_state {ρ : Type} (cs : List utf8_codepoint) (b : utf8_buffered_reader ρ) : Prop :=
  b.negative_offset = 0 ∧ b.head = cs.getLast? ∧ b.history_first = 0 ∧
  b.history_count = cs.length - 1 ∧ b.history_buffer.length = history_buffer_size ∧
  ∀ j, j < cs.length - 1 → b.history_buffer.getD j utf8_codepoint.zero = cs.getD j utf8_codepoint.zero

/-! ### Further character classes -/

/-- Function `is_whitespace`. -/
def is_whitespace (codepoint : Nat) : Bool :=
  codepoint == 0x09 || codepoint == 0x20 || codepoint == 0xA0 || codepoint == 0x1680
    || (decide (codepoint ≥ 0x2000) && decide (codepoint ≤ 0x200A))
    || codepoint == 0x202F || codepoint == 0x205F || codepoint == 0x3000

/-! ### Notions used to state the theorems on sequences of calls -/

/-- The records returned so far, after a call with result `res`. -/
def returned (cs : List utf8_codepoint) (res : read_result) : List utf8_codepoint :=
  match res with
  | read_result.codepoint c => cs ++ [c]
  | _ => cs

/-- The states a reader reaches from `r0` by calls of `read_next`, each with the records
returned since `r0`, in order. -/
inductive reached {σ : Type} (exc : Bool) (ops : byte_stream_ops σ) (r0 : utf8_reader σ) :
    utf8_reader σ → List utf8_codepoint → Prop
  | start : reached exc ops r0 r0 []
  | call (r r' : utf8_reader σ) (cs : List utf8_codepoint) (fuel : Nat) (res : read_result) :
      reached exc ops r0 r cs → utf8_reader.read_next exc ops fuel r = some (res, r') →
      reached exc ops r0 r' (returned cs res)

/-- The reader after a turn of the loop of `read_next` that read the byte `b` and left
the decoder pending. -/
def pending_turn {σ : Type} (ops : byte_stream_ops σ) (r : utf8_reader σ) (b : Nat) :
    utf8_reader σ :=
  { r with
    stream := (ops.next_byte r.stream).2
    decoder := r.decoder.step b
    current := { r.current with bytes := r.current.bytes.set r.current_byte_count b }
    current_byte_count := r.current_byte_count + 1 }

/-- The indices used by the statement `current.bytes[current_byte_count++] = *nextByte`
during the loop of `read_next`, in order: the statement is reached when a byte was read
and the decoder did not reject it. -/
def loop_writes {σ : Type} (ops : byte_stream_ops σ) : Nat → utf8_reader σ → List Nat
  | 0, _ => []
  | fuel + 1, r =>
    match (ops.next_byte r.stream).1 with
    | none => []
    | some nextByte =>
      if (r.decoder.step nextByte).error then []
      else if (r.decoder.step nextByte).has_code_point then [r.current_byte_count]
      else r.current_byte_count :: loop_writes ops fuel (pending_turn ops r nextByte)

/-- The indices written during a call of `read_next`: none when the call returns before
the loop. -/
def read_next_writes {σ : Type} (exc : Bool) (ops : byte_stream_ops σ) (fuel : Nat)
    (r : utf8_reader σ) : List Nat :=
  if !exc && r.err.isSome then []
  else if ops.eof r.stream then []
  else if ops.error r.stream then []
  else if r.decoder.error then []
  else loop_writes ops fuel r

/-- The number of bytes a pending state still needs at most to complete a codepoint. -/
def to_go (s : Nat) : Nat :=
  if s = 24 then 1 else if s = 36 ∨ s = 48 ∨ s = 60 then 2
  else if s = 72 ∨ s = 84 ∨ s = 96 then 3 else 0

/-- The relation between `current_byte_count` and the decoder between two turns of the
loop of `read_next`: the state is one of the nine, the counter is 0 when the decoder is
ready, and unless the decoder has rejected the bytes written plus the bytes still needed
are at most 4. -/
def bytes_invariant {σ : Type} (r : utf8_reader σ) : Prop :=
  validState r.decoder.state ∧ (r.decoder.state = 0 → r.current_byte_count = 0) ∧
  (r.decoder.state ≠ 12 → r.current_byte_count + to_go r.decoder.state ≤ 4)

/-! ### Notions used to state the theorems on the buffered reader -/

/-- An implementation of `utf8_reader_interface` at the end of its input, whose state is
the number of calls of `read_next` made on it so far: every call returns `nullptr`. It
makes the calls a buffered reader issues to the reader it wraps observable. -/
def counting_reader : utf8_reader_interface Nat :=
  { read_next := fun n => some (read_result.null, n + 1)
    error := fun _ => false
    source_path := fun _ => none }

/-- The states a buffered reader reaches from construction over `rd` by calls of
`read_next` and by calls of `step_back` that return (their assertions hold). -/
inductive utf8_buffered_reader.reachable {ρ : Type} (exc : Bool) (I : utf8_reader_interface ρ)
    (rd : ρ) : utf8_buffered_reader ρ → Prop
  | create : utf8_buffered_reader.reachable exc I rd (utf8_buffered_reader.create rd)
  | read_next (b b' : utf8_buffered_reader ρ) (res : read_result) :
      utf8_buffered_reader.reachable exc I rd b →
      utf8_buffered_reader.read_next exc I b = some (res, b') →
      utf8_buffered_reader.reachable exc I rd b'
  | step_back (b b' : utf8_buffered_reader ρ) (count : Nat) (res : read_result) :
      utf8_buffered_reader.reachable exc I rd b →
      utf8_buffered_reader.step_back exc I b count = some (res, b') →
      utf8_buffered_reader.reachable exc I rd b'

/-- The state of a buffered reader after forward reads that returned the records `cs`,
however many: the head is the last of them, the history holds the
`min (cs.length - 1) history_buffer_size` records before it, the oldest at the slot
`history.first % history_buffer_size`, and `history.first` counts the records
overwritten. -/
def ring_state {ρ : Type} (cs : List utf8_codepoint) (b : utf8_buffered_reader ρ) : Prop :=
  b.negative_offset = 0 ∧ b.head = cs.getLast? ∧
  b.history_count = min (cs.length - 1) history_buffer_size ∧
  b.history_first = cs.length - 1 - b.history_count ∧
  b.history_buffer.length = history_buffer_size ∧
  ∀ j, j < b.history_count →
    b.history_buffer.getD ((b.history_first + j) % history_buffer_size) utf8_codepoint.zero =
      cs.getD (b.history_first + j) utf8_codepoint.zero

/-- The bounds on `history.count` and `negative_offset`, and the length of the buffer. -/
def history_bounds {ρ : Type} (b : utf8_buffered_reader ρ) : Prop :=
  b.history_count ≤ history_buffer_size ∧ b.negative_offset ≤ b.history_count ∧
  b.history_buffer.length = history_buffer_size

/-- The record a call of `read_next` writes to `history.buffer`, by
`history.buffer[history.count++] = *head` or by
`history.buffer[(history.first++ + history_buffer_size) % history_buffer_size] = *head`,
if it writes one: the head, when the call is not cut short by the error check, no
backward offset is active, it is not the first read and there is a head. -/
def utf8_buffered_reader.read_next_pushes {ρ : Type} (exc : Bool)
    (I : utf8_reader_interface ρ) (b : utf8_buffered_reader ρ) : List utf8_codepoint :=
  if !exc && I.error b.reader then []
  else if b.negative_offset ≠ 0 then []
  else if b.history_count = 0 ∧ b.head.isNone then []
  else
    match b.head with
    | some h => [h]
    | none => []

/-- The states a buffered reader reaches from construction over `rd` by calls of
`read_next` and by calls of `step_back` that return, each with the records written to
`history.buffer` on the way, in the order they were written. -/
inductive utf8_buffered_reader.logged {ρ : Type} (exc : Bool) (I : utf8_reader_interface ρ)
    (rd : ρ) : utf8_buffered_reader ρ → List utf8_codepoint → Prop
  | create : utf8_buffered_reader.logged exc I rd (utf8_buffered_reader.create rd) []
  | read_next (b b' : utf8_buffered_reader ρ) (res : read_result) (log : List utf8_codepoint) :
      utf8_buffered_reader.logged exc I rd b log →
      utf8_buffered_reader.read_next exc I b = some (res, b') →
      utf8_buffered_reader.logged exc I rd b'
        (log ++ utf8_buffered_reader.read_next_pushes exc I b)
  | step_back (b b' : utf8_buffered_reader ρ) (count : Nat) (res : read_result)
      (log : List utf8_codepoint) :
      utf8_buffered_reader.logged exc I rd b log →
      utf8_buffered_reader.step_back exc I b count = some (res, b') →
      utf8_buffered_reader.logged exc I rd b' log

/-- The history ring holds the last records written, oldest first from the slot
`history.first % history_buffer_size` on: `history.count` of them, all of them as long as
nothing was overwritten, and `history.first` counts the records overwritten. -/
def ring_log {ρ : Type} (log : List utf8_codepoint) (b : utf8_buffered_reader ρ) : Prop :=
  b.history_count = min log.length history_buffer_size ∧
  b.history_first + b.history_count = log.length ∧
  ∀ j, j < b.history_count →
    b.history_buffer.getD ((b.history_first + j) % history_buffer_size) utf8_codepoint.zero =
      log.getD (b.history_first + j) utf8_codepoint.zero

/-! ## Theorems -/

/-! ## Theorems -/

/-! ### The decoding automaton -/

set_option maxRecDepth 100000 in
theorem state_table_length : state_table.length = 364 := by decide

set_option maxRecDepth 100000 in
theorem step_ready_table : ∀ b, b < 256 →
    (utf8_decoder.step ⟨0, 0⟩ b).state = leadNext b ∧
    (leadNext b ≠ 12 → (utf8_decoder.step ⟨0, 0⟩ b).codepoint = leadVal b) := by
  decide

set_option maxRecDepth 100000 in
theorem step_cont_table : ∀ s ∈ [12, 24, 36, 48, 60, 72, 84, 96], ∀ b, b < 256 →
    state_table.getD (s + 256 + state_table.getD b 0) 0 = contNext s b := by
  decide

theorem and63_or_shift (b c : Nat) : (b &&& 63) ||| (c <<< 6) = c * 64 + b % 64 := by
  have h1 : b &&& 63 = b % 64 := Nat.and_pow_two_sub_one_eq_mod b 6
  have h2 : c <<< 6 = 2 ^ 6 * c := by rw [Nat.shiftLeft_eq, Nat.mul_comm]
  have h3 : b % 64 < 2 ^ 6 := Nat.mod_lt _ (by norm_num)
  rw [h1, h2, Nat.or_comm, ← Nat.mul_add_lt_is_or h3 c]
  norm_num [Nat.mul_comm]

theorem validState_iff (s : Nat) : validState s ↔
    s = 0 ∨ s = 12 ∨ s = 24 ∨ s = 36 ∨ s = 48 ∨ s = 60 ∨ s = 72 ∨ s = 84 ∨ s = 96 := by
  simp [validState]

theorem validState_ite {c : Prop} [Decidable c] {x y : Nat} (hx : validState x)
    (hy : validState y) : validState (if c then x else y) := by
  split <;> assumption

theorem leadNext_valid (b : Nat) : validState (leadNext b) := by
  unfold leadNext
  repeat' apply validState_ite
  all_goals decide

theorem contNext_valid (s b : Nat) : validState (contNext s b) := by
  unfold contNext
  repeat' apply validState_ite
  all_goals decide

theorem specStep_valid (d : utf8_decoder) (b : Nat) : validState (specStep d b).state := by
  unfold specStep; split_ifs
  · exact leadNext_valid b
  · exact contNext_valid _ b

/-- On a valid state and a byte, the table-driven step reaches the state of `specStep`. -/
theorem step_state (d : utf8_decoder) (b : Nat) (hs : validState d.state) (hb : b < 256) :
    (d.step b).state = (specStep d b).state := by
  by_cases h0 : d.state = 0
  · have := (step_ready_table b hb).1
    simp only [utf8_decoder.step, utf8_decoder.has_code_point, specStep, h0] at this ⊢
    simpa using this
  · have hm : d.state ∈ [12, 24, 36, 48, 60, 72, 84, 96] := by
      rw [validState_iff] at hs; simp; omega
    have := step_cont_table d.state hm b hb
    simp only [utf8_decoder.step, specStep, h0, if_false]
    exact this

/-- Unless the step rejects, the table-driven step assembles the codepoint of `specStep`. -/
theorem step_codepoint (d : utf8_decoder) (b : Nat) (hb : b < 256)
    (hr : (specStep d b).state ≠ 12) : (d.step b).codepoint = (specStep d b).codepoint := by
  by_cases h0 : d.state = 0
  · have := (step_ready_table b hb).2
    simp only [specStep, h0, if_true] at hr
    have := this hr
    simp only [utf8_decoder.step, utf8_decoder.has_code_point, specStep, h0] at this ⊢
    simpa using this
  · have hf : d.has_code_point = false := by simp [utf8_decoder.has_code_point, h0]
    simp only [utf8_decoder.step, specStep, h0, if_false, hf, and63_or_shift]
    simp

theorem step_eq_spec (d : utf8_decoder) (b : Nat) (hs : validState d.state) (hb : b < 256)
    (hr : (specStep d b).state ≠ 12) : d.step b = specStep d b := by
  have h1 := step_state d b hs hb
  have h2 := step_codepoint d b hb hr
  cases hd : d.step b; cases he : specStep d b
  simp_all

theorem step_valid (d : utf8_decoder) (b : Nat) (hs : validState d.state) (hb : b < 256) :
    validState (d.step b).state := by
  rw [step_state d b hs hb]; exact specStep_valid d b

theorem feed_nil (d : utf8_decoder) : feed d [] = d := rfl

theorem feed_cons (d : utf8_decoder) (b : Nat) (bs : List Nat) :
    feed d (b :: bs) = feed (d.step b) bs := rfl

theorem feed_append (d : utf8_decoder) (as bs : List Nat) :
    feed d (as ++ bs) = feed (feed d as) bs := by
  simp [feed, List.foldl_append]

theorem needs_more_input_iff (d : utf8_decoder) :
    d.needs_more_input = true ↔ d.state ≠ 0 ∧ d.state ≠ 12 := by
  simp [utf8_decoder.needs_more_input]; omega

theorem has_code_point_iff (d : utf8_decoder) : d.has_code_point = true ↔ d.state = 0 := by
  simp [utf8_decoder.has_code_point]

theorem error_iff (d : utf8_decoder) : d.error = true ↔ d.state = 12 := by
  simp [utf8_decoder.error]

/-- Lead step from the ready state, as an equation. -/
theorem step_lead (d : utf8_decoder) (h0 : d.state = 0) (b : Nat) (hb : b < 256)
    (hr : leadNext b ≠ 12) : d.step b = ⟨leadNext b, leadVal b⟩ := by
  have hv : validState d.state := by rw [h0]; decide
  have : specStep d b = ⟨leadNext b, leadVal b⟩ := by simp [specStep, h0]
  rw [step_eq_spec d b hv hb (by rw [this]; exact hr), this]

/-- Continuation step from a pending state, as an equation. -/
theorem step_cont (s c : Nat) (hs : validState s) (h0 : s ≠ 0) (b : Nat) (hb : b < 256)
    (hr : contNext s b ≠ 12) :
    utf8_decoder.step ⟨s, c⟩ b = ⟨contNext s b, (c * 64 + b % 64) % 2 ^ 32⟩ := by
  have : specStep ⟨s, c⟩ b = ⟨contNext s b, (c * 64 + b % 64) % 2 ^ 32⟩ := by
    simp [specStep, h0]
  rw [step_eq_spec ⟨s, c⟩ b hs hb (by rw [this]; exact hr), this]

set_option maxRecDepth 100000 in
theorem leadNext_table : ∀ b, b < 256 →
    (leadNext b = 0 ↔ b < 0x80) ∧ (leadNext b = 24 ↔ 0xC2 ≤ b ∧ b < 0xE0) ∧
    (leadNext b = 48 ↔ b = 0xE0) ∧ (leadNext b = 36 ↔ 0xE1 ≤ b ∧ b < 0xF0 ∧ b ≠ 0xED) ∧
    (leadNext b = 60 ↔ b = 0xED) ∧ (leadNext b = 72 ↔ b = 0xF0) ∧
    (leadNext b = 84 ↔ 0xF1 ≤ b ∧ b < 0xF4) ∧ (leadNext b = 96 ↔ b = 0xF4) ∧
    (leadNext b = 12 ↔ (0x80 ≤ b ∧ b < 0xC2) ∨ 0xF5 ≤ b) := by
  decide

set_option maxRecDepth 100000 in
theorem leadVal_table : ∀ b, b < 256 →
    (b < 0x80 → leadVal b = b) ∧ (0xC0 ≤ b → b < 0xE0 → leadVal b + 0xC0 = b) ∧
    (0xE0 ≤ b → b < 0xF0 → leadVal b + 0xE0 = b) ∧ (0xF0 ≤ b → leadVal b + 0xF0 = b) := by
  decide

set_option maxRecDepth 100000 in
theorem contNext_table : ∀ b, b < 256 →
    (contNext 24 b = 0 ↔ 0x80 ≤ b ∧ b < 0xC0) ∧ (contNext 24 b = 12 ↔ ¬ (0x80 ≤ b ∧ b < 0xC0)) ∧
    (contNext 36 b = 24 ↔ 0x80 ≤ b ∧ b < 0xC0) ∧ (contNext 36 b = 12 ↔ ¬ (0x80 ≤ b ∧ b < 0xC0)) ∧
    (contNext 48 b = 24 ↔ 0xA0 ≤ b ∧ b < 0xC0) ∧ (contNext 48 b = 12 ↔ ¬ (0xA0 ≤ b ∧ b < 0xC0)) ∧
    (contNext 60 b = 24 ↔ 0x80 ≤ b ∧ b < 0xA0) ∧ (contNext 60 b = 12 ↔ ¬ (0x80 ≤ b ∧ b < 0xA0)) := by
  decide

set_option maxRecDepth 100000 in
theorem contNext_table4 : ∀ b, b < 256 →
    (contNext 72 b = 36 ↔ 0x90 ≤ b ∧ b < 0xC0) ∧ (contNext 72 b = 12 ↔ ¬ (0x90 ≤ b ∧ b < 0xC0)) ∧
    (contNext 84 b = 36 ↔ 0x80 ≤ b ∧ b < 0xC0) ∧ (contNext 84 b = 12 ↔ ¬ (0x80 ≤ b ∧ b < 0xC0)) ∧
    (contNext 96 b = 36 ↔ 0x80 ≤ b ∧ b < 0x90) ∧ (contNext 96 b = 12 ↔ ¬ (0x80 ≤ b ∧ b < 0x90)) := by
  decide

theorem lead_eq (d : utf8_decoder) (h0 : d.state = 0) (b s : Nat) (hb : b < 256)
    (hs : leadNext b = s) (h12 : s ≠ 12) : d.step b = ⟨s, leadVal b⟩ := by
  subst hs; exact step_lead d h0 b hb h12

theorem cont_eq (s c b t : Nat) (hv : validState s) (h0 : s ≠ 0) (hb : b < 256)
    (ht : contNext s b = t) (h12 : t ≠ 12) :
    utf8_decoder.step ⟨s, c⟩ b = ⟨t, (c * 64 + b % 64) % 2 ^ 32⟩ := by
  subst ht; exact step_cont s c hv h0 b hb h12

theorem lead_reject (d : utf8_decoder) (h0 : d.state = 0) (b : Nat) (hb : b < 256)
    (hs : leadNext b = 12) : (d.step b).state = 12 := by
  rw [step_state d b (by rw [h0]; decide) hb]; simp [specStep, h0, hs]

theorem cont_reject (s c b : Nat) (hv : validState s) (h0 : s ≠ 0) (hb : b < 256)
    (ht : contNext s b = 12) : (utf8_decoder.step ⟨s, c⟩ b).state = 12 := by
  rw [step_state _ b hv hb]; simp [specStep, h0, ht]

/-- Decoding the three-byte form `E0+a, 80+m, 80+l`. -/
theorem decode3 (d : utf8_decoder) (h0 : d.state = 0) (a m l : Nat) (ha : a < 16)
    (hm : m < 64) (hl : l < 64) (hlo : a = 0 → 32 ≤ m) (hsur : a = 13 → m < 32) :
    ∃ s, s ≠ 0 ∧ s ≠ 12 ∧ d.step (0xE0 + a) = ⟨s, a⟩ ∧
      utf8_decoder.step ⟨s, a⟩ (0x80 + m) = ⟨24, a * 64 + m⟩ ∧
      utf8_decoder.step ⟨24, a * 64 + m⟩ (0x80 + l) = ⟨0, a * 4096 + m * 64 + l⟩ := by
  obtain ⟨-, -, t48, t36, t60, -⟩ := leadNext_table (0xE0 + a) (by omega)
  obtain ⟨-, -, v3, -⟩ := leadVal_table (0xE0 + a) (by omega)
  have hv : leadVal (0xE0 + a) = a := by have := v3 (by omega) (by omega); omega
  obtain ⟨c24, -, c36, -, c48, -, c60, -⟩ := contNext_table (0x80 + m) (by omega)
  obtain ⟨d24, -⟩ := contNext_table (0x80 + l) (by omega)
  have e2 : utf8_decoder.step ⟨24, a * 64 + m⟩ (0x80 + l) = ⟨0, a * 4096 + m * 64 + l⟩ := by
    rw [cont_eq 24 _ _ 0 (by decide) (by decide) (by omega) (d24.2 (by omega)) (by decide)]
    congr 1; omega
  have key : ∀ s, validState s → s ≠ 0 → s ≠ 12 → leadNext (0xE0 + a) = s →
      contNext s (0x80 + m) = 24 → ∃ s, s ≠ 0 ∧ s ≠ 12 ∧ d.step (0xE0 + a) = ⟨s, a⟩ ∧
      utf8_decoder.step ⟨s, a⟩ (0x80 + m) = ⟨24, a * 64 + m⟩ ∧
      utf8_decoder.step ⟨24, a * 64 + m⟩ (0x80 + l) = ⟨0, a * 4096 + m * 64 + l⟩ := by
    intro s hs hs0 hs12 h1 h2
    refine ⟨s, hs0, hs12, ?_, ?_, e2⟩
    · rw [lead_eq d h0 _ s (by omega) h1 hs12, hv]
    · rw [cont_eq s _ _ 24 hs hs0 (by omega) h2 (by decide)]
      congr 1; omega
  by_cases ha0 : a = 0
  · exact key 48 (by decide) (by decide) (by decide) (t48.2 (by omega)) (c48.2 (by omega))
  · by_cases ha13 : a = 13
    · exact key 60 (by decide) (by decide) (by decide) (t60.2 (by omega)) (c60.2 (by omega))
    · exact key 36 (by decide) (by decide) (by decide) (t36.2 (by omega)) (c36.2 (by omega))

/-- Decoding the four-byte form `F0+a, 80+h, 80+m, 80+l`. -/
theorem decode4 (d : utf8_decoder) (h0 : d.state = 0) (a h m l : Nat) (ha : a < 5)
    (hh : h < 64) (hm : m < 64) (hl : l < 64) (hlo : a = 0 → 16 ≤ h) (hhi : a = 4 → h < 16) :
    ∃ s, s ≠ 0 ∧ s ≠ 12 ∧ d.step (0xF0 + a) = ⟨s, a⟩ ∧
      utf8_decoder.step ⟨s, a⟩ (0x80 + h) = ⟨36, a * 64 + h⟩ ∧
      utf8_decoder.step ⟨36, a * 64 + h⟩ (0x80 + m) = ⟨24, a * 4096 + h * 64 + m⟩ ∧
      utf8_decoder.step ⟨24, a * 4096 + h * 64 + m⟩ (0x80 + l) =
        ⟨0, a * 262144 + h * 4096 + m * 64 + l⟩ := by
  obtain ⟨-, -, -, -, -, t72, t84, t96, -⟩ := leadNext_table (0xF0 + a) (by omega)
  obtain ⟨-, -, -, v4⟩ := leadVal_table (0xF0 + a) (by omega)
  have hv : leadVal (0xF0 + a) = a := by have := v4 (by omega); omega
  obtain ⟨c72, -, c84, -, c96, -⟩ := contNext_table4 (0x80 + h) (by omega)
  obtain ⟨-, -, m36, -⟩ := contNext_table (0x80 + m) (by omega)
  obtain ⟨d24, -⟩ := contNext_table (0x80 + l) (by omega)
  have e2 : utf8_decoder.step ⟨36, a * 64 + h⟩ (0x80 + m) = ⟨24, a * 4096 + h * 64 + m⟩ := by
    rw [cont_eq 36 _ _ 24 (by decide) (by decide) (by omega) (m36.2 (by omega)) (by decide)]
    congr 1; omega
  have e3 : utf8_decoder.step ⟨24, a * 4096 + h * 64 + m⟩ (0x80 + l) =
      ⟨0, a * 262144 + h * 4096 + m * 64 + l⟩ := by
    rw [cont_eq 24 _ _ 0 (by decide) (by decide) (by omega) (d24.2 (by omega)) (by decide)]
    congr 1; omega
  have key : ∀ s, validState s → s ≠ 0 → s ≠ 12 → leadNext (0xF0 + a) = s →
      contNext s (0x80 + h) = 36 → ∃ s, s ≠ 0 ∧ s ≠ 12 ∧ d.step (0xF0 + a) = ⟨s, a⟩ ∧
      utf8_decoder.step ⟨s, a⟩ (0x80 + h) = ⟨36, a * 64 + h⟩ ∧
      utf8_decoder.step ⟨36, a * 64 + h⟩ (0x80 + m) = ⟨24, a * 4096 + h * 64 + m⟩ ∧
      utf8_decoder.step ⟨24, a * 4096 + h * 64 + m⟩ (0x80 + l) =
        ⟨0, a * 262144 + h * 4096 + m * 64 + l⟩ := by
    intro s hs hs0 hs12 h1 h2
    refine ⟨s, hs0, hs12, ?_, ?_, e2, e3⟩
    · rw [lead_eq d h0 _ s (by omega) h1 hs12, hv]
    · rw [cont_eq s _ _ 36 hs hs0 (by omega) h2 (by decide)]
      congr 1; omega
  by_cases ha0 : a = 0
  · exact key 72 (by decide) (by decide) (by decide) (t72.2 (by omega)) (c72.2 (by omega))
  · by_cases ha4 : a = 4
    · exact key 96 (by decide) (by decide) (by decide) (t96.2 (by omega)) (c96.2 (by omega))
    · exact key 84 (by decide) (by decide) (by decide) (t84.2 (by omega)) (c84.2 (by omega))

/-- Decoding the two-byte form `C0+a, 80+l`. -/
theorem decode2 (d : utf8_decoder) (h0 : d.state = 0) (a l : Nat) (ha : 2 ≤ a) (ha' : a < 32)
    (hl : l < 64) :
    d.step (0xC0 + a) = ⟨24, a⟩ ∧ utf8_decoder.step ⟨24, a⟩ (0x80 + l) = ⟨0, a * 64 + l⟩ := by
  obtain ⟨-, t24, -⟩ := leadNext_table (0xC0 + a) (by omega)
  obtain ⟨-, v2, -⟩ := leadVal_table (0xC0 + a) (by omega)
  have hv : leadVal (0xC0 + a) = a := by have := v2 (by omega) (by omega); omega
  obtain ⟨d24, -⟩ := contNext_table (0x80 + l) (by omega)
  refine ⟨?_, ?_⟩
  · rw [lead_eq d h0 _ 24 (by omega) (t24.2 (by omega)) (by decide), hv]
  · rw [cont_eq 24 _ _ 0 (by decide) (by decide) (by omega) (d24.2 (by omega)) (by decide)]
    congr 1; omega

/-- Decoding a one-byte form. -/
theorem decode1 (d : utf8_decoder) (h0 : d.state = 0) (v : Nat) (h : v < 0x80) :
    d.step v = ⟨0, v⟩ := by
  obtain ⟨t0, -⟩ := leadNext_table v (by omega)
  obtain ⟨v1, -⟩ := leadVal_table v (by omega)
  rw [lead_eq d h0 _ 0 (by omega) (t0.2 h) (by decide), v1 h]

theorem utf8Encode_one {v : Nat} (h : v < 0x80) : utf8Encode v = [v] := by
  unfold utf8Encode; rw [if_pos h]

theorem utf8Encode_two {v : Nat} (h1 : 0x80 ≤ v) (h2 : v < 0x800) :
    utf8Encode v = [0xC0 + v / 64, 0x80 + v % 64] := by
  unfold utf8Encode; rw [if_neg (by omega), if_pos h2]

theorem utf8Encode_three {v : Nat} (h1 : 0x800 ≤ v) (h2 : v < 0x10000) :
    utf8Encode v = [0xE0 + v / 4096, 0x80 + v / 64 % 64, 0x80 + v % 64] := by
  unfold utf8Encode; rw [if_neg (by omega), if_neg (by omega), if_pos h2]

theorem utf8Encode_four {v : Nat} (h1 : 0x10000 ≤ v) :
    utf8Encode v =
      [0xF0 + v / 262144, 0x80 + v / 4096 % 64, 0x80 + v / 64 % 64, 0x80 + v % 64] := by
  unfold utf8Encode; rw [if_neg (by omega), if_neg (by omega), if_neg (by omega)]

theorem needs_more_of_state {s c : Nat} (h0 : s ≠ 0) (h12 : s ≠ 12) :
    utf8_decoder.needs_more_input ⟨s, c⟩ = true := by
  rw [needs_more_input_iff]; exact ⟨h0, h12⟩

/-- Feeding the encoding of a scalar value to a ready decoder: pending after every proper
non-empty prefix, and ready with that value after the last byte. -/
theorem decode_scalar (v : Nat) (hv : isScalar v) (d : utf8_decoder) (hd : d.state = 0) :
    (∀ k, 0 < k → k < (utf8Encode v).length →
      (feed d ((utf8Encode v).take k)).needs_more_input = true) ∧
    feed d (utf8Encode v) = ⟨0, v⟩ := by
  obtain ⟨hmax, hsur⟩ := hv
  by_cases h1 : v < 0x80
  · rw [utf8Encode_one h1]
    refine ⟨fun k hk hk' => ?_, ?_⟩
    · simp at hk'; omega
    · rw [feed_cons, feed_nil, decode1 d hd v h1]
  by_cases h2 : v < 0x800
  · rw [utf8Encode_two (by omega) h2]
    obtain ⟨e1, e2⟩ := decode2 d hd (v / 64) (v % 64) (by omega) (by omega) (by omega)
    refine ⟨fun k hk hk' => ?_, ?_⟩
    · have : k = 1 := by simp at hk'; omega
      subst this
      simp only [List.take_succ_cons, List.take_zero, feed_cons, feed_nil, e1]
      exact needs_more_of_state (by decide) (by decide)
    · rw [feed_cons, feed_cons, feed_nil, e1, e2]; congr 1; omega
  by_cases h3 : v < 0x10000
  · rw [utf8Encode_three (by omega) h3]
    obtain ⟨s, hs0, hs12, e1, e2, e3⟩ := decode3 d hd (v / 4096) (v / 64 % 64) (v % 64)
      (by omega) (by omega) (by omega) (by omega) (by omega)
    refine ⟨fun k hk hk' => ?_, ?_⟩
    · have : k = 1 ∨ k = 2 := by simp at hk'; omega
      rcases this with rfl | rfl
      · simp only [List.take_succ_cons, List.take_zero, feed_cons, feed_nil, e1]
        exact needs_more_of_state hs0 hs12
      · simp only [List.take_succ_cons, List.take_zero, feed_cons, feed_nil, e1, e2]
        exact needs_more_of_state (by decide) (by decide)
    · rw [feed_cons, feed_cons, feed_cons, feed_nil, e1, e2, e3]; congr 1; omega
  · rw [utf8Encode_four (by omega)]
    obtain ⟨s, hs0, hs12, e1, e2, e3, e4⟩ := decode4 d hd (v / 262144) (v / 4096 % 64)
      (v / 64 % 64) (v % 64) (by omega) (by omega) (by omega) (by omega) (by omega) (by omega)
    refine ⟨fun k hk hk' => ?_, ?_⟩
    · have : k = 1 ∨ k = 2 ∨ k = 3 := by simp at hk'; omega
      rcases this with rfl | rfl | rfl
      · simp only [List.take_succ_cons, List.take_zero, feed_cons, feed_nil, e1]
        exact needs_more_of_state hs0 hs12
      · simp only [List.take_succ_cons, List.take_zero, feed_cons, feed_nil, e1, e2]
        exact needs_more_of_state (by decide) (by decide)
      · simp only [List.take_succ_cons, List.take_zero, feed_cons, feed_nil, e1, e2, e3]
        exact needs_more_of_state (by decide) (by decide)
    · rw [feed_cons, feed_cons, feed_cons, feed_cons, feed_nil, e1, e2, e3, e4]; congr 1; omega

theorem utf8Encode_length (v : Nat) :
    1 ≤ (utf8Encode v).length ∧ (utf8Encode v).length ≤ 4 := by
  unfold utf8Encode; split_ifs <;> simp

theorem utf8Encode_byte (v : Nat) (hv : v ≤ 0x10FFFF) : ∀ b ∈ utf8Encode v, b < 256 := by
  intro b hb
  unfold utf8Encode at hb
  split_ifs at hb <;> simp at hb <;> omega

/-- C1: for every Unicode scalar value `v`, feeding the bytes of its UTF-8 encoding one at
a time to a decoder in the ready state leaves `needs_more_input()` true after every proper
non-empty prefix and, after the last byte, `has_code_point()` true with `codepoint == v`. -/
theorem utf8_decoder_decodes_scalar (v : Nat) (hv : isScalar v) (d : utf8_decoder)
    (hd : d.state = 0) :
    (∀ k, 0 < k → k < (utf8Encode v).length →
      (feed d ((utf8Encode v).take k)).needs_more_input = true) ∧
    (feed d (utf8Encode v)).has_code_point = true ∧
    (feed d (utf8Encode v)).codepoint = v := by
  obtain ⟨h1, h2⟩ := decode_scalar v hv d hd
  refine ⟨h1, ?_, ?_⟩
  · rw [h2]; rfl
  · rw [h2]

/-- C1 at `v = 0x20AC` (the euro sign, `E2 82 AC`). -/
theorem utf8_decoder_decodes_scalar_witness :
    isScalar 0x20AC ∧ utf8_decoder.fresh.state = 0 ∧
    ((∀ k, 0 < k → k < (utf8Encode 0x20AC).length →
      (feed utf8_decoder.fresh ((utf8Encode 0x20AC).take k)).needs_more_input = true) ∧
    (feed utf8_decoder.fresh (utf8Encode 0x20AC)).has_code_point = true ∧
    (feed utf8_decoder.fresh (utf8Encode 0x20AC)).codepoint = 0x20AC) :=
  ⟨by decide, rfl, utf8_decoder_decodes_scalar 0x20AC (by decide) utf8_decoder.fresh rfl⟩

set_option maxRecDepth 100000 in
theorem leadNext_arith : ∀ b, b < 256 →
    (b < 0x80 ∧ leadNext b = 0) ∨ (0xC2 ≤ b ∧ b < 0xE0 ∧ leadNext b = 24) ∨
    (b = 0xE0 ∧ leadNext b = 48) ∨ (0xE1 ≤ b ∧ b < 0xF0 ∧ b ≠ 0xED ∧ leadNext b = 36) ∨
    (b = 0xED ∧ leadNext b = 60) ∨ (b = 0xF0 ∧ leadNext b = 72) ∨
    (0xF1 ≤ b ∧ b < 0xF4 ∧ leadNext b = 84) ∨ (b = 0xF4 ∧ leadNext b = 96) ∨
    (((0x80 ≤ b ∧ b < 0xC2) ∨ 0xF5 ≤ b) ∧ leadNext b = 12) := by
  decide

set_option maxRecDepth 100000 in
theorem contNext_arith : ∀ b, b < 256 →
    (((0x80 ≤ b ∧ b < 0xC0) ∧ contNext 24 b = 0) ∨ (¬ (0x80 ≤ b ∧ b < 0xC0) ∧ contNext 24 b = 12)) ∧
    (((0x80 ≤ b ∧ b < 0xC0) ∧ contNext 36 b = 24) ∨ (¬ (0x80 ≤ b ∧ b < 0xC0) ∧ contNext 36 b = 12)) ∧
    (((0xA0 ≤ b ∧ b < 0xC0) ∧ contNext 48 b = 24) ∨ (¬ (0xA0 ≤ b ∧ b < 0xC0) ∧ contNext 48 b = 12)) ∧
    (((0x80 ≤ b ∧ b < 0xA0) ∧ contNext 60 b = 24) ∨ (¬ (0x80 ≤ b ∧ b < 0xA0) ∧ contNext 60 b = 12)) := by
  decide

set_option maxRecDepth 100000 in
theorem contNext_arith4 : ∀ b, b < 256 →
    (((0x90 ≤ b ∧ b < 0xC0) ∧ contNext 72 b = 36) ∨ (¬ (0x90 ≤ b ∧ b < 0xC0) ∧ contNext 72 b = 12)) ∧
    (((0x80 ≤ b ∧ b < 0xC0) ∧ contNext 84 b = 36) ∨ (¬ (0x80 ≤ b ∧ b < 0xC0) ∧ contNext 84 b = 12)) ∧
    (((0x80 ≤ b ∧ b < 0x90) ∧ contNext 96 b = 36) ∨ (¬ (0x80 ≤ b ∧ b < 0x90) ∧ contNext 96 b = 12)) := by
  decide

theorem contNext_twelve (b : Nat) : contNext 12 b = 12 := by
  unfold contNext; simp

/-- The state reached by one step, as a function of the state and the byte. -/
theorem specStep_state (s c b : Nat) :
    (specStep ⟨s, c⟩ b).state = if s = 0 then leadNext b else contNext s b := by
  unfold specStep; split_ifs <;> rfl

theorem pendingAt_valid {p : List Nat} {s : Nat} (h : pendingAt p s) : validState s := by
  rw [validState_iff]
  match p, h with
  | [], h => simp only [pendingAt] at h; omega
  | [a], h => simp only [pendingAt] at h; omega
  | [a, b], h => simp only [pendingAt] at h; omega
  | [a, b, c], h => simp only [pendingAt] at h; omega

theorem pendingAt_ne_reject {p : List Nat} {s : Nat} (h : pendingAt p s) : s ≠ 12 := by
  match p, h with
  | [], h => simp only [pendingAt] at h; omega
  | [a], h => simp only [pendingAt] at h; omega
  | [a, b], h => simp only [pendingAt] at h; omega
  | [a, b, c], h => simp only [pendingAt] at h; omega

theorem pendingAt_zero {p : List Nat} (h : pendingAt p 0) : p = [] := by
  match p, h with
  | [], _ => rfl
  | [a], h => simp only [pendingAt] at h; omega
  | [a, b], h => simp only [pendingAt] at h; omega
  | [a, b, c], h => simp only [pendingAt] at h; omega

theorem encode_eq_one {b : Nat} (h : b < 0x80) : isScalar b ∧ [b] = utf8Encode b := by
  refine ⟨?_, (utf8Encode_one h).symm⟩
  unfold isScalar; omega

theorem encode_eq_two {a b : Nat} (h1 : 0xC2 ≤ a) (h2 : a < 0xE0) (h3 : 0x80 ≤ b)
    (h4 : b < 0xC0) :
    isScalar ((a - 0xC0) * 64 + (b - 0x80)) ∧
      [a, b] = utf8Encode ((a - 0xC0) * 64 + (b - 0x80)) := by
  refine ⟨?_, ?_⟩
  · unfold isScalar; omega
  · rw [utf8Encode_two (by omega) (by omega)]
    simp only [List.cons.injEq, and_true]; omega

theorem encode_eq_three {a b c : Nat} (h : second3 a b) (h3 : 0x80 ≤ c) (h4 : c < 0xC0) :
    isScalar ((a - 0xE0) * 4096 + (b - 0x80) * 64 + (c - 0x80)) ∧
      [a, b, c] = utf8Encode ((a - 0xE0) * 4096 + (b - 0x80) * 64 + (c - 0x80)) := by
  unfold second3 at h
  refine ⟨?_, ?_⟩
  · unfold isScalar; omega
  · rw [utf8Encode_three (by omega) (by omega)]
    simp only [List.cons.injEq, and_true]; omega

theorem encode_eq_four {a b c e : Nat} (h : second4 a b) (h1 : 0x80 ≤ c) (h2 : c < 0xC0)
    (h3 : 0x80 ≤ e) (h4 : e < 0xC0) :
    isScalar ((a - 0xF0) * 262144 + (b - 0x80) * 4096 + (c - 0x80) * 64 + (e - 0x80)) ∧
      [a, b, c, e] =
        utf8Encode ((a - 0xF0) * 262144 + (b - 0x80) * 4096 + (c - 0x80) * 64 + (e - 0x80)) := by
  unfold second4 at h
  refine ⟨?_, ?_⟩
  · unfold isScalar; omega
  · rw [utf8Encode_four (by omega)]
    simp only [List.cons.injEq, and_true]; omega

/-- One step of the automaton on a proper prefix pattern: unless the step rejects, either
the sequence read is now the encoding of a scalar value, or it is a longer prefix pattern. -/
theorem pending_step (p : List Nat) (s b t : Nat) (hp : pendingAt p s) (hb : b < 256)
    (ht : (if s = 0 then leadNext b else contNext s b) = t) (h12 : t ≠ 12) :
    (t = 0 → ∃ v, isScalar v ∧ p ++ [b] = utf8Encode v) ∧
    (t ≠ 0 → pendingAt (p ++ [b]) t) := by
  rcases p with _ | ⟨a, _ | ⟨a', _ | ⟨c, _ | ⟨e, r⟩⟩⟩⟩
  · simp only [pendingAt] at hp
    subst hp
    rw [if_pos rfl] at ht
    subst ht
    simp only [List.nil_append, pendingAt]
    rcases leadNext_arith b hb with ⟨h, e⟩ | ⟨h1, h2, e⟩ | ⟨h, e⟩ | ⟨h1, h2, h3, e⟩ | ⟨h, e⟩ |
      ⟨h, e⟩ | ⟨h1, h2, e⟩ | ⟨h, e⟩ | ⟨h, e⟩
    · exact ⟨fun _ => ⟨b, encode_eq_one h⟩, fun h0 => absurd e h0⟩
    · exact ⟨fun h0 => by omega, fun _ => Or.inl ⟨h1, h2, e⟩⟩
    · exact ⟨fun h0 => by omega, fun _ => Or.inr (Or.inl ⟨h, e⟩)⟩
    · exact ⟨fun h0 => by omega, fun _ => Or.inr (Or.inr (Or.inl ⟨h1, h2, h3, e⟩))⟩
    · exact ⟨fun h0 => by omega, fun _ => Or.inr (Or.inr (Or.inr (Or.inl ⟨h, e⟩)))⟩
    · exact ⟨fun h0 => by omega, fun _ => Or.inr (Or.inr (Or.inr (Or.inr (Or.inl ⟨h, e⟩))))⟩
    · exact ⟨fun h0 => by omega,
        fun _ => Or.inr (Or.inr (Or.inr (Or.inr (Or.inr (Or.inl ⟨h1, h2, e⟩)))))⟩
    · exact ⟨fun h0 => by omega,
        fun _ => Or.inr (Or.inr (Or.inr (Or.inr (Or.inr (Or.inr ⟨h, e⟩)))))⟩
    · exact absurd e h12
  · simp only [pendingAt] at hp
    have hs0 : s ≠ 0 := by omega
    rw [if_neg hs0] at ht
    subst ht
    simp only [List.cons_append, List.nil_append, pendingAt]
    obtain ⟨c24, c36, c48, c60⟩ := contNext_arith b hb
    obtain ⟨c72, c84, c96⟩ := contNext_arith4 b hb
    rcases hp with ⟨h1, h2, rfl⟩ | ⟨h1, rfl⟩ | ⟨h1, h2, h3, rfl⟩ | ⟨h1, rfl⟩ | ⟨h1, rfl⟩ |
      ⟨h1, h2, rfl⟩ | ⟨h1, rfl⟩
    · exact ⟨fun h0 => ⟨_, encode_eq_two h1 h2 (by omega) (by omega)⟩, fun h0 => by omega⟩
    · exact ⟨fun h0 => by omega,
        fun h0 => Or.inl ⟨Or.inl ⟨h1, by omega, by omega⟩, by omega⟩⟩
    · exact ⟨fun h0 => by omega,
        fun h0 => Or.inl ⟨Or.inr (Or.inl ⟨h1, h2, h3, by omega, by omega⟩), by omega⟩⟩
    · exact ⟨fun h0 => by omega,
        fun h0 => Or.inl ⟨Or.inr (Or.inr ⟨h1, by omega, by omega⟩), by omega⟩⟩
    · exact ⟨fun h0 => by omega,
        fun h0 => Or.inr ⟨Or.inl ⟨h1, by omega, by omega⟩, by omega⟩⟩
    · exact ⟨fun h0 => by omega,
        fun h0 => Or.inr ⟨Or.inr (Or.inl ⟨h1, h2, by omega, by omega⟩), by omega⟩⟩
    · exact ⟨fun h0 => by omega,
        fun h0 => Or.inr ⟨Or.inr (Or.inr ⟨h1, by omega, by omega⟩), by omega⟩⟩
  · simp only [pendingAt] at hp
    have hs0 : s ≠ 0 := by omega
    rw [if_neg hs0] at ht
    subst ht
    obtain ⟨c24, c36, -, -⟩ := contNext_arith b hb
    rcases hp with ⟨h1, rfl⟩ | ⟨h1, rfl⟩
    · exact ⟨fun h0 => ⟨_, encode_eq_three h1 (by omega) (by omega)⟩, fun h0 => by omega⟩
    · refine ⟨fun h0 => by omega, fun h0 => ?_⟩
      simp only [List.cons_append, List.nil_append, pendingAt]
      exact ⟨h1, by omega, by omega, by omega⟩
  · simp only [pendingAt] at hp
    obtain ⟨h1, h2, h3, rfl⟩ := hp
    rw [if_neg (by decide)] at ht
    subst ht
    obtain ⟨c24, -, -, -⟩ := contNext_arith b hb
    exact ⟨fun h0 => ⟨_, encode_eq_four h1 h2 h3 (by omega) (by omega)⟩, fun h0 => by omega⟩
  · simp only [pendingAt] at hp

theorem utf8EncodeAll_nil : utf8EncodeAll [] = [] := rfl

theorem utf8EncodeAll_cons (v : Nat) (vs : List Nat) :
    utf8EncodeAll (v :: vs) = utf8Encode v ++ utf8EncodeAll vs := by
  simp [utf8EncodeAll]

theorem utf8EncodeAll_append (vs ws : List Nat) :
    utf8EncodeAll (vs ++ ws) = utf8EncodeAll vs ++ utf8EncodeAll ws := by
  simp [utf8EncodeAll]

theorem utf8EncodeAll_snoc (vs : List Nat) (v : Nat) :
    utf8EncodeAll (vs ++ [v]) = utf8EncodeAll vs ++ utf8Encode v := by
  simp [utf8EncodeAll]

theorem utf8EncodeAll_byte (vs : List Nat) (hvs : ∀ v ∈ vs, isScalar v) :
    ∀ b ∈ utf8EncodeAll vs, b < 256 := by
  intro b hb
  simp only [utf8EncodeAll, List.mem_flatMap] at hb
  obtain ⟨v, hv, hb⟩ := hb
  exact utf8Encode_byte v (hvs v hv).1 b hb

theorem properPrefix_of {p q : List Nat} {v : Nat} (h : isScalar v ∧ p ++ q = utf8Encode v)
    (hp : p ≠ []) (hq : q ≠ []) : properPrefix p := by
  refine ⟨v, h.1, hp, ?_, ?_⟩
  · rw [← h.2]; intro e
    have := congrArg List.length e
    simp at this; exact hq this
  · rw [← h.2]; exact List.prefix_append p q

/-- Every non-empty prefix pattern is a proper prefix of the encoding of a scalar value. -/
theorem pendingAt_properPrefix {p : List Nat} {s : Nat} (hp : pendingAt p s) (hs : s ≠ 0) :
    properPrefix p := by
  rcases p with _ | ⟨a, _ | ⟨a', _ | ⟨c, _ | ⟨e, r⟩⟩⟩⟩
  · exact absurd hp hs
  · simp only [pendingAt] at hp
    rcases hp with ⟨h1, h2, -⟩ | ⟨h1, -⟩ | ⟨h1, h2, h3, -⟩ | ⟨h1, -⟩ | ⟨h1, -⟩ |
      ⟨h1, h2, -⟩ | ⟨h1, -⟩
    · exact properPrefix_of (q := [0x80])
        (encode_eq_two h1 h2 (by decide) (by decide)) (by simp) (by simp)
    · exact properPrefix_of (q := [0xA0, 0x80])
        (encode_eq_three (Or.inl ⟨h1, by decide, by decide⟩) (by decide) (by decide))
        (by simp) (by simp)
    · exact properPrefix_of (q := [0x80, 0x80])
        (encode_eq_three (Or.inr (Or.inl ⟨h1, h2, h3, by decide, by decide⟩))
          (by decide) (by decide)) (by simp) (by simp)
    · exact properPrefix_of (q := [0x80, 0x80])
        (encode_eq_three (Or.inr (Or.inr ⟨h1, by decide, by decide⟩)) (by decide) (by decide))
        (by simp) (by simp)
    · exact properPrefix_of (q := [0x90, 0x80, 0x80])
        (encode_eq_four (Or.inl ⟨h1, by decide, by decide⟩) (by decide) (by decide)
          (by decide) (by decide)) (by simp) (by simp)
    · exact properPrefix_of (q := [0x80, 0x80, 0x80])
        (encode_eq_four (Or.inr (Or.inl ⟨h1, h2, by decide, by decide⟩)) (by decide) (by decide)
          (by decide) (by decide)) (by simp) (by simp)
    · exact properPrefix_of (q := [0x80, 0x80, 0x80])
        (encode_eq_four (Or.inr (Or.inr ⟨h1, by decide, by decide⟩)) (by decide) (by decide)
          (by decide) (by decide)) (by simp) (by simp)
  · simp only [pendingAt] at hp
    rcases hp with ⟨h1, -⟩ | ⟨h1, -⟩
    · exact properPrefix_of (q := [0x80]) (encode_eq_three h1 (by decide) (by decide))
        (by simp) (by simp)
    · exact properPrefix_of (q := [0x80, 0x80])
        (encode_eq_four h1 (by decide) (by decide) (by decide) (by decide)) (by simp) (by simp)
  · simp only [pendingAt] at hp
    obtain ⟨h1, h2, h3, -⟩ := hp
    exact properPrefix_of (q := [0x80]) (encode_eq_four h1 h2 h3 (by decide) (by decide))
      (by simp) (by simp)
  · simp only [pendingAt] at hp

theorem run_nil (d : utf8_decoder) : run d [] = d := rfl

theorem run_cons (d : utf8_decoder) (b : Nat) (bs : List Nat) :
    run d (b :: bs) = if d.error then d else run (d.step b) bs := rfl

theorem run_of_error (d : utf8_decoder) (h : d.error = true) (bs : List Nat) : run d bs = d := by
  cases bs with
  | nil => rfl
  | cons b bs => rw [run_cons, if_pos h]

theorem run_append (d : utf8_decoder) (as bs : List Nat) :
    run d (as ++ bs) = run (run d as) bs := by
  induction as generalizing d with
  | nil => rfl
  | cons a as ih =>
    rw [List.cons_append, run_cons, run_cons]
    by_cases h : d.error = true
    · rw [if_pos h, if_pos h, run_of_error d h]
    · rw [if_neg h, if_neg h, ih]

theorem run_snoc (d : utf8_decoder) (bs : List Nat) (b : Nat) :
    run d (bs ++ [b]) = if (run d bs).error then run d bs else (run d bs).step b := by
  rw [run_append, run_cons, run_nil]

theorem run_eq_feed (bs : List Nat) (d : utf8_decoder)
    (h : ∀ k, k < bs.length → (feed d (bs.take k)).error = false) : run d bs = feed d bs := by
  induction bs generalizing d with
  | nil => rfl
  | cons b bs ih =>
    have h0 : d.error = false := h 0 (by simp)
    rw [run_cons, feed_cons, h0]
    simp only [Bool.false_eq_true, if_false]
    apply ih
    intro k hk
    have := h (k + 1) (by simpa using hk)
    simpa [feed_cons] using this

theorem run_valid (bs : List Nat) (hbs : ∀ b ∈ bs, b < 256) (d : utf8_decoder)
    (hd : validState d.state) : validState (run d bs).state := by
  induction bs generalizing d with
  | nil => exact hd
  | cons b bs ih =>
    rw [run_cons]
    split_ifs
    · exact hd
    · exact ih (fun x hx => hbs x (List.mem_cons_of_mem _ hx)) _
        (step_valid d b hd (hbs b (List.mem_cons_self _ _)))

theorem error_false_of_needs_more {d : utf8_decoder} (h : d.needs_more_input = true) :
    d.error = false := by
  rw [needs_more_input_iff] at h
  simp [utf8_decoder.error, h.2]

/-- Running (with the stop at reject) over the encoding of a scalar value, from ready. -/
theorem run_encode (v : Nat) (hv : isScalar v) (d : utf8_decoder) (hd : d.state = 0) :
    run d (utf8Encode v) = ⟨0, v⟩ := by
  obtain ⟨h1, h2⟩ := decode_scalar v hv d hd
  rw [run_eq_feed, h2]
  intro k hk
  rcases Nat.eq_zero_or_pos k with rfl | hk0
  · simp [feed_nil, utf8_decoder.error, hd]
  · exact error_false_of_needs_more (h1 k hk0 hk)

theorem run_encodeAll (vs : List Nat) (hvs : ∀ v ∈ vs, isScalar v) (d : utf8_decoder)
    (hd : d.state = 0) : (run d (utf8EncodeAll vs)).state = 0 := by
  induction vs generalizing d with
  | nil => exact hd
  | cons v vs ih =>
    rw [utf8EncodeAll_cons, run_append, run_encode v (hvs v (List.mem_cons_self _ _)) d hd]
    exact ih (fun x hx => hvs x (List.mem_cons_of_mem _ hx)) _ rfl

theorem fresh_state : utf8_decoder.fresh.state = 0 := rfl

theorem step_state_eq (d : utf8_decoder) (b : Nat) (hs : validState d.state) (hb : b < 256) :
    (d.step b).state = if d.state = 0 then leadNext b else contNext d.state b := by
  rw [step_state d b hs hb]
  cases d; exact specStep_state _ _ _

/-- Decomposition of the input read so far, as long as the automaton has not rejected:
encodings of scalar values followed by a prefix pattern matching the current state. -/
theorem run_decompose (bs : List Nat) (hbs : ∀ b ∈ bs, b < 256)
    (h : (run utf8_decoder.fresh bs).state ≠ 12) :
    ∃ (vs : List Nat) (p : List Nat), (∀ v ∈ vs, isScalar v) ∧ bs = utf8EncodeAll vs ++ p ∧
      pendingAt p (run utf8_decoder.fresh bs).state := by
  induction bs using List.reverseRecOn with
  | nil => exact ⟨[], [], by simp, rfl, rfl⟩
  | append_singleton bs b ih =>
    have hb : b < 256 := hbs b (by simp)
    have hbs' : ∀ x ∈ bs, x < 256 := fun x hx => hbs x (by simp [hx])
    rw [run_snoc] at h ⊢
    by_cases he : (run utf8_decoder.fresh bs).error = true
    · rw [if_pos he] at h
      exact absurd ((error_iff _).1 he) h
    · rw [if_neg he] at h ⊢
      have hne : (run utf8_decoder.fresh bs).state ≠ 12 := fun e => he ((error_iff _).2 e)
      obtain ⟨vs, p, hvs, hdec, hp⟩ := ih hbs' hne
      have hv := run_valid bs hbs' utf8_decoder.fresh (by decide)
      have hst := step_state_eq _ b hv hb
      obtain ⟨k0, k1⟩ := pending_step p _ b _ hp hb hst.symm h
      by_cases h0 : ((run utf8_decoder.fresh bs).step b).state = 0
      · obtain ⟨v, hsv, hev⟩ := k0 h0
        refine ⟨vs ++ [v], [], ?_, ?_, ?_⟩
        · intro x hx
          rcases List.mem_append.1 hx with hx | hx
          · exact hvs x hx
          · simp at hx; subst hx; exact hsv
        · rw [utf8EncodeAll_snoc, List.append_nil, ← hev, ← List.append_assoc, ← hdec]
        · rw [h0]; rfl
      · exact ⟨vs, p ++ [b], hvs, by rw [← List.append_assoc, ← hdec], k1 h0⟩

/-- A proper non-empty prefix of an encoding leaves the automaton pending. -/
theorem run_properPrefix (d : utf8_decoder) (hd : d.state = 0) (p : List Nat)
    (hp : properPrefix p) : (run d p).needs_more_input = true := by
  obtain ⟨v, hv, hne, hneq, hpre⟩ := hp
  obtain ⟨h1, -⟩ := decode_scalar v hv d hd
  have hlen : p.length < (utf8Encode v).length := by
    have hle := hpre.length_le
    rcases Nat.lt_or_ge p.length (utf8Encode v).length with h | h
    · exact h
    · exact absurd (hpre.eq_of_length (Nat.le_antisymm hle h)) hneq
  have hpos : 0 < p.length := List.length_pos.2 hne
  have htake : ∀ k, k ≤ p.length → p.take k = (utf8Encode v).take k := by
    intro k hk
    obtain ⟨t, ht⟩ := hpre
    rw [← ht, List.take_append_of_le_length hk]
  rw [run_eq_feed]
  · have := h1 p.length hpos hlen
    rwa [← htake p.length (Nat.le_refl _), List.take_length] at this
  · intro k hk
    rw [htake k (Nat.le_of_lt hk)]
    rcases Nat.eq_zero_or_pos k with rfl | hk0
    · simp [feed_nil, utf8_decoder.error, hd]
    · exact error_false_of_needs_more (h1 k hk0 (Nat.lt_trans hk hlen))

theorem run_wellFormed (bs : List Nat) (h : wellFormed bs) :
    (run utf8_decoder.fresh bs).state = 0 := by
  obtain ⟨vs, hvs, rfl⟩ := h
  exact run_encodeAll vs hvs _ rfl

theorem run_truncatedForm (bs : List Nat) (h : truncatedForm bs) :
    (run utf8_decoder.fresh bs).needs_more_input = true := by
  obtain ⟨vs, p, hvs, hp, rfl⟩ := h
  rw [run_append]
  exact run_properPrefix _ (run_encodeAll vs hvs _ rfl) p hp

theorem run_reject_lead (d : utf8_decoder) (hd : d.state = 0) (b : Nat) (hb : b < 256)
    (h : (0x80 ≤ b ∧ b < 0xC2) ∨ 0xF5 ≤ b) (rest : List Nat) :
    (run d (b :: rest)).error = true := by
  have he : d.error = false := by simp [utf8_decoder.error, hd]
  have h12 : leadNext b = 12 := by have := leadNext_arith b hb; omega
  have hs := lead_reject d hd b hb h12
  rw [run_cons, he]
  simp only [Bool.false_eq_true, if_false]
  rw [run_of_error _ ((error_iff _).2 hs)]
  exact (error_iff _).2 hs

theorem run_reject_second (d : utf8_decoder) (hd : d.state = 0) (a b s : Nat) (ha : a < 256)
    (hb : b < 256) (hs : leadNext a = s) (hv : validState s) (hs0 : s ≠ 0) (hs12 : s ≠ 12)
    (hc : contNext s b = 12) (rest : List Nat) :
    (run d (a :: b :: rest)).error = true := by
  have he : d.error = false := by simp [utf8_decoder.error, hd]
  have e1 := lead_eq d hd a s ha hs hs12
  have e2 := cont_reject s (leadVal a) b hv hs0 hb hc
  have he1 : utf8_decoder.error ⟨s, leadVal a⟩ = false := by simp [utf8_decoder.error, hs12]
  rw [run_cons, he]
  simp only [Bool.false_eq_true, if_false]
  rw [e1, run_cons, he1]
  simp only [Bool.false_eq_true, if_false]
  rw [run_of_error _ ((error_iff _).2 e2)]
  exact (error_iff _).2 e2

/-- C2: running a fresh decoder over a byte sequence (stopping at reject) ends ready
exactly when the sequence is a concatenation of well-formed encodings of scalar values,
ends pending exactly when it is such a concatenation followed by a proper non-empty prefix
of an encoding, and ends in reject otherwise; in particular, after any well-formed part,
the overlong forms (lead `C0`/`C1`, `E0` then `80..9F`, `F0` then `80..8F`), the surrogate
forms (`ED` then `A0..BF`) and the forms above U+10FFFF (`F4` then `90..BF`, lead `F5..FF`)
are rejected. -/
theorem utf8_decoder_language (bs : List Nat) (hbs : ∀ b ∈ bs, b < 256) :
    ((run utf8_decoder.fresh bs).has_code_point = true ↔ wellFormed bs) ∧
    ((run utf8_decoder.fresh bs).needs_more_input = true ↔ truncatedForm bs) ∧
    ((run utf8_decoder.fresh bs).error = true ↔ ¬ wellFormed bs ∧ ¬ truncatedForm bs) ∧
    (∀ pre rest : List Nat, wellFormed pre → ∀ b, b < 256 →
      ((b = 0xC0 ∨ b = 0xC1 ∨ 0xF5 ≤ b) →
        (run utf8_decoder.fresh (pre ++ b :: rest)).error = true) ∧
      (0x80 ≤ b ∧ b ≤ 0x9F →
        (run utf8_decoder.fresh (pre ++ 0xE0 :: b :: rest)).error = true) ∧
      (0x80 ≤ b ∧ b ≤ 0x8F →
        (run utf8_decoder.fresh (pre ++ 0xF0 :: b :: rest)).error = true) ∧
      (0xA0 ≤ b ∧ b ≤ 0xBF →
        (run utf8_decoder.fresh (pre ++ 0xED :: b :: rest)).error = true) ∧
      (0x90 ≤ b ∧ b ≤ 0xBF →
        (run utf8_decoder.fresh (pre ++ 0xF4 :: b :: rest)).error = true)) := by
  have hready : (run utf8_decoder.fresh bs).has_code_point = true ↔ wellFormed bs := by
    rw [has_code_point_iff]
    constructor
    · intro h0
      obtain ⟨vs, p, hvs, hdec, hp⟩ := run_decompose bs hbs (by rw [h0]; decide)
      rw [h0] at hp
      rw [pendingAt_zero hp, List.append_nil] at hdec
      exact ⟨vs, hvs, hdec⟩
    · exact run_wellFormed bs
  have hpend : (run utf8_decoder.fresh bs).needs_more_input = true ↔ truncatedForm bs := by
    constructor
    · intro h
      rw [needs_more_input_iff] at h
      obtain ⟨vs, p, hvs, hdec, hp⟩ := run_decompose bs hbs h.2
      exact ⟨vs, p, hvs, pendingAt_properPrefix hp h.1, hdec⟩
    · exact run_truncatedForm bs
  refine ⟨hready, hpend, ?_, ?_⟩
  · rw [← hready, ← hpend, has_code_point_iff, needs_more_input_iff, error_iff]
    omega
  · intro pre rest hpre b hb
    have h0 := run_wellFormed pre hpre
    have e72 : leadNext 0xF0 = 72 := by decide
    have e48 : leadNext 0xE0 = 48 := by decide
    have e60 : leadNext 0xED = 60 := by decide
    have e96 : leadNext 0xF4 = 96 := by decide
    obtain ⟨-, -, c48, c60⟩ := contNext_arith b hb
    obtain ⟨c72, -, c96⟩ := contNext_arith4 b hb
    refine ⟨fun h => ?_, fun h => ?_, fun h => ?_, fun h => ?_, fun h => ?_⟩
    · rw [run_append]
      exact run_reject_lead _ h0 b hb (by omega) rest
    · rw [run_append]
      exact run_reject_second _ h0 0xE0 b 48 (by decide) hb e48 (by decide) (by decide)
        (by decide) (by omega) rest
    · rw [run_append]
      exact run_reject_second _ h0 0xF0 b 72 (by decide) hb e72 (by decide) (by decide)
        (by decide) (by omega) rest
    · rw [run_append]
      exact run_reject_second _ h0 0xED b 60 (by decide) hb e60 (by decide) (by decide)
        (by decide) (by omega) rest
    · rw [run_append]
      exact run_reject_second _ h0 0xF4 b 96 (by decide) hb e96 (by decide) (by decide)
        (by decide) (by omega) rest

/-- C2 at the overlong form `C0 80`. -/
theorem utf8_decoder_language_witness :
    (∀ b ∈ [0xC0, 0x80], b < 256) ∧
    ((run utf8_decoder.fresh [0xC0, 0x80]).error = true ↔
      ¬ wellFormed [0xC0, 0x80] ∧ ¬ truncatedForm [0xC0, 0x80]) :=
  ⟨by decide, (utf8_decoder_language [0xC0, 0x80] (by decide)).2.2.1⟩

/-! ### Bounds of the table lookups, and the whitespace class -/

set_option maxRecDepth 100000 in
theorem class_le_eleven : ∀ b, b < 256 → state_table.getD b 0 ≤ 11 := by
  decide

set_option maxRecDepth 100000 in
theorem reject_absorbing : ∀ c, c ≤ 11 → state_table.getD (12 + 256 + c) 0 = 12 := by
  decide

theorem feed_valid (bs : List Nat) (hbs : ∀ b ∈ bs, b < 256) (d : utf8_decoder)
    (hd : validState d.state) : validState (feed d bs).state := by
  induction bs generalizing d with
  | nil => exact hd
  | cons b bs ih =>
    rw [feed_cons]
    exact ih (fun x hx => hbs x (List.mem_cons_of_mem _ hx)) _
      (step_valid d b hd (hbs b (List.mem_cons_self _ _)))

theorem validState_le {s : Nat} (h : validState s) : s ≤ 96 := by
  rw [validState_iff] at h; omega

/-- C20: for every byte sequence fed to a fresh decoder the state stays in
{0, 12, 24, 36, 48, 60, 72, 84, 96}; the class `state_table[byte]` of a byte is at most 11
and read inside the table; the transition index `state + 256 + class` is below 364, the
length of `state_table`; and the reject state 12 is absorbing: every class maps 12 to 12. -/
theorem state_table_lookups_in_bounds (bs : List Nat) (hbs : ∀ b ∈ bs, b < 256) :
    state_table.length = 364 ∧
    (∀ k, validState (feed utf8_decoder.fresh (bs.take k)).state ∧
      validState (run utf8_decoder.fresh (bs.take k)).state) ∧
    (∀ b, b < 256 → b < state_table.length ∧ state_table.getD b 0 ≤ 11) ∧
    (∀ k b, b < 256 →
      (feed utf8_decoder.fresh (bs.take k)).state + 256 + state_table.getD b 0 < 364) ∧
    (∀ c, c ≤ 11 → state_table.getD (12 + 256 + c) 0 = 12) := by
  have hv : ∀ k, validState (feed utf8_decoder.fresh (bs.take k)).state := fun k =>
    feed_valid _ (fun x hx => hbs x (List.mem_of_mem_take hx)) _ (by decide)
  refine ⟨state_table_length, fun k => ⟨hv k, ?_⟩, fun b hb => ⟨?_, class_le_eleven b hb⟩,
    fun k b hb => ?_, reject_absorbing⟩
  · exact run_valid _ (fun x hx => hbs x (List.mem_of_mem_take hx)) _ (by decide)
  · rw [state_table_length]; omega
  · have h1 := validState_le (hv k)
    have h2 := class_le_eleven b hb
    omega

/-- C20 at the byte sequence `F0 9F 98 80 C0`. -/
theorem state_table_lookups_in_bounds_witness :
    (∀ b ∈ [0xF0, 0x9F, 0x98, 0x80, 0xC0], b < 256) ∧
    (∀ k b, b < 256 →
      (feed utf8_decoder.fresh ([0xF0, 0x9F, 0x98, 0x80, 0xC0].take k)).state + 256 +
        state_table.getD b 0 < 364) :=
  ⟨by decide, (state_table_lookups_in_bounds [0xF0, 0x9F, 0x98, 0x80, 0xC0] (by decide)).2.2.2.1⟩

theorem is_whitespace_iff (c : Nat) :
    is_whitespace c = true ↔
      (c = 0x09 ∨ c = 0x20 ∨ c = 0xA0 ∨ c = 0x1680 ∨ (0x2000 ≤ c ∧ c ≤ 0x200A) ∨
        c = 0x202F ∨ c = 0x205F ∨ c = 0x3000) := by
  simp only [is_whitespace, Bool.or_eq_true, Bool.and_eq_true, decide_eq_true_eq, beq_iff_eq,
    ge_iff_le]
  omega

theorem is_line_break_iff (cr : Bool) (c : Nat) :
    is_line_break cr c = true ↔
      ((0x0A ≤ c ∧ c ≤ (if cr then 0x0D else 0x0C)) ∨ c = 0x85 ∨ c = 0x2028 ∨ c = 0x2029) := by
  simp only [is_line_break, Bool.or_eq_true, Bool.and_eq_true, decide_eq_true_eq, beq_iff_eq,
    ge_iff_le, or_assoc]

/-- C15: `is_whitespace(c)` holds exactly for U+0009, U+0020, U+00A0, U+1680,
U+2000..U+200A, U+202F, U+205F and U+3000; U+2000 and U+200A are whitespace, U+1FFF and
U+200B are not; and no codepoint for which `is_line_break(c)` holds, with or without the
carriage return, is whitespace. -/
theorem is_whitespace_exact (c : Nat) :
    (is_whitespace c = true ↔
      (c = 0x09 ∨ c = 0x20 ∨ c = 0xA0 ∨ c = 0x1680 ∨ (0x2000 ≤ c ∧ c ≤ 0x200A) ∨
        c = 0x202F ∨ c = 0x205F ∨ c = 0x3000)) ∧
    is_whitespace 0x2000 = true ∧ is_whitespace 0x200A = true ∧
    is_whitespace 0x1FFF = false ∧ is_whitespace 0x200B = false ∧
    ∀ cr : Bool, ¬ (is_line_break cr c = true ∧ is_whitespace c = true) := by
  refine ⟨is_whitespace_iff c, by decide, by decide, by decide, by decide, fun cr => ?_⟩
  rw [is_whitespace_iff, is_line_break_iff]
  cases cr <;> simp only [if_true, if_false, Bool.false_eq_true] <;> omega

/-! ### The buffer-backed byte source -/

theorem remaining_cons_pos {s : utf8_byte_stream_view} {b : Nat} {t : List Nat}
    (h : remaining s = b :: t) : s.position < s.source.length := by
  unfold remaining at h
  by_contra hc
  rw [List.drop_eq_nil_of_le (Nat.le_of_not_lt hc)] at h
  cases h

theorem next_byte_cons {s : utf8_byte_stream_view} {b : Nat} {t : List Nat}
    (h : remaining s = b :: t) :
    s.next_byte = (some b, { s with position := s.position + 1 }) ∧
    remaining { s with position := s.position + 1 } = t := by
  have hlt := remaining_cons_pos h
  unfold remaining at h
  have hd := List.drop_eq_getElem_cons hlt
  rw [hd] at h
  obtain ⟨h1, h2⟩ := List.cons.inj h
  refine ⟨?_, ?_⟩
  · unfold utf8_byte_stream_view.next_byte
    rw [if_neg (Nat.not_le.2 hlt)]
    simp only [List.getD_eq_getElem?_getD, List.getElem?_eq_getElem hlt, Option.getD_some, h1]
  · exact h2

theorem next_byte_nil {s : utf8_byte_stream_view} (h : remaining s = []) :
    s.next_byte = (none, s) ∧ s.eof = true := by
  have hle : s.source.length ≤ s.position := by
    unfold remaining at h
    exact List.drop_eq_nil_iff.1 h
  refine ⟨?_, ?_⟩
  · unfold utf8_byte_stream_view.next_byte; rw [if_pos hle]
  · unfold utf8_byte_stream_view.eof; exact decide_eq_true hle

theorem eof_false_of_cons {s : utf8_byte_stream_view} {b : Nat} {t : List Nat}
    (h : remaining s = b :: t) : s.eof = false := by
  have hlt := remaining_cons_pos h
  unfold utf8_byte_stream_view.eof
  exact decide_eq_false (Nat.not_le.2 hlt)

theorem read_bytes_remaining (n : Nat) (s : utf8_byte_stream_view)
    (h : (remaining s).length ≤ n) :
    (read_bytes utf8_byte_stream_view.ops n s).1 = remaining s ∧
    remaining (read_bytes utf8_byte_stream_view.ops n s).2 = [] := by
  induction n generalizing s with
  | zero =>
    have : remaining s = [] := List.length_eq_zero.1 (Nat.le_zero.1 h)
    simp [read_bytes, this]
  | succ n ih =>
    rcases hr : remaining s with _ | ⟨b, t⟩
    · obtain ⟨e, -⟩ := next_byte_nil hr
      simp only [read_bytes, utf8_byte_stream_view.ops, e]
      exact ⟨trivial, hr⟩
    · obtain ⟨e, e'⟩ := next_byte_cons hr
      rw [hr] at h
      have hl : (remaining { s with position := s.position + 1 }).length ≤ n := by
        rw [e']; simpa using h
      obtain ⟨i1, i2⟩ := ih _ hl
      simp only [read_bytes, utf8_byte_stream_view.ops, e]
      simp only [utf8_byte_stream_view.ops] at i1 i2
      exact ⟨by rw [i1, e'], i2⟩

theorem BOM_prefix_iff (bs : List Nat) :
    BOM <+: bs ↔
      bs.length ≥ 3 ∧ bs.getD 0 0 = 0xEF ∧ bs.getD 1 0 = 0xBB ∧ bs.getD 2 0 = 0xBF := by
  unfold BOM
  rcases bs with _ | ⟨a, _ | ⟨b, _ | ⟨c, t⟩⟩⟩
  · simp
  · simp
  · simp
  · simp only [List.cons_prefix_cons, List.nil_prefix, and_true, List.length_cons, ge_iff_le,
      List.getD_cons_zero, List.getD_cons_succ]
    constructor
    · rintro ⟨rfl, rfl, rfl⟩; exact ⟨by omega, rfl, rfl, rfl⟩
    · rintro ⟨-, rfl, rfl, rfl⟩; exact ⟨rfl, rfl, rfl⟩

theorem remaining_create (bs : List Nat) :
    remaining (utf8_byte_stream_view.create bs) = stripBOM bs := by
  unfold remaining utf8_byte_stream_view.create stripBOM
  simp only [← BOM_prefix_iff]
  split_ifs <;> simp

/-- C8: a buffer-backed source over `EF BB BF` followed by `rest` delivers exactly the
bytes of `rest`, in order, and then end-of-input; a source over a sequence that does not
begin with the full `EF BB BF` delivers every byte of it, starting with the first. -/
theorem buffer_source_delivers (rest bs : List Nat) (h : ¬ BOM <+: bs) :
    (∀ n, rest.length ≤ n →
      (read_bytes utf8_byte_stream_view.ops n (utf8_byte_stream_view.create (BOM ++ rest))).1
        = rest ∧
      ((read_bytes utf8_byte_stream_view.ops n
        (utf8_byte_stream_view.create (BOM ++ rest))).2.next_byte).1 = none ∧
      (read_bytes utf8_byte_stream_view.ops n
        (utf8_byte_stream_view.create (BOM ++ rest))).2.eof = true) ∧
    (∀ n, bs.length ≤ n →
      (read_bytes utf8_byte_stream_view.ops n (utf8_byte_stream_view.create bs)).1 = bs ∧
      ((read_bytes utf8_byte_stream_view.ops n
        (utf8_byte_stream_view.create bs)).2.next_byte).1 = none ∧
      (read_bytes utf8_byte_stream_view.ops n (utf8_byte_stream_view.create bs)).2.eof = true) := by
  have e1 : remaining (utf8_byte_stream_view.create (BOM ++ rest)) = rest := by
    rw [remaining_create, stripBOM, if_pos (List.prefix_append _ _)]
    simp [BOM]
  have e2 : remaining (utf8_byte_stream_view.create bs) = bs := by
    rw [remaining_create, stripBOM, if_neg h]
  refine ⟨fun n hn => ?_, fun n hn => ?_⟩
  · obtain ⟨i1, i2⟩ := read_bytes_remaining n _ (by rw [e1]; exact hn)
    obtain ⟨j1, j2⟩ := next_byte_nil i2
    exact ⟨by rw [i1, e1], by rw [j1], j2⟩
  · obtain ⟨i1, i2⟩ := read_bytes_remaining n _ (by rw [e2]; exact hn)
    obtain ⟨j1, j2⟩ := next_byte_nil i2
    exact ⟨by rw [i1, e2], by rw [j1], j2⟩

/-- C8 at `rest = "ab"` and at the buffer `EF BB 41`, which begins with only `EF BB`. -/
theorem buffer_source_delivers_witness :
    ¬ BOM <+: [0xEF, 0xBB, 0x41] ∧
    (read_bytes utf8_byte_stream_view.ops 3
      (utf8_byte_stream_view.create [0xEF, 0xBB, 0x41])).1 = [0xEF, 0xBB, 0x41] ∧
    (read_bytes utf8_byte_stream_view.ops 2
      (utf8_byte_stream_view.create (BOM ++ [0x61, 0x62]))).1 = [0x61, 0x62] :=
  ⟨by decide,
   ((buffer_source_delivers [0x61, 0x62] [0xEF, 0xBB, 0x41] (by decide)).2 3 (by decide)).1,
   ((buffer_source_delivers [0x61, 0x62] [0xEF, 0xBB, 0x41] (by decide)).1 2 (by decide)).1⟩

/-! ### The stream-backed byte source -/

/-- C9 (evaluation at the failing input): over a stream holding `EF BB BF 61 62` the
constructor calls `get()` at least four times, so that the byte `61` after the byte-order
mark is consumed, and the first byte delivered is not `61`; this holds whatever the read
of `bom[3]` past the end of the array returns. -/
theorem istream_source_skips_byte_after_bom (past : Nat → Nat) :
    4 ≤ (utf8_byte_stream_istream.create past
      (istream.ofContent [0xEF, 0xBB, 0xBF, 0x61, 0x62])).source.pos ∧
    ((utf8_byte_stream_istream.create past
      (istream.ofContent [0xEF, 0xBB, 0xBF, 0x61, 0x62])).next_byte).1 ≠ some 0x61 := by
  by_cases h3 : past 3 = 0x61
  · by_cases h4 : past 4 = 0x62
    · simp [utf8_byte_stream_istream.create, utf8_byte_stream_istream.bom_loop,
        utf8_byte_stream_istream.bom, utf8_byte_stream_istream.next_byte, istream.ofContent,
        istream.toBool, istream.fail, istream.tellg, istream.good, istream.get, istream.seekg,
        h3, h4]
    · have h4' : ¬ (0x62 = past 4) := fun e => h4 e.symm
      simp [utf8_byte_stream_istream.create, utf8_byte_stream_istream.bom_loop,
        utf8_byte_stream_istream.bom, utf8_byte_stream_istream.next_byte, istream.ofContent,
        istream.toBool, istream.fail, istream.tellg, istream.good, istream.get, istream.seekg,
        h3, h4']
  · have h3' : ¬ (0x61 = past 3) := fun e => h3 e.symm
    simp [utf8_byte_stream_istream.create, utf8_byte_stream_istream.bom_loop,
      utf8_byte_stream_istream.bom, utf8_byte_stream_istream.next_byte, istream.ofContent,
      istream.toBool, istream.fail, istream.tellg, istream.good, istream.get, istream.seekg,
      h3']

section CodepointReader

open utf8_reader

/-! ### The codepoint reader over a buffer -/

theorem ops_next_byte (s : utf8_byte_stream_view) :
    utf8_byte_stream_view.ops.next_byte s = s.next_byte := rfl

theorem ops_eof (s : utf8_byte_stream_view) : utf8_byte_stream_view.ops.eof s = s.eof := rfl

theorem ops_error (s : utf8_byte_stream_view) : utf8_byte_stream_view.ops.error s = false := rfl

theorem error_false_iff (d : utf8_decoder) : d.error = false ↔ d.state ≠ 12 := by
  simp [utf8_decoder.error]

theorem has_code_point_false_iff (d : utf8_decoder) : d.has_code_point = false ↔ d.state ≠ 0 := by
  simp [utf8_decoder.has_code_point]

/-- A turn of the loop on a byte that leaves the decoder pending. -/
theorem read_loop_pending (exc : Bool) (fuel : Nat) (r : utf8_reader utf8_byte_stream_view)
    (b : Nat) (t : List Nat) (h : remaining r.stream = b :: t)
    (hp : (r.decoder.step b).needs_more_input = true) :
    read_loop exc utf8_byte_stream_view.ops (fuel + 1) r =
      read_loop exc utf8_byte_stream_view.ops fuel (consume r b) := by
  obtain ⟨e, -⟩ := next_byte_cons h
  obtain ⟨h0, h12⟩ := (needs_more_input_iff _).1 hp
  have he := (error_false_iff _).2 h12
  have hc := (has_code_point_false_iff _).2 h0
  rw [read_loop]
  simp only [ops_next_byte, e, he, hc, Bool.false_eq_true, if_false]
  rfl

/-- A turn of the loop on the byte that completes a codepoint. -/
theorem read_loop_done (exc : Bool) (fuel : Nat) (r : utf8_reader utf8_byte_stream_view)
    (b : Nat) (t : List Nat) (h : remaining r.stream = b :: t)
    (hp : (r.decoder.step b).state = 0) :
    read_loop exc utf8_byte_stream_view.ops (fuel + 1) r =
      some (read_result.codepoint
          { (consume r b).current with value := (r.decoder.step b).codepoint },
        { consume r b with
          prev := { (consume r b).current with value := (r.decoder.step b).codepoint }
          current :=
            { value := (r.decoder.step b).codepoint
              bytes := [0, 0, 0, 0]
              position := next_position r.current.position (r.decoder.step b).codepoint }
          current_byte_count := 0 }) := by
  obtain ⟨e, -⟩ := next_byte_cons h
  have he := (error_false_iff _).2 (show (r.decoder.step b).state ≠ 12 by rw [hp]; decide)
  have hc := (has_code_point_iff _).2 hp
  rw [read_loop]
  simp only [ops_next_byte, e, he, hc, Bool.false_eq_true, if_false, if_true]
  rfl

/-- A turn of the loop on a byte that drives the decoder into reject. -/
theorem read_loop_reject (exc : Bool) (fuel : Nat) (r : utf8_reader utf8_byte_stream_view)
    (b : Nat) (t : List Nat) (h : remaining r.stream = b :: t)
    (hp : (r.decoder.step b).state = 12) :
    read_loop exc utf8_byte_stream_view.ops (fuel + 1) r =
      some (raise exc
        { r with
          stream := { r.stream with position := r.stream.position + 1 }
          decoder := r.decoder.step b }
        "Encountered invalid utf-8 sequence") := by
  obtain ⟨e, -⟩ := next_byte_cons h
  have he := (error_iff _).2 hp
  rw [read_loop]
  simp only [ops_next_byte, e, he, if_true]

/-- A turn of the loop at the end of the buffer with the decoder pending. -/
theorem read_loop_eof (exc : Bool) (fuel : Nat) (r : utf8_reader utf8_byte_stream_view)
    (h : remaining r.stream = []) (hp : r.decoder.needs_more_input = true) :
    read_loop exc utf8_byte_stream_view.ops (fuel + 1) r =
      some (raise exc r "Encountered EOF during incomplete utf-8 code point sequence") := by
  obtain ⟨e, e'⟩ := next_byte_nil h
  rw [read_loop]
  simp only [ops_next_byte, ops_eof, e, e', hp, if_true]

theorem consume_decoder (r : utf8_reader utf8_byte_stream_view) (b : Nat) :
    (consume r b).decoder = r.decoder.step b := rfl

theorem remaining_consume {r : utf8_reader utf8_byte_stream_view} {b : Nat} {t : List Nat}
    (h : remaining r.stream = b :: t) : remaining (consume r b).stream = t :=
  (next_byte_cons h).2

/-- What a run of pending turns leaves unchanged, and what it accumulates. -/
theorem foldl_consume (p : List Nat) (r : utf8_reader utf8_byte_stream_view) :
    (p.foldl consume r).decoder = feed r.decoder p ∧
    (p.foldl consume r).prev = r.prev ∧
    (p.foldl consume r).err = r.err ∧
    (p.foldl consume r).source_path_ = r.source_path_ ∧
    (p.foldl consume r).current.position = r.current.position ∧
    (p.foldl consume r).current_byte_count = r.current_byte_count + p.length ∧
    (p.foldl consume r).stream.source = r.stream.source := by
  induction p generalizing r with
  | nil => exact ⟨rfl, rfl, rfl, rfl, rfl, rfl, rfl⟩
  | cons b p ih =>
    obtain ⟨h1, h2, h3, h4, h5, h6, h7⟩ := ih (consume r b)
    rw [List.foldl_cons]
    refine ⟨?_, ?_, ?_, ?_, ?_, ?_, ?_⟩
    · rw [h1]; rfl
    · rw [h2]; rfl
    · rw [h3]; rfl
    · rw [h4]; rfl
    · rw [h5]; rfl
    · rw [h6]; simp only [consume, List.length_cons]; omega
    · rw [h7]; rfl

theorem remaining_foldl_consume (p post : List Nat) (r : utf8_reader utf8_byte_stream_view)
    (h : remaining r.stream = p ++ post) : remaining (p.foldl consume r).stream = post := by
  induction p generalizing r with
  | nil => exact h
  | cons b p ih => exact ih (consume r b) (remaining_consume h)

/-- The bytes stored by a run of pending turns that starts with an empty record. -/
theorem bytes_foldl_consume (p : List Nat) (hp : p.length ≤ 4)
    (r : utf8_reader utf8_byte_stream_view) (hc : r.current_byte_count = 0)
    (hb : r.current.bytes = [0, 0, 0, 0]) :
    (p.foldl consume r).current.bytes = p ++ List.replicate (4 - p.length) 0 := by
  rcases p with _ | ⟨a, _ | ⟨b, _ | ⟨c, _ | ⟨e, _ | ⟨f, t⟩⟩⟩⟩⟩
  · simpa using hb
  · simp [consume, hc, hb]
  · simp [consume, hc, hb]
  · simp [consume, hc, hb]
  · simp [consume, hc, hb]
  · simp at hp

/-- A run of turns that leave the decoder pending. -/
theorem read_loop_chain (exc : Bool) (p post : List Nat) (fuel : Nat)
    (r : utf8_reader utf8_byte_stream_view) (h : remaining r.stream = p ++ post)
    (hp : ∀ k, 0 < k → k ≤ p.length → (feed r.decoder (p.take k)).needs_more_input = true) :
    read_loop exc utf8_byte_stream_view.ops (p.length + fuel) r =
      read_loop exc utf8_byte_stream_view.ops fuel (p.foldl consume r) := by
  induction p generalizing r with
  | nil => simp
  | cons b p ih =>
    have h1 : (r.decoder.step b).needs_more_input = true := by
      have := hp 1 (by decide) (by simp)
      simpa [feed_cons, feed_nil] using this
    have e : (b :: p).length + fuel = (p.length + fuel) + 1 := by simp; omega
    rw [e, read_loop_pending exc _ r b (p ++ post) h h1, List.foldl_cons]
    apply ih (consume r b) (remaining_consume h)
    intro k hk hk'
    have := hp (k + 1) (by omega) (by simpa using hk')
    simpa [feed_cons] using this

theorem utf8Encode_ne_nil (v : Nat) : utf8Encode v ≠ [] := by
  intro h
  have := (utf8Encode_length v).1
  rw [h] at this
  simp at this

/-- The checks of `read_next` before the loop, on a reader between two codepoints whose
buffer is not exhausted. -/
theorem read_next_eq_loop (exc : Bool) (fuel : Nat) (r : utf8_reader utf8_byte_stream_view)
    (hr : Ready r) (b : Nat) (t : List Nat) (h : remaining r.stream = b :: t) :
    read_next exc utf8_byte_stream_view.ops fuel r =
      read_loop exc utf8_byte_stream_view.ops fuel r := by
  obtain ⟨h0, -, -, he⟩ := hr
  have e1 := eof_false_of_cons h
  have e2 : r.decoder.error = false := (error_false_iff _).2 (by rw [h0]; decide)
  unfold read_next
  simp [he, ops_eof, ops_error, e1, e2]

/-- On a reader between two codepoints, at the end of the buffer, `read_next` returns
`nullptr` and changes nothing. -/
theorem read_next_end (exc : Bool) (fuel : Nat) (r : utf8_reader utf8_byte_stream_view)
    (hr : Ready r) (h : remaining r.stream = []) :
    read_next exc utf8_byte_stream_view.ops fuel r = some (read_result.null, r) := by
  obtain ⟨-, -, -, he⟩ := hr
  obtain ⟨-, e1⟩ := next_byte_nil h
  unfold read_next
  simp [he, ops_eof, e1]

/-- One call of `read_next` on a reader between two codepoints whose remaining buffer
starts with the encoding of a scalar value. -/
theorem read_next_scalar (exc : Bool) (fuel : Nat) (r : utf8_reader utf8_byte_stream_view)
    (v : Nat) (post : List Nat) (hr : Ready r) (hv : isScalar v)
    (h : remaining r.stream = utf8Encode v ++ post) (hf : 4 ≤ fuel) :
    ∃ r', read_next exc utf8_byte_stream_view.ops fuel r =
        some (read_result.codepoint (record_of r.current.position v), r') ∧
      Ready r' ∧ remaining r'.stream = post ∧ r'.prev = record_of r.current.position v ∧
      r'.current.position = next_position r.current.position v ∧
      r'.source_path_ = r.source_path_ ∧ r'.stream.source = r.stream.source := by
  obtain ⟨hk, hfin⟩ := decode_scalar v hv r.decoder hr.1
  obtain ⟨hl1, hl4⟩ := utf8Encode_length v
  have hne := utf8Encode_ne_nil v
  have hsplit := List.dropLast_append_getLast hne
  generalize hp : (utf8Encode v).dropLast = p at hsplit
  generalize hb : (utf8Encode v).getLast hne = b at hsplit
  have hlen : (utf8Encode v).length = p.length + 1 := by rw [← hsplit]; simp
  have hrem : remaining r.stream = p ++ (b :: post) := by rw [h, ← hsplit]; simp
  have hpend : ∀ k, 0 < k → k ≤ p.length →
      (feed r.decoder (p.take k)).needs_more_input = true := by
    intro k hk0 hkp
    have := hk k hk0 (by omega)
    rwa [← hsplit, List.take_append_of_le_length hkp] at this
  obtain ⟨f1, f2, f3, f4, f5, f6, f7⟩ := foldl_consume p r
  have hstep : ((p.foldl consume r).decoder.step b) = ⟨0, v⟩ := by
    rw [f1, ← hfin, ← hsplit, feed_append, feed_cons, feed_nil]
  have hbytes : ((p.foldl consume r).current.bytes.set (p.foldl consume r).current_byte_count b)
      = utf8Encode v ++ List.replicate (4 - (utf8Encode v).length) 0 := by
    have := bytes_foldl_consume (utf8Encode v) hl4 r hr.2.1 hr.2.2.1
    rw [← hsplit, List.foldl_append] at this
    rw [← hsplit]; exact this
  obtain ⟨c, hc⟩ : ∃ c, fuel = p.length + (c + 1) := ⟨fuel - p.length - 1, by omega⟩
  have hnext : ∃ b0 t0, remaining r.stream = b0 :: t0 := by
    rcases hq : utf8Encode v with _ | ⟨b0, t0⟩
    · exact absurd hq hne
    · exact ⟨b0, t0 ++ post, by rw [h, hq]; rfl⟩
  obtain ⟨b0, t0, hb0⟩ := hnext
  rw [read_next_eq_loop exc fuel r hr b0 t0 hb0, hc, read_loop_chain exc p (b :: post) (c + 1) r hrem hpend,
    read_loop_done exc c _ b post (remaining_foldl_consume p (b :: post) r hrem)
      (by rw [hstep])]
  have hrec : ({ (consume (p.foldl consume r) b).current with
      value := ((p.foldl consume r).decoder.step b).codepoint } : utf8_codepoint) =
      record_of r.current.position v := by
    simp only [consume, hstep, record_of, f5, hbytes]
  rw [hrec]
  refine ⟨_, rfl, ?_, ?_, rfl, ?_, ?_, ?_⟩
  · exact ⟨by simp [consume, hstep], rfl, rfl, by simp [consume, f3, hr.2.2.2]⟩
  · exact remaining_consume (remaining_foldl_consume p (b :: post) r hrem)
  · simp [hstep, f5]
  · simp [consume, f4]
  · simp [consume, f7]

theorem read_all_codepoint {σ : Type} (exc : Bool) (ops : byte_stream_ops σ) (fuel calls : Nat)
    (r r' : utf8_reader σ) (c : utf8_codepoint)
    (h : read_next exc ops fuel r = some (read_result.codepoint c, r')) :
    read_all exc ops fuel (calls + 1) r =
      (read_all exc ops fuel calls r').map (fun x => (c :: x.1, x.2.1, x.2.2)) := by
  rw [read_all, h]
  simp only []
  rcases read_all exc ops fuel calls r' with _ | ⟨cs, res, r''⟩ <;> rfl

theorem read_all_null {σ : Type} (exc : Bool) (ops : byte_stream_ops σ) (fuel calls : Nat)
    (r r' : utf8_reader σ) (h : read_next exc ops fuel r = some (read_result.null, r')) :
    read_all exc ops fuel (calls + 1) r = some ([], read_result.null, r') := by
  rw [read_all, h]

theorem read_all_thrown {σ : Type} (exc : Bool) (ops : byte_stream_ops σ) (fuel calls : Nat)
    (r r' : utf8_reader σ) (e : parse_error)
    (h : read_next exc ops fuel r = some (read_result.thrown e, r')) :
    read_all exc ops fuel (calls + 1) r = some ([], read_result.thrown e, r') := by
  rw [read_all, h]

theorem getLastD_cons_records (c d : utf8_codepoint) (l : List utf8_codepoint) :
    (c :: l).getLastD d = l.getLastD c := by
  cases l <;> rfl

/-- Reading the codepoints of a well-formed part: the calls return the expected records
and leave the reader between two codepoints, in front of what follows. -/
theorem read_all_scalars (exc : Bool) (fuel : Nat) (hf : 4 ≤ fuel) (vs : List Nat)
    (hvs : ∀ v ∈ vs, isScalar v) (tail : List Nat) (n : Nat)
    (r : utf8_reader utf8_byte_stream_view) (hr : Ready r)
    (h : remaining r.stream = utf8EncodeAll vs ++ tail) :
    ∃ r', Ready r' ∧ remaining r'.stream = tail ∧
      r'.current.position = end_position r.current.position vs ∧
      r'.prev = (expected_records r.current.position vs).getLastD r.prev ∧
      r'.source_path_ = r.source_path_ ∧ r'.stream.source = r.stream.source ∧
      read_all exc utf8_byte_stream_view.ops fuel (vs.length + n) r =
        (read_all exc utf8_byte_stream_view.ops fuel n r').map
          (fun x => (expected_records r.current.position vs ++ x.1, x.2.1, x.2.2)) := by
  induction vs generalizing r with
  | nil =>
    refine ⟨r, hr, by simpa [utf8EncodeAll_nil] using h, rfl, rfl, rfl, rfl, ?_⟩
    simp only [List.length_nil, Nat.zero_add, expected_records, List.nil_append]
    cases read_all exc utf8_byte_stream_view.ops fuel n r <;> rfl
  | cons v vs ih =>
    have hv := hvs v (List.mem_cons_self _ _)
    have hvs' : ∀ x ∈ vs, isScalar x := fun x hx => hvs x (List.mem_cons_of_mem _ hx)
    rw [utf8EncodeAll_cons, List.append_assoc] at h
    obtain ⟨r1, e1, hr1, hrem1, hprev1, hpos1, hpath1, hsrc1⟩ :=
      read_next_scalar exc fuel r v (utf8EncodeAll vs ++ tail) hr hv h hf
    obtain ⟨r', hr', hrem', hpos', hprev', hpath', hsrc', hall⟩ := ih hvs' r1 hr1 hrem1
    refine ⟨r', hr', hrem', ?_, ?_, ?_, ?_, ?_⟩
    · rw [hpos', hpos1]; rfl
    · rw [hprev', hprev1, hpos1]
      simp only [expected_records]
      rw [getLastD_cons_records]
    · rw [hpath', hpath1]
    · rw [hsrc', hsrc1]
    · have e : (v :: vs).length + n = (vs.length + n) + 1 := by simp; omega
      rw [e, read_all_codepoint exc _ fuel _ r r1 _ e1, hall, hpos1]
      cases read_all exc utf8_byte_stream_view.ops fuel n r' <;> simp [expected_records]

theorem step_state_congr (d d' : utf8_decoder) (h : d.state = d'.state) (b : Nat) :
    (d.step b).state = (d'.step b).state := by
  simp only [utf8_decoder.step, h]

theorem feed_state_congr (p : List Nat) (d d' : utf8_decoder) (h : d.state = d'.state) :
    (feed d p).state = (feed d' p).state := by
  induction p generalizing d d' with
  | nil => exact h
  | cons b p ih => exact ih _ _ (step_state_congr d d' h b)

theorem needs_more_congr (d d' : utf8_decoder) (h : d.state = d'.state) :
    d.needs_more_input = d'.needs_more_input := by
  simp only [utf8_decoder.needs_more_input, h]

/-- A proper prefix of an encoding has at most three bytes and keeps a ready decoder
pending after each of its bytes. -/
theorem properPrefix_pending (d : utf8_decoder) (hd : d.state = 0) (p : List Nat)
    (hp : properPrefix p) :
    0 < p.length ∧ p.length ≤ 3 ∧
    ∀ k, 0 < k → k ≤ p.length → (feed d (p.take k)).needs_more_input = true := by
  obtain ⟨v, hv, hne, hneq, hpre⟩ := hp
  obtain ⟨h1, -⟩ := decode_scalar v hv d hd
  have hl4 := (utf8Encode_length v).2
  have hlen : p.length < (utf8Encode v).length := by
    have hle := hpre.length_le
    rcases Nat.lt_or_ge p.length (utf8Encode v).length with h | h
    · exact h
    · exact absurd (hpre.eq_of_length (Nat.le_antisymm hle h)) hneq
  refine ⟨List.length_pos.2 hne, by omega, fun k hk0 hk => ?_⟩
  obtain ⟨t, ht⟩ := hpre
  have : p.take k = (utf8Encode v).take k := by
    rw [← ht, List.take_append_of_le_length hk]
  rw [this]
  exact h1 k hk0 (by omega)

theorem reports_raise {σ : Type} (exc : Bool) (r : utf8_reader σ) (msg : String) :
    reports exc (raise exc r msg).1 (raise exc r msg).2
      { what := msg, position := r.prev.position, source_path := r.source_path_ } := by
  cases exc <;> simp [reports, raise]

theorem read_all_raise {σ : Type} (exc : Bool) (ops : byte_stream_ops σ) (fuel calls : Nat)
    (r r' : utf8_reader σ) (msg : String)
    (h : read_next exc ops fuel r = some (raise exc r' msg)) :
    read_all exc ops fuel (calls + 1) r =
      some ([], (raise exc r' msg).1, (raise exc r' msg).2) := by
  cases exc
  · exact read_all_null false ops fuel calls r _ h
  · exact read_all_thrown true ops fuel calls r _ _ h

/-- The call of `read_next` that meets the end of the buffer inside a codepoint. -/
theorem read_next_truncated (exc : Bool) (fuel : Nat) (r : utf8_reader utf8_byte_stream_view)
    (p : List Nat) (hr : Ready r) (hp : properPrefix p) (h : remaining r.stream = p)
    (hf : 4 ≤ fuel) :
    ∃ r', read_next exc utf8_byte_stream_view.ops fuel r =
        some (raise exc r' "Encountered EOF during incomplete utf-8 code point sequence") ∧
      r'.prev = r.prev ∧ r'.source_path_ = r.source_path_ := by
  obtain ⟨hpos, hle, hpend⟩ := properPrefix_pending r.decoder hr.1 p hp
  obtain ⟨f1, f2, -, f4, -⟩ := foldl_consume p r
  obtain ⟨c, hc⟩ : ∃ c, fuel = p.length + (c + 1) := ⟨fuel - p.length - 1, by omega⟩
  obtain ⟨b0, t0, hq⟩ : ∃ b0 t0, p = b0 :: t0 := by
    rcases p with _ | ⟨b0, t0⟩
    · simp at hpos
    · exact ⟨b0, t0, rfl⟩
  have hrem : remaining r.stream = p ++ [] := by rw [List.append_nil]; exact h
  have hfin : (p.foldl consume r).decoder.needs_more_input = true := by
    rw [f1]
    have := hpend p.length hpos (Nat.le_refl _)
    rwa [List.take_length] at this
  rw [read_next_eq_loop exc fuel r hr b0 t0 (by rw [h, hq]), hc,
    read_loop_chain exc p [] (c + 1) r hrem hpend,
    read_loop_eof exc c _ (remaining_foldl_consume p [] r hrem) hfin]
  exact ⟨_, rfl, f2, f4⟩

/-- The call of `read_next` that reads a byte driving the decoder into reject. -/
theorem read_next_invalid (exc : Bool) (fuel : Nat) (r : utf8_reader utf8_byte_stream_view)
    (p : List Nat) (b : Nat) (rest : List Nat) (hr : Ready r)
    (hpend : ∀ k, 0 < k → k ≤ p.length → (feed r.decoder (p.take k)).needs_more_input = true)
    (hrej : ((feed r.decoder p).step b).state = 12)
    (h : remaining r.stream = p ++ b :: rest) (hf : p.length < fuel) :
    ∃ r', read_next exc utf8_byte_stream_view.ops fuel r =
        some (raise exc r' "Encountered invalid utf-8 sequence") ∧
      r'.prev = r.prev ∧ r'.source_path_ = r.source_path_ := by
  obtain ⟨f1, f2, -, f4, -⟩ := foldl_consume p r
  obtain ⟨c, hc⟩ : ∃ c, fuel = p.length + (c + 1) := ⟨fuel - p.length - 1, by omega⟩
  obtain ⟨b0, t0, hb0⟩ : ∃ b0 t0, remaining r.stream = b0 :: t0 := by
    rcases hq : p with _ | ⟨b0, t0⟩
    · exact ⟨b, rest, by rw [h, hq]; rfl⟩
    · exact ⟨b0, t0 ++ b :: rest, by rw [h, hq]; rfl⟩
  rw [read_next_eq_loop exc fuel r hr b0 t0 hb0, hc,
    read_loop_chain exc p (b :: rest) (c + 1) r h hpend,
    read_loop_reject exc c _ b rest (remaining_foldl_consume p (b :: rest) r h)
      (by rw [f1]; exact hrej)]
  exact ⟨_, rfl, f2, f4⟩

/-- The reader the constructor builds over a buffer. -/
theorem buffer_reader_init (bs : List Nat) (path : String) :
    Ready (buffer_reader bs path) ∧
    remaining (buffer_reader bs path).stream = stripBOM bs ∧
    (buffer_reader bs path).current.position = ⟨1, 1⟩ ∧
    (buffer_reader bs path).prev = utf8_codepoint.zero ∧
    (buffer_reader bs path).source_path_ = label_of path := by
  refine ⟨⟨rfl, rfl, rfl, rfl⟩, ?_, rfl, rfl, rfl⟩
  exact remaining_create bs

theorem expected_records_values (pos : source_position) (vs : List Nat) :
    (expected_records pos vs).map (fun c => c.value) = vs := by
  induction vs generalizing pos with
  | nil => rfl
  | cons v vs ih => simp [expected_records, record_of, ih]

theorem expected_records_length (pos : source_position) (vs : List Nat) :
    (expected_records pos vs).length = vs.length := by
  induction vs generalizing pos with
  | nil => rfl
  | cons v vs ih => simp [expected_records, ih]

/-- Reading a buffer that holds a well-formed part and then comes to its end inside a
codepoint. -/
theorem read_all_truncated (exc : Bool) (fuel calls : Nat) (path : String) (bs vs p : List Nat)
    (hvs : ∀ v ∈ vs, isScalar v) (hp : properPrefix p)
    (hbs : stripBOM bs = utf8EncodeAll vs ++ p) (hf : 4 ≤ fuel) (hc : vs.length < calls) :
    ∃ res r', read_all exc utf8_byte_stream_view.ops fuel calls (buffer_reader bs path) =
        some (expected_records ⟨1, 1⟩ vs, res, r') ∧
      reports exc res r'
        { what := "Encountered EOF during incomplete utf-8 code point sequence"
          position := ((expected_records ⟨1, 1⟩ vs).getLastD utf8_codepoint.zero).position
          source_path := label_of path } := by
  obtain ⟨i1, i2, i3, i4, i5⟩ := buffer_reader_init bs path
  obtain ⟨n, hn⟩ : ∃ n, calls = vs.length + (n + 1) := ⟨calls - vs.length - 1, by omega⟩
  obtain ⟨r1, hr1, hrem1, -, hprev1, hpath1, -, hall⟩ :=
    read_all_scalars exc fuel hf vs hvs p (n + 1) (buffer_reader bs path) i1 (by rw [i2, hbs])
  obtain ⟨r2, e2, hprev2, hpath2⟩ := read_next_truncated exc fuel r1 p hr1 hp hrem1 hf
  refine ⟨(raise exc r2 "Encountered EOF during incomplete utf-8 code point sequence").1,
    (raise exc r2 "Encountered EOF during incomplete utf-8 code point sequence").2, ?_, ?_⟩
  · rw [hn, hall, read_all_raise exc _ fuel n r1 r2 _ e2, i3]
    simp only [Option.map_some', List.append_nil]
  · have := reports_raise exc r2 "Encountered EOF during incomplete utf-8 code point sequence"
    rwa [hprev2, hpath2, hprev1, hpath1, i3, i4, i5] at this

theorem stripBOM_of_no_BOM {bs : List Nat} (h : ¬ BOM <+: bs) : stripBOM bs = bs := by
  unfold stripBOM; rw [if_neg h]

theorem length_le_utf8EncodeAll (vs : List Nat) : vs.length ≤ (utf8EncodeAll vs).length := by
  induction vs with
  | nil => simp [utf8EncodeAll_nil]
  | cons v vs ih =>
    rw [utf8EncodeAll_cons, List.length_append, List.length_cons]
    have := (utf8Encode_length v).1
    omega

theorem stripBOM_length_le (bs : List Nat) : (stripBOM bs).length ≤ bs.length := by
  unfold stripBOM; split_ifs <;> simp

/-- An encoding that starts with `EF` is three bytes long. -/
theorem utf8Encode_lead_EF (v : Nat) (hv : isScalar v) (t u : List Nat)
    (h : utf8Encode v ++ t = 0xEF :: u) : (utf8Encode v).length = 3 := by
  obtain ⟨hmax, -⟩ := hv
  by_cases h1 : v < 0x80
  · rw [utf8Encode_one h1] at h
    simp only [List.cons_append, List.nil_append, List.cons.injEq] at h
    omega
  by_cases h2 : v < 0x800
  · rw [utf8Encode_two (by omega) h2] at h
    simp only [List.cons_append, List.cons.injEq] at h
    omega
  by_cases h3 : v < 0x10000
  · rw [utf8Encode_three (by omega) h3]; rfl
  · rw [utf8Encode_four (by omega)] at h
    simp only [List.cons_append, List.cons.injEq] at h
    omega

/-- Skipping the byte-order mark of a buffer that starts with a well-formed part skips
exactly the first codepoint of that part. -/
theorem stripBOM_scalars (v : Nat) (vs tail : List Nat) (hv : isScalar v)
    (h : BOM <+: utf8EncodeAll (v :: vs) ++ tail) :
    stripBOM (utf8EncodeAll (v :: vs) ++ tail) = utf8EncodeAll vs ++ tail := by
  unfold stripBOM
  rw [if_pos h]
  obtain ⟨u, hu⟩ := h
  rw [utf8EncodeAll_cons, List.append_assoc] at hu ⊢
  have hlen := utf8Encode_lead_EF v hv (utf8EncodeAll vs ++ tail) ([0xBB, 0xBF] ++ u)
    (by rw [← hu]; rfl)
  rw [List.drop_append_of_le_length (by omega), List.drop_of_length_le (by omega),
    List.nil_append]

/-- A well-formed buffer stays well-formed when its byte-order mark is skipped. -/
theorem stripBOM_wellFormed (bs : List Nat) (h : wellFormed bs) : wellFormed (stripBOM bs) := by
  by_cases hb : BOM <+: bs
  · obtain ⟨vs, hvs, rfl⟩ := h
    rcases vs with _ | ⟨v, vs⟩
    · obtain ⟨u, hu⟩ := hb
      simp [utf8EncodeAll_nil, BOM] at hu
    · have := stripBOM_scalars v vs [] (hvs v (List.mem_cons_self _ _))
        (by rw [List.append_nil]; exact hb)
      rw [List.append_nil, List.append_nil] at this
      exact ⟨vs, fun x hx => hvs x (List.mem_cons_of_mem _ hx), this⟩
  · rw [stripBOM_of_no_BOM hb]; exact h

/-- Reading a buffer that holds, after an optional byte-order mark, the encodings of
`vs`: the calls return the records of `vs` and then `nullptr`, without an error. -/
theorem read_all_valid (exc : Bool) (fuel calls : Nat) (path : String) (bs vs : List Nat)
    (hvs : ∀ v ∈ vs, isScalar v) (hbs : stripBOM bs = utf8EncodeAll vs) (hf : 4 ≤ fuel)
    (hc : vs.length < calls) :
    ∃ r', read_all exc utf8_byte_stream_view.ops fuel calls (buffer_reader bs path) =
        some (expected_records ⟨1, 1⟩ vs, read_result.null, r') ∧ r'.err = none := by
  obtain ⟨i1, i2, i3, -, -⟩ := buffer_reader_init bs path
  obtain ⟨n, hn⟩ : ∃ n, calls = vs.length + (n + 1) := ⟨calls - vs.length - 1, by omega⟩
  obtain ⟨r1, hr1, hrem1, -, -, -, -, hall⟩ :=
    read_all_scalars exc fuel hf vs hvs [] (n + 1) (buffer_reader bs path) i1
      (by rw [i2, hbs, List.append_nil])
  refine ⟨r1, ?_, hr1.2.2.2⟩
  rw [hn, hall, read_all_null exc _ fuel n r1 r1 (read_next_end exc fuel r1 hr1 hrem1), i3]
  simp only [Option.map_some', List.append_nil]

theorem is_line_break_false_iff (v : Nat) : is_line_break false v = true ↔ lineBreak v := by
  simp only [is_line_break, lineBreak, Bool.false_eq_true, if_false, Bool.or_eq_true,
    Bool.and_eq_true, decide_eq_true_eq, beq_iff_eq]
  omega

theorem next_position_lineBreak (pos : source_position) (v : Nat) :
    (lineBreak v → next_position pos v = ⟨pos.line + 1, 1⟩) ∧
    (¬ lineBreak v → next_position pos v = ⟨pos.line, pos.column + 1⟩) := by
  unfold next_position
  constructor
  · intro h; rw [if_pos ((is_line_break_false_iff v).2 h)]
  · intro h; rw [if_neg (fun c => h ((is_line_break_false_iff v).1 c))]

theorem expected_records_head (pos : source_position) (vs : List Nat) (c : utf8_codepoint)
    (h : (expected_records pos vs).head? = some c) : c.position = pos := by
  cases vs with
  | nil => simp [expected_records] at h
  | cons v vs =>
    simp only [expected_records, List.head?_cons, Option.some.injEq] at h
    rw [← h]; rfl

theorem expected_records_next (pos : source_position) (vs : List Nat) (i : Nat)
    (c c' : utf8_codepoint) (h : (expected_records pos vs)[i]? = some c)
    (h' : (expected_records pos vs)[i + 1]? = some c') :
    c'.position = next_position c.position c.value := by
  induction vs generalizing pos i with
  | nil => simp [expected_records] at h
  | cons v vs ih =>
    cases i with
    | zero =>
      simp only [expected_records, List.getElem?_cons_zero, Option.some.injEq] at h
      simp only [expected_records, Nat.zero_add, List.getElem?_cons_succ] at h'
      have := expected_records_head _ vs c' (by rw [List.head?_eq_getElem?]; exact h')
      rw [this, ← h]; rfl
    | succ i =>
      simp only [expected_records, List.getElem?_cons_succ] at h h'
      exact ih _ i h h'

/-- C5: for a valid UTF-8 input the first codepoint returned by `read_next` has position
(1, 1); after a codepoint at (l, c) that is a line break other than a carriage return
(U+000A, U+000B, U+000C, U+0085, U+2028, U+2029) the next one has position (l + 1, 1),
after any other codepoint (l, c + 1); positions count codepoints, and for "a\nb" they are
(1, 1), (1, 2), (2, 1). -/
theorem read_next_positions (exc : Bool) (fuel calls : Nat) (path : String) (bs : List Nat)
    (hwf : wellFormed bs) (hf : 4 ≤ fuel) (hc : bs.length < calls) :
    (∃ recs r',
      read_all exc utf8_byte_stream_view.ops fuel calls (buffer_reader bs path) =
        some (recs, read_result.null, r') ∧
      (∀ c, recs.head? = some c → c.position = ⟨1, 1⟩) ∧
      (∀ i c c', recs[i]? = some c → recs[i + 1]? = some c' →
        (lineBreak c.value → c'.position = ⟨c.position.line + 1, 1⟩) ∧
        (¬ lineBreak c.value → c'.position = ⟨c.position.line, c.position.column + 1⟩))) ∧
    (∃ recs r',
      read_all exc utf8_byte_stream_view.ops fuel (calls + 3)
        (buffer_reader [0x61, 0x0A, 0x62] path) = some (recs, read_result.null, r') ∧
      recs.map (fun c => c.position) = [⟨1, 1⟩, ⟨1, 2⟩, ⟨2, 1⟩]) := by
  constructor
  · obtain ⟨vs, hvs, hbs⟩ := stripBOM_wellFormed bs hwf
    have hlen : vs.length < calls := by
      have h1 := length_le_utf8EncodeAll vs
      have h2 := stripBOM_length_le bs
      rw [hbs] at h2
      omega
    obtain ⟨r', h, -⟩ := read_all_valid exc fuel calls path bs vs hvs hbs hf hlen
    refine ⟨_, r', h, expected_records_head _ vs, fun i c c' hi hi' => ?_⟩
    rw [expected_records_next _ vs i c c' hi hi']
    exact next_position_lineBreak c.position c.value
  · obtain ⟨r', h, -⟩ := read_all_valid exc fuel (calls + 3) path [0x61, 0x0A, 0x62]
      [0x61, 0x0A, 0x62] (by decide) (by decide) hf (by simp; omega)
    exact ⟨_, r', h, by decide⟩

/-- C5 at the input "a\r\nb". -/
theorem read_next_positions_witness :
    wellFormed [0x61, 0x0D, 0x0A, 0x62] ∧
    ∃ recs r',
      read_all false utf8_byte_stream_view.ops 4 5
        (buffer_reader [0x61, 0x0D, 0x0A, 0x62] "") = some (recs, read_result.null, r') ∧
      (∀ c, recs.head? = some c → c.position = ⟨1, 1⟩) ∧
      (∀ i c c', recs[i]? = some c → recs[i + 1]? = some c' →
        (lineBreak c.value → c'.position = ⟨c.position.line + 1, 1⟩) ∧
        (¬ lineBreak c.value → c'.position = ⟨c.position.line, c.position.column + 1⟩)) :=
  ⟨⟨[0x61, 0x0D, 0x0A, 0x62], by decide, by decide⟩,
   (read_next_positions false 4 5 "" [0x61, 0x0D, 0x0A, 0x62]
     ⟨[0x61, 0x0D, 0x0A, 0x62], by decide, by decide⟩ (by decide) (by decide)).1⟩

/-- For a scalar value other than zero, `as_view()` of its record is its encoding. -/
theorem as_view_record_of (pos : source_position) (v : Nat) (hv : isScalar v) (h0 : v ≠ 0) :
    (record_of pos v).as_view = utf8Encode v := by
  obtain ⟨hmax, -⟩ := hv
  unfold utf8_codepoint.as_view record_of
  by_cases h1 : v < 0x80
  · rw [utf8Encode_one h1]
    simp [h0]
  by_cases h2 : v < 0x800
  · rw [utf8Encode_two (by omega) h2]
    simp
  by_cases h3 : v < 0x10000
  · rw [utf8Encode_three (by omega) h3]
    simp
  · rw [utf8Encode_four (by omega)]
    simp

theorem as_view_expected_records (pos : source_position) (vs : List Nat)
    (hvs : ∀ v ∈ vs, isScalar v) (h0 : ∀ v ∈ vs, v ≠ 0) :
    (expected_records pos vs).flatMap utf8_codepoint.as_view = utf8EncodeAll vs := by
  induction vs generalizing pos with
  | nil => rfl
  | cons v vs ih =>
    rw [expected_records, List.flatMap_cons, utf8EncodeAll_cons,
      as_view_record_of pos v (hvs v (List.mem_cons_self _ _)) (h0 v (List.mem_cons_self _ _)),
      ih _ (fun x hx => hvs x (List.mem_cons_of_mem _ hx))
        (fun x hx => h0 x (List.mem_cons_of_mem _ hx))]

theorem zero_mem_utf8EncodeAll (vs : List Nat) (h : 0 ∈ vs) : 0 ∈ utf8EncodeAll vs := by
  simp only [utf8EncodeAll, List.mem_flatMap]
  exact ⟨0, h, by decide⟩

theorem mem_stripBOM {bs : List Nat} {b : Nat} (h : b ∈ stripBOM bs) : b ∈ bs := by
  unfold stripBOM at h
  split_ifs at h
  · exact List.mem_of_mem_drop h
  · exact h

/-- C3, as amended: for a valid UTF-8 byte sequence without a zero byte, calling
`read_next` until it returns `nullptr` and concatenating the `as_view()` bytes of the
records returned, in order, reproduces the sequence without its leading byte-order mark
`EF BB BF`, if it has one, and the whole sequence otherwise. -/
theorem read_next_round_trip (exc : Bool) (fuel calls : Nat) (path : String) (bs : List Nat)
    (hwf : wellFormed bs) (hnul : 0 ∉ bs) (hf : 4 ≤ fuel) (hc : bs.length < calls) :
    ∃ recs r',
      read_all exc utf8_byte_stream_view.ops fuel calls (buffer_reader bs path) =
        some (recs, read_result.null, r') ∧
      r'.err = none ∧
      recs.flatMap utf8_codepoint.as_view = (if BOM <+: bs then bs.drop 3 else bs) := by
  obtain ⟨vs, hvs, hbs⟩ := stripBOM_wellFormed bs hwf
  have hlen : vs.length < calls := by
    have h1 := length_le_utf8EncodeAll vs
    have h2 := stripBOM_length_le bs
    rw [hbs] at h2
    omega
  have h0 : ∀ v ∈ vs, v ≠ 0 := by
    intro v hv e
    subst e
    exact hnul (mem_stripBOM (by rw [hbs]; exact zero_mem_utf8EncodeAll vs hv))
  obtain ⟨r', h, he⟩ := read_all_valid exc fuel calls path bs vs hvs hbs hf hlen
  refine ⟨_, r', h, he, ?_⟩
  rw [as_view_expected_records _ vs hvs h0, ← hbs]
  rfl

/-- C3 as amended, at the input `EF BB BF 61`. -/
theorem read_next_round_trip_witness :
    wellFormed [0xEF, 0xBB, 0xBF, 0x61] ∧ 0 ∉ [0xEF, 0xBB, 0xBF, 0x61] ∧
    ∃ recs r',
      read_all false utf8_byte_stream_view.ops 4 5
        (buffer_reader [0xEF, 0xBB, 0xBF, 0x61] "") = some (recs, read_result.null, r') ∧
      r'.err = none ∧
      recs.flatMap utf8_codepoint.as_view =
        (if BOM <+: [0xEF, 0xBB, 0xBF, 0x61] then [0xEF, 0xBB, 0xBF, 0x61].drop 3
         else [0xEF, 0xBB, 0xBF, 0x61]) :=
  ⟨⟨[0xFEFF, 0x61], by decide, by decide⟩, by decide,
   read_next_round_trip false 4 5 "" [0xEF, 0xBB, 0xBF, 0x61]
     ⟨[0xFEFF, 0x61], by decide, by decide⟩ (by decide) (by decide) (by decide)⟩

/-- C3 fails as stated: the buffer `EF BB BF 61` is valid UTF-8 (U+FEFF, then `a`), and
the records returned until `nullptr` carry the bytes `61` only. -/
theorem read_next_round_trip_counterexample :
    wellFormed [0xEF, 0xBB, 0xBF, 0x61] ∧
    ∃ recs r',
      read_all false utf8_byte_stream_view.ops 4 5
        (buffer_reader [0xEF, 0xBB, 0xBF, 0x61] "") = some (recs, read_result.null, r') ∧
      recs.flatMap utf8_codepoint.as_view = [0x61] ∧
      recs.flatMap utf8_codepoint.as_view ≠ [0xEF, 0xBB, 0xBF, 0x61] := by
  refine ⟨⟨[0xFEFF, 0x61], by decide, by decide⟩, ?_⟩
  obtain ⟨r', h, -⟩ := read_all_valid false 4 5 "" [0xEF, 0xBB, 0xBF, 0x61] [0x61]
    (by decide) (by decide) (by decide) (by decide)
  exact ⟨_, r', h, by decide, by decide⟩

/-- C4 (evaluation at the failing input): over the buffer `00`, `read_next` returns a
record of value 0, whose UTF-8 encoding is the single byte `00`, and `as_view()` of that
record is empty. -/
theorem as_view_of_nul_record :
    ∃ c r',
      read_next false utf8_byte_stream_view.ops 4 (buffer_reader [0x00] "") =
        some (read_result.codepoint c, r') ∧
      c.value = 0 ∧ utf8Encode c.value = [0x00] ∧ c.as_view = [] ∧ c.as_view.length = 0 := by
  obtain ⟨i1, i2, -⟩ := buffer_reader_init [0x00] ""
  obtain ⟨r', h, -⟩ := read_next_scalar false 4 (buffer_reader [0x00] "") 0 [] i1 (by decide)
    (by rw [i2]; decide) (by decide)
  exact ⟨_, r', h, rfl, by decide, by decide, by decide⟩

/-- Reading a buffer that holds a well-formed part, then an incomplete sequence `p` and
a byte `b` that drives the decoder into reject. -/
theorem read_all_invalid (exc : Bool) (fuel calls : Nat) (path : String)
    (bs vs p : List Nat) (b : Nat) (rest : List Nat) (hvs : ∀ v ∈ vs, isScalar v)
    (hlen : p.length ≤ 3)
    (hpend : ∀ k, 0 < k → k ≤ p.length →
      (feed utf8_decoder.fresh (p.take k)).needs_more_input = true)
    (hrej : ((feed utf8_decoder.fresh p).step b).state = 12)
    (hbs : stripBOM bs = utf8EncodeAll vs ++ (p ++ b :: rest)) (hf : 4 ≤ fuel)
    (hc : vs.length < calls) :
    ∃ res r', read_all exc utf8_byte_stream_view.ops fuel calls (buffer_reader bs path) =
        some (expected_records ⟨1, 1⟩ vs, res, r') ∧
      reports exc res r'
        { what := "Encountered invalid utf-8 sequence"
          position := ((expected_records ⟨1, 1⟩ vs).getLastD utf8_codepoint.zero).position
          source_path := label_of path } := by
  obtain ⟨i1, i2, i3, i4, i5⟩ := buffer_reader_init bs path
  obtain ⟨n, hn⟩ : ∃ n, calls = vs.length + (n + 1) := ⟨calls - vs.length - 1, by omega⟩
  obtain ⟨r1, hr1, hrem1, -, hprev1, hpath1, -, hall⟩ :=
    read_all_scalars exc fuel hf vs hvs (p ++ b :: rest) (n + 1) (buffer_reader bs path) i1
      (by rw [i2, hbs])
  have hst : r1.decoder.state = utf8_decoder.fresh.state := hr1.1
  have hpend1 : ∀ k, 0 < k → k ≤ p.length →
      (feed r1.decoder (p.take k)).needs_more_input = true := by
    intro k hk hk'
    rw [needs_more_congr _ _ (feed_state_congr (p.take k) _ _ hst)]
    exact hpend k hk hk'
  have hrej1 : ((feed r1.decoder p).step b).state = 12 := by
    rw [step_state_congr _ _ (feed_state_congr p _ _ hst)]
    exact hrej
  obtain ⟨r2, e2, hprev2, hpath2⟩ :=
    read_next_invalid exc fuel r1 p b rest hr1 hpend1 hrej1 hrem1 (by omega)
  refine ⟨(raise exc r2 "Encountered invalid utf-8 sequence").1,
    (raise exc r2 "Encountered invalid utf-8 sequence").2, ?_, ?_⟩
  · rw [hn, hall, read_all_raise exc _ fuel n r1 r2 _ e2, i3]
    simp only [Option.map_some', List.append_nil]
  · have := reports_raise exc r2 "Encountered invalid utf-8 sequence"
    rwa [hprev2, hpath2, hprev1, hpath1, i3, i4, i5] at this

/-- From the run of the automaton to the turns of the reader: after a well-formed part
and an incomplete sequence `p`, a byte on which the run ends in reject is a byte on which
the step from the state after `p` rejects. -/
theorem reject_step_of_run (vs p : List Nat) (b : Nat) (hvs : ∀ v ∈ vs, isScalar v)
    (hp : p = [] ∨ properPrefix p)
    (hrej : (run utf8_decoder.fresh (utf8EncodeAll vs ++ p ++ [b])).error = true) :
    p.length ≤ 3 ∧
    (∀ k, 0 < k → k ≤ p.length →
      (feed utf8_decoder.fresh (p.take k)).needs_more_input = true) ∧
    ((feed utf8_decoder.fresh p).step b).state = 12 := by
  have h0 := run_encodeAll vs hvs utf8_decoder.fresh rfl
  rw [List.append_assoc, run_append, run_snoc] at hrej
  have key : ∀ d : utf8_decoder, d.state = 0 →
      p.length ≤ 3 ∧ (∀ k, 0 < k → k ≤ p.length →
        (feed d (p.take k)).needs_more_input = true) ∧
      run d p = feed d p ∧ (feed d p).error = false := by
    intro d hd
    rcases hp with rfl | hp
    · refine ⟨by simp, fun k hk hk' => ?_, rfl, ?_⟩
      · simp at hk'; omega
      · simp [feed_nil, utf8_decoder.error, hd]
    · obtain ⟨hpos, hle, hpend⟩ := properPrefix_pending d hd p hp
      have hfe : ∀ k, k ≤ p.length → (feed d (p.take k)).error = false := by
        intro k hk
        rcases Nat.eq_zero_or_pos k with rfl | hk0
        · simp [feed_nil, utf8_decoder.error, hd]
        · exact error_false_of_needs_more (hpend k hk0 hk)
      refine ⟨hle, hpend, run_eq_feed p d (fun k hk => hfe k (Nat.le_of_lt hk)), ?_⟩
      have := hfe p.length (Nat.le_refl _)
      rwa [List.take_length] at this
  obtain ⟨-, -, k3, k4⟩ := key _ h0
  obtain ⟨j1, j2, -, -⟩ := key utf8_decoder.fresh rfl
  rw [k3, k4] at hrej
  simp only [Bool.false_eq_true, if_false] at hrej
  refine ⟨j1, j2, ?_⟩
  rw [step_state_congr _ _ (feed_state_congr p utf8_decoder.fresh _ h0.symm)]
  exact (error_iff _).1 hrej

set_option maxRecDepth 100000 in
/-- The byte-order mark is the encoding of U+FEFF: no byte of it is rejected, and no
incomplete sequence contains it. -/
theorem no_reject_inside_BOM (p : List Nat) (b : Nat) (rest : List Nat)
    (hlen : p.length ≤ 3)
    (hpend : ∀ k, 0 < k → k ≤ p.length →
      (feed utf8_decoder.fresh (p.take k)).needs_more_input = true)
    (hrej : ((feed utf8_decoder.fresh p).step b).state = 12)
    (h : BOM <+: p ++ b :: rest) : False := by
  unfold BOM at h
  rcases p with _ | ⟨x, _ | ⟨y, _ | ⟨z, _ | ⟨w, t⟩⟩⟩⟩
  · simp only [List.nil_append, List.cons_prefix_cons] at h
    obtain ⟨rfl, -⟩ := h
    revert hrej; decide
  · simp only [List.cons_append, List.nil_append, List.cons_prefix_cons] at h
    obtain ⟨rfl, rfl, -⟩ := h
    revert hrej; decide
  · simp only [List.cons_append, List.nil_append, List.cons_prefix_cons] at h
    obtain ⟨rfl, rfl, rfl, -⟩ := h
    revert hrej; decide
  · simp only [List.cons_append, List.nil_append, List.cons_prefix_cons] at h
    obtain ⟨rfl, rfl, rfl, -⟩ := h
    have := hpend 3 (by decide) (by simp)
    revert this; decide
  · simp at hlen

/-- C7, as amended: for a buffer that holds a well-formed part, then an incomplete
sequence (possibly empty) and a byte that drives the decoder into reject, `read_next`
returns the codepoints of the well-formed part, without the U+FEFF of a byte-order mark
at the start of the buffer, and the next call, which reads the offending byte, fails with
"Encountered invalid utf-8 sequence"; no record is returned for the invalid sequence. -/
theorem read_next_invalid_sequence (exc : Bool) (fuel calls : Nat) (path : String)
    (vs p : List Nat) (b : Nat) (rest : List Nat) (hvs : ∀ v ∈ vs, isScalar v)
    (hp : p = [] ∨ properPrefix p)
    (hrej : (run utf8_decoder.fresh (utf8EncodeAll vs ++ p ++ [b])).error = true)
    (hf : 4 ≤ fuel) (hc : vs.length < calls) :
    ∃ recs res r',
      read_all exc utf8_byte_stream_view.ops fuel calls
        (buffer_reader (utf8EncodeAll vs ++ p ++ b :: rest) path) = some (recs, res, r') ∧
      recs.map (fun c => c.value) =
        (if BOM <+: utf8EncodeAll vs ++ p ++ b :: rest then vs.drop 1 else vs) ∧
      ∃ e : parse_error, reports exc res r' e ∧ e.what = "Encountered invalid utf-8 sequence" := by
  obtain ⟨hlen, hpend, hstep⟩ := reject_step_of_run vs p b hvs hp hrej
  by_cases hb : BOM <+: utf8EncodeAll vs ++ p ++ b :: rest
  · rw [if_pos hb]
    rcases vs with _ | ⟨v, vs⟩
    · rw [utf8EncodeAll_nil, List.nil_append] at hb
      exact (no_reject_inside_BOM p b rest hlen hpend hstep hb).elim
    · have hs : stripBOM (utf8EncodeAll (v :: vs) ++ p ++ b :: rest) =
          utf8EncodeAll vs ++ (p ++ b :: rest) := by
        rw [List.append_assoc] at hb ⊢
        exact stripBOM_scalars v vs (p ++ b :: rest) (hvs v (List.mem_cons_self _ _)) hb
      obtain ⟨res, r', h1, h2⟩ := read_all_invalid exc fuel calls path _ vs p b rest
        (fun x hx => hvs x (List.mem_cons_of_mem _ hx)) hlen hpend hstep hs hf
        (by simp at hc; omega)
      exact ⟨_, res, r', h1, by simpa using expected_records_values _ vs, _, h2, rfl⟩
  · rw [if_neg hb]
    have hs : stripBOM (utf8EncodeAll vs ++ p ++ b :: rest) =
        utf8EncodeAll vs ++ (p ++ b :: rest) := by
      rw [stripBOM_of_no_BOM hb, List.append_assoc]
    obtain ⟨res, r', h1, h2⟩ := read_all_invalid exc fuel calls path _ vs p b rest
      hvs hlen hpend hstep hs hf hc
    exact ⟨_, res, r', h1, expected_records_values _ vs, _, h2, rfl⟩

set_option maxRecDepth 100000 in
/-- C7 as amended, at the buffer `61 C0 80`: the letter `a`, then the overlong form
`C0 80`. -/
theorem read_next_invalid_sequence_witness :
    (∀ v ∈ [0x61], isScalar v) ∧ (([] : List Nat) = [] ∨ properPrefix []) ∧
    (run utf8_decoder.fresh (utf8EncodeAll [0x61] ++ [] ++ [0xC0])).error = true ∧
    ∃ recs res r',
      read_all false utf8_byte_stream_view.ops 4 2
        (buffer_reader (utf8EncodeAll [0x61] ++ [] ++ 0xC0 :: [0x80]) "") =
          some (recs, res, r') ∧
      recs.map (fun c => c.value) =
        (if BOM <+: utf8EncodeAll [0x61] ++ [] ++ 0xC0 :: [0x80] then [0x61].drop 1
         else [0x61]) ∧
      ∃ e : parse_error, reports false res r' e ∧
        e.what = "Encountered invalid utf-8 sequence" :=
  ⟨by decide, Or.inl rfl, by decide,
   read_next_invalid_sequence false 4 2 "" [0x61] [] 0xC0 [0x80] (by decide) (Or.inl rfl)
     (by decide) (by decide) (by decide)⟩

set_option maxRecDepth 100000 in
/-- C7 fails as stated: in the buffer `EF BB BF C0 80` the byte `C0` drives the decoder
into reject and the well-formed part before it is the encoding of U+FEFF, but `read_next`
returns no codepoint before it fails. -/
theorem read_next_invalid_sequence_counterexample :
    (∀ v ∈ [0xFEFF], isScalar v) ∧
    utf8EncodeAll [0xFEFF] ++ [] ++ 0xC0 :: [0x80] = [0xEF, 0xBB, 0xBF, 0xC0, 0x80] ∧
    (run utf8_decoder.fresh (utf8EncodeAll [0xFEFF] ++ [] ++ [0xC0])).error = true ∧
    ∃ recs res r',
      read_all false utf8_byte_stream_view.ops 4 2
        (buffer_reader [0xEF, 0xBB, 0xBF, 0xC0, 0x80] "") = some (recs, res, r') ∧
      recs = [] ∧ recs.map (fun c => c.value) ≠ [0xFEFF] := by
  refine ⟨by decide, by decide, by decide, ?_⟩
  obtain ⟨res, r', h1, -⟩ := read_all_invalid false 4 2 "" [0xEF, 0xBB, 0xBF, 0xC0, 0x80]
    [] [] 0xC0 [0x80] (by decide) (by decide) (by intro k hk hk'; simp at hk'; omega)
    (by decide) (by decide) (by decide) (by decide)
  exact ⟨_, res, r', h1, rfl, by decide⟩

/-! ### Sequences of calls of the codepoint reader, over any byte source -/

theorem raise_fst_snd {σ : Type} (exc : Bool) (r : utf8_reader σ) (msg : String) :
    raise exc r msg =
      if exc then (read_result.thrown ⟨msg, r.prev.position, r.source_path_⟩, r)
      else (read_result.null, { r with err := some ⟨msg, r.prev.position, r.source_path_⟩ }) := by
  cases exc <;> rfl

/-- The three ways the loop of `read_next` ends: with a record, which becomes `prev`;
with `nullptr` at a clean end of the input; or with an error raised at the position of
`prev`, which the loop has not touched. -/
theorem read_loop_cases {σ : Type} (exc : Bool) (ops : byte_stream_ops σ) (fuel : Nat)
    (r r' : utf8_reader σ) (res : read_result)
    (h : read_loop exc ops fuel r = some (res, r')) :
    (∃ c, res = read_result.codepoint c ∧ r'.prev = c ∧ r'.err = r.err ∧
      r'.source_path_ = r.source_path_ ∧ r'.current_byte_count = 0 ∧ r'.decoder.state = 0) ∨
    (res = read_result.null ∧ r'.prev = r.prev ∧ r'.err = r.err ∧
      r'.source_path_ = r.source_path_ ∧ ops.eof r'.stream = true) ∨
    (∃ r'' msg, (res, r') = raise exc r'' msg ∧ r''.prev = r.prev ∧
      r''.source_path_ = r.source_path_ ∧ r''.err = r.err) := by
  induction fuel generalizing r with
  | zero => simp [read_loop] at h
  | succ fuel ih =>
    rw [read_loop] at h
    simp only [] at h
    split at h
    · by_cases he : ops.eof (ops.next_byte r.stream).2 = true
      · rw [if_pos he] at h
        by_cases hn : r.decoder.needs_more_input = true
        · rw [if_pos hn] at h
          exact Or.inr (Or.inr ⟨_, _, (Option.some.inj h).symm, rfl, rfl, rfl⟩)
        · rw [if_neg hn] at h
          simp only [Option.some.injEq, Prod.mk.injEq] at h
          obtain ⟨e1, e2⟩ := h
          subst e1; subst e2
          exact Or.inr (Or.inl ⟨rfl, rfl, rfl, rfl, he⟩)
      · rw [if_neg he] at h
        exact Or.inr (Or.inr ⟨_, _, (Option.some.inj h).symm, rfl, rfl, rfl⟩)
    · rename_i b hb
      by_cases he : (r.decoder.step b).error = true
      · rw [if_pos he] at h
        exact Or.inr (Or.inr ⟨_, _, (Option.some.inj h).symm, rfl, rfl, rfl⟩)
      · rw [if_neg he] at h
        by_cases hc : (r.decoder.step b).has_code_point = true
        · rw [if_pos hc] at h
          simp only [Option.some.injEq, Prod.mk.injEq] at h
          obtain ⟨e1, e2⟩ := h
          subst e1; subst e2
          exact Or.inl ⟨_, rfl, rfl, rfl, rfl, rfl, (has_code_point_iff _).1 hc⟩
        · rw [if_neg hc] at h
          have e := ih _ h
          exact e

/-- The ways a call of `read_next` ends: with a record, which becomes `prev`; with
`nullptr` and nothing changed but the byte source, at the end of the input or behind a
recorded error; or with an error raised at the position of `prev`. -/
theorem read_next_cases {σ : Type} (exc : Bool) (ops : byte_stream_ops σ) (fuel : Nat)
    (r r' : utf8_reader σ) (res : read_result)
    (h : read_next exc ops fuel r = some (res, r')) :
    (∃ c, res = read_result.codepoint c ∧ r'.prev = c ∧ r'.err = r.err ∧
      r'.source_path_ = r.source_path_ ∧ r'.current_byte_count = 0 ∧ r'.decoder.state = 0 ∧
      (exc = false → r.err = none)) ∨
    (res = read_result.null ∧ r'.prev = r.prev ∧ r'.err = r.err ∧
      r'.source_path_ = r.source_path_ ∧
      (ops.eof r'.stream = true ∨ (exc = false ∧ r.err.isSome = true ∧ r' = r))) ∨
    (∃ r'' msg, (res, r') = raise exc r'' msg ∧ r''.prev = r.prev ∧
      r''.source_path_ = r.source_path_ ∧ r''.err = r.err ∧ (exc = false → r.err = none)) := by
  unfold read_next at h
  by_cases h1 : (!exc && r.err.isSome) = true
  · rw [if_pos h1] at h
    simp only [Option.some.injEq, Prod.mk.injEq] at h
    obtain ⟨e1, e2⟩ := h
    subst e1; subst e2
    simp only [Bool.and_eq_true, Bool.not_eq_true'] at h1
    exact Or.inr (Or.inl ⟨rfl, rfl, rfl, rfl, Or.inr ⟨h1.1, h1.2, rfl⟩⟩)
  rw [if_neg h1] at h
  have hnone : exc = false → r.err = none := by
    intro he
    subst he
    simpa using h1
  by_cases h2 : ops.eof r.stream = true
  · rw [if_pos h2] at h
    simp only [Option.some.injEq, Prod.mk.injEq] at h
    obtain ⟨e1, e2⟩ := h
    subst e1; subst e2
    exact Or.inr (Or.inl ⟨rfl, rfl, rfl, rfl, Or.inl h2⟩)
  rw [if_neg h2] at h
  by_cases h3 : ops.error r.stream = true
  · rw [if_pos h3] at h
    exact Or.inr (Or.inr ⟨_, _, (Option.some.inj h).symm, rfl, rfl, rfl, hnone⟩)
  rw [if_neg h3] at h
  by_cases h4 : r.decoder.error = true
  · rw [if_pos h4] at h
    exact Or.inr (Or.inr ⟨_, _, (Option.some.inj h).symm, rfl, rfl, rfl, hnone⟩)
  rw [if_neg h4] at h
  rcases read_loop_cases exc ops fuel r r' res h with
    ⟨c, k1, k2, k3, k4, k5, k6⟩ | ⟨k1, k2, k3, k4, k5⟩ | ⟨r'', msg, k1, k2, k3, k4⟩
  · exact Or.inl ⟨c, k1, k2, k3, k4, k5, k6, hnone⟩
  · exact Or.inr (Or.inl ⟨k1, k2, k3, k4, Or.inl k5⟩)
  · exact Or.inr (Or.inr ⟨r'', msg, k1, k2, k3, k4, hnone⟩)

/-- An error reported by a call of `read_next` on a reader that holds no error carries
the position of `prev` and the source label. -/
theorem reports_position {σ : Type} (exc : Bool) (ops : byte_stream_ops σ) (fuel : Nat)
    (r r' : utf8_reader σ) (res : read_result) (e : parse_error)
    (h : read_next exc ops fuel r = some (res, r')) (hr : reports exc res r' e)
    (hn : r.err = none) :
    e.position = r.prev.position ∧ e.source_path = r.source_path_ := by
  rcases read_next_cases exc ops fuel r r' res h with
    ⟨c, k1, k2, k3, -⟩ | ⟨k1, k2, k3, -⟩ | ⟨r'', msg, k1, k2, k3, k4, -⟩
  · subst k1
    cases exc
    · simp only [reports, Bool.false_eq_true, if_false] at hr
      exact absurd hr.1 (by simp)
    · simp only [reports, if_true] at hr
      exact absurd hr (by simp)
  · cases exc
    · simp only [reports, Bool.false_eq_true, if_false] at hr
      rw [k3, hn] at hr
      exact absurd hr.2 (by simp)
    · simp only [reports, if_true] at hr
      rw [k1] at hr
      exact absurd hr (by simp)
  · cases exc
    · simp only [reports, Bool.false_eq_true, if_false] at hr
      simp only [raise, Bool.false_eq_true, if_false, Prod.mk.injEq] at k1
      obtain ⟨-, e2⟩ := k1
      rw [e2] at hr
      simp only [Option.some.injEq] at hr
      rw [← hr.2]
      exact ⟨by simp [k2], by simp [k3]⟩
    · simp only [reports, if_true] at hr
      simp only [raise, if_true, Prod.mk.injEq] at k1
      obtain ⟨e1, -⟩ := k1
      rw [e1] at hr
      simp only [read_result.thrown.injEq] at hr
      rw [← hr]
      exact ⟨by simp [k2], by simp [k3]⟩

/-- C19: if the very first call of `read_next` fails, whatever the byte source and
whatever the failure (invalid sequence, truncated sequence or source error), the error
carries the zero-initialised position, line 0 and column 0. -/
theorem first_call_error_position {σ : Type} (exc : Bool) (ops : byte_stream_ops σ)
    (fuel : Nat) (stream : σ) (path : String) (r' : utf8_reader σ) (res : read_result)
    (e : parse_error)
    (h : read_next exc ops fuel (utf8_reader.create stream path) = some (res, r'))
    (hr : reports exc res r' e) :
    e.position = ⟨0, 0⟩ := by
  exact (reports_position exc ops fuel _ r' res e h hr rfl).1

theorem returned_codepoint (cs : List utf8_codepoint) (c : utf8_codepoint) :
    returned cs (read_result.codepoint c) = cs ++ [c] := rfl

theorem returned_null (cs : List utf8_codepoint) : returned cs read_result.null = cs := rfl

theorem returned_thrown (cs : List utf8_codepoint) (e : parse_error) :
    returned cs (read_result.thrown e) = cs := rfl

/-- In every state reached from the constructor, `prev` is the last record returned (the
zero record before the first), and an error recorded in `err` carries its position. -/
theorem reached_prev {σ : Type} (exc : Bool) (ops : byte_stream_ops σ) (stream : σ)
    (path : String) (r : utf8_reader σ) (cs : List utf8_codepoint)
    (h : reached exc ops (utf8_reader.create stream path) r cs) :
    r.prev = cs.getLastD utf8_codepoint.zero ∧ (exc = true → r.err = none) ∧
    (∀ e, r.err = some e → e.position = r.prev.position) := by
  induction h with
  | start => exact ⟨rfl, fun _ => rfl, fun e he => by simp [utf8_reader.create] at he⟩
  | call r r' cs fuel res _ hcall ih =>
    obtain ⟨i1, i2, i3⟩ := ih
    rcases read_next_cases exc ops fuel r r' res hcall with
      ⟨c, k1, k2, k3, -, -, -, k7⟩ | ⟨k1, k2, k3, -⟩ | ⟨r'', msg, k1, k2, k3, k4, k5⟩
    · subst k1
      have hn : r.err = none := by
        cases exc
        · exact k7 rfl
        · exact i2 rfl
      refine ⟨?_, fun _ => by rw [k3, hn], fun e he => ?_⟩
      · rw [returned_codepoint, k2]; simp
      · rw [k3, hn] at he; cases he
    · subst k1
      rw [returned_null]
      exact ⟨by rw [k2, i1], fun he => by rw [k3]; exact i2 he,
        fun e he => by rw [k2]; exact i3 e (by rw [← k3]; exact he)⟩
    · cases exc
      · simp only [raise, Bool.false_eq_true, if_false, Prod.mk.injEq] at k1
        obtain ⟨e1, e2⟩ := k1
        subst e1; subst e2
        rw [returned_null]
        refine ⟨by simp [k2, i1], fun he => (by cases he), fun e he => ?_⟩
        simp only [Option.some.injEq] at he
        rw [← he]
      · simp only [raise, if_true, Prod.mk.injEq] at k1
        obtain ⟨e1, e2⟩ := k1
        subst e1; subst e2
        rw [returned_thrown]
        exact ⟨by rw [k2, i1], fun _ => by rw [k4]; exact i2 rfl,
          fun e he => by rw [k2]; exact i3 e (by rw [← k4]; exact he)⟩

/-- C14: whenever a call of `read_next` reports an error (source error, invalid sequence
or truncated sequence) after at least one codepoint has been returned, the position
carried by the error is the position of the last codepoint returned. -/
theorem error_position_is_last_codepoint {σ : Type} (exc : Bool) (ops : byte_stream_ops σ)
    (stream : σ) (path : String) (r r' : utf8_reader σ) (cs : List utf8_codepoint)
    (fuel : Nat) (res : read_result) (e : parse_error)
    (hreach : reached exc ops (utf8_reader.create stream path) r cs) (hcs : cs ≠ [])
    (h : read_next exc ops fuel r = some (res, r')) (hr : reports exc res r' e) :
    e.position = (cs.getLast hcs).position := by
  obtain ⟨i1, i2, i3⟩ := reached_prev exc ops stream path r cs hreach
  have hlast : r.prev = cs.getLast hcs := by
    rw [i1, List.getLastD_eq_getLast?, List.getLast?_eq_getLast _ hcs]; rfl
  rw [← hlast]
  rcases hn : r.err with _ | e0
  · exact (reports_position exc ops fuel r r' res e h hr hn).1
  · cases exc
    · have h' := h
      unfold read_next at h'
      rw [if_pos (by simp [hn])] at h'
      simp only [Option.some.injEq, Prod.mk.injEq] at h'
      obtain ⟨-, e2⟩ := h'
      subst e2
      simp only [reports, Bool.false_eq_true, if_false] at hr
      exact i3 e hr.2
    · rw [i2 rfl] at hn; cases hn

/-- C19 at the buffer `C0 80`, an overlong form at the very start. -/
theorem first_call_error_position_witness :
    ∃ r' res e,
      read_next false utf8_byte_stream_view.ops 4
        (utf8_reader.create (utf8_byte_stream_view.create [0xC0, 0x80]) "") = some (res, r') ∧
      reports false res r' e ∧ e.what = "Encountered invalid utf-8 sequence" ∧
      e.position = ⟨0, 0⟩ := by
  obtain ⟨r', res, e, h, hr, hw⟩ : ∃ r' res e,
      read_next false utf8_byte_stream_view.ops 4
        (utf8_reader.create (utf8_byte_stream_view.create [0xC0, 0x80]) "") = some (res, r') ∧
      reports false res r' e ∧ e.what = "Encountered invalid utf-8 sequence" :=
    ⟨_, _, _, rfl, show _ ∧ _ from ⟨rfl, rfl⟩, rfl⟩
  exact ⟨r', res, e, h, hr, hw,
    first_call_error_position false utf8_byte_stream_view.ops 4 _ "" r' res e h hr⟩

/-- C14 at the buffer `61 C0`: the letter `a` at (1, 1), then an invalid byte. -/
theorem error_position_is_last_codepoint_witness :
    ∃ r r' c res e,
      reached false utf8_byte_stream_view.ops
        (utf8_reader.create (utf8_byte_stream_view.create [0x61, 0xC0]) "") r [c] ∧
      read_next false utf8_byte_stream_view.ops 4 r = some (res, r') ∧
      reports false res r' e ∧
      e.position = ([c].getLast (List.cons_ne_nil c [])).position ∧ c.position = ⟨1, 1⟩ := by
  obtain ⟨r, c, r', res, e, h0, hc, h, hr⟩ : ∃ r c r' res e,
      read_next false utf8_byte_stream_view.ops 4
        (utf8_reader.create (utf8_byte_stream_view.create [0x61, 0xC0]) "") =
          some (read_result.codepoint c, r) ∧ c.position = ⟨1, 1⟩ ∧
      read_next false utf8_byte_stream_view.ops 4 r = some (res, r') ∧
      reports false res r' e :=
    ⟨_, _, _, _, _, rfl, rfl, rfl, show _ ∧ _ from ⟨rfl, rfl⟩⟩
  have h1 := reached.call _ r [] 4 _ reached.start h0
  exact ⟨r, r', c, res, e, h1, h, hr,
    error_position_is_last_codepoint false utf8_byte_stream_view.ops _ "" r r' [c] 4 res e h1
      (List.cons_ne_nil _ []) h hr, hc⟩

/-- After a clean end of the input the byte source reports `eof()`. -/
theorem eof_of_clean_null {σ : Type} (exc : Bool) (ops : byte_stream_ops σ) (fuel : Nat)
    (r r1 : utf8_reader σ) (h : read_next exc ops fuel r = some (read_result.null, r1))
    (hclean : exc = false → r1.err = none) : ops.eof r1.stream = true := by
  rcases read_next_cases exc ops fuel r r1 _ h with
    ⟨c, k1, -⟩ | ⟨-, -, k3, -, k5⟩ | ⟨r'', msg, k1, -⟩
  · cases k1
  · rcases k5 with k5 | ⟨e1, e2, -⟩
    · exact k5
    · rw [hclean e1] at k3
      rw [← k3] at e2
      simp at e2
  · cases exc
    · simp only [raise, Bool.false_eq_true, if_false, Prod.mk.injEq, true_and] at k1
      have := hclean rfl
      rw [k1] at this
      simp at this
    · simp [raise] at k1

/-- A call on a reader whose byte source reports `eof()` and that holds no error returns
`nullptr` and changes nothing. -/
theorem read_next_at_eof {σ : Type} (exc : Bool) (ops : byte_stream_ops σ) (fuel : Nat)
    (r : utf8_reader σ) (he : ops.eof r.stream = true) (hclean : exc = false → r.err = none) :
    read_next exc ops fuel r = some (read_result.null, r) := by
  unfold read_next
  cases exc
  · simp [hclean rfl, he]
  · simp [he]

/-- C12: once `read_next` has returned `nullptr` for a clean end of the input, every later
call of `read_next` returns `nullptr` as well, throws or records no error, and leaves the
whole reader, in particular the cursor of the byte source, the decoder and the tracked
position, unchanged. Proved for every byte source, the buffer-backed one included. -/
theorem read_next_after_end {σ : Type} (exc : Bool) (ops : byte_stream_ops σ) (fuel : Nat)
    (r r1 : utf8_reader σ) (h : read_next exc ops fuel r = some (read_result.null, r1))
    (hclean : exc = false → r1.err = none) :
    (∀ fuel', read_next exc ops fuel' r1 = some (read_result.null, r1)) ∧
    (∀ r2 cs, reached exc ops r1 r2 cs → r2 = r1 ∧ cs = []) := by
  have he := eof_of_clean_null exc ops fuel r r1 h hclean
  have hfix : ∀ fuel', read_next exc ops fuel' r1 = some (read_result.null, r1) :=
    fun fuel' => read_next_at_eof exc ops fuel' r1 he hclean
  refine ⟨hfix, fun r2 cs hr => ?_⟩
  induction hr with
  | start => exact ⟨rfl, rfl⟩
  | call r r' cs fuel' res _ hcall ih =>
    obtain ⟨rfl, rfl⟩ := ih
    rw [hfix fuel'] at hcall
    simp only [Option.some.injEq, Prod.mk.injEq] at hcall
    obtain ⟨e1, e2⟩ := hcall
    subst e1; subst e2
    exact ⟨rfl, rfl⟩

/-- C12 at the buffer "a": the second call returns `nullptr`, and so does the third. -/
theorem read_next_after_end_witness :
    ∃ c r r1,
      read_next false utf8_byte_stream_view.ops 4 (buffer_reader [0x61] "") =
        some (read_result.codepoint c, r) ∧
      read_next false utf8_byte_stream_view.ops 4 r = some (read_result.null, r1) ∧
      (false = false → r1.err = none) ∧
      read_next false utf8_byte_stream_view.ops 4 r1 = some (read_result.null, r1) ∧
      r1.stream.position = 1 := by
  obtain ⟨c, r, r1, h0, h1, h2, h3⟩ : ∃ c r r1,
      read_next false utf8_byte_stream_view.ops 4 (buffer_reader [0x61] "") =
        some (read_result.codepoint c, r) ∧
      read_next false utf8_byte_stream_view.ops 4 r = some (read_result.null, r1) ∧
      (false = false → r1.err = none) ∧ r1.stream.position = 1 :=
    ⟨_, _, _, rfl, rfl, fun _ => rfl, rfl⟩
  exact ⟨c, r, r1, h0, h1, h2,
    (read_next_after_end false utf8_byte_stream_view.ops 4 r r1 h1 h2).1 4, h3⟩

set_option maxRecDepth 100000 in
theorem to_go_table : ∀ b, b < 256 →
    to_go (leadNext b) ≤ 3 ∧
    ∀ s ∈ [24, 36, 48, 60, 72, 84, 96], contNext s b = 12 ∨ to_go (contNext s b) + 1 = to_go s := by
  decide

theorem to_go_pos {s : Nat} (hv : validState s) (h0 : s ≠ 0) (h12 : s ≠ 12) : 1 ≤ to_go s := by
  rw [validState_iff] at hv
  rcases hv with h | h | h | h | h | h | h | h | h <;> first | (exact absurd h h0) | (exact absurd h h12) | (subst h; decide)

theorem pending_mem {s : Nat} (hv : validState s) (h0 : s ≠ 0) (h12 : s ≠ 12) :
    s ∈ [24, 36, 48, 60, 72, 84, 96] := by
  rw [validState_iff] at hv
  rcases hv with h | h | h | h | h | h | h | h | h <;> first | (exact absurd h h0) | (exact absurd h h12) | (subst h; decide)

/-- One step of the decoder on a byte that is not rejected: from the ready state at most
3 bytes are still needed, from a pending state one less than before. -/
theorem to_go_step (d : utf8_decoder) (b : Nat) (hv : validState d.state) (hb : b < 256)
    (h12 : (d.step b).state ≠ 12) :
    (d.state = 0 → to_go (d.step b).state ≤ 3) ∧
    (d.state ≠ 0 → to_go (d.step b).state + 1 = to_go d.state) := by
  have e := step_state_eq d b hv hb
  obtain ⟨t1, t2⟩ := to_go_table b hb
  constructor
  · intro h0
    rw [e, if_pos h0]
    exact t1
  · intro h0
    rw [e, if_neg h0] at h12
    rw [e, if_neg h0]
    have hd12 : d.state ≠ 12 := by
      intro h
      rw [h, contNext_twelve] at h12
      exact h12 rfl
    rcases t2 _ (pending_mem hv h0 hd12) with h | h
    · exact absurd h h12
    · exact h

/-- The invariant holds after a turn of the loop that leaves the decoder pending. -/
theorem bytes_invariant_pending_turn {σ : Type} (ops : byte_stream_ops σ) (r : utf8_reader σ)
    (b : Nat) (hb : b < 256) (hK : bytes_invariant r)
    (he : (r.decoder.step b).error = false) (hc : (r.decoder.step b).has_code_point = false) :
    r.current_byte_count ≤ 3 ∧ bytes_invariant (pending_turn ops r b) := by
  obtain ⟨hv, k0, k12⟩ := hK
  rw [error_false_iff] at he
  rw [has_code_point_false_iff] at hc
  have hv' := step_valid r.decoder b hv hb
  obtain ⟨s0, s1⟩ := to_go_step r.decoder b hv hb he
  have hpos := to_go_pos hv' hc he
  have hd12 : r.decoder.state ≠ 12 := by
    intro h
    have e := step_state_eq r.decoder b hv hb
    rw [h, if_neg (by decide), contNext_twelve] at e
    exact he e
  have k := k12 hd12
  by_cases h0 : r.decoder.state = 0
  · have c0 := k0 h0
    have t := s0 h0
    refine ⟨by omega, hv', fun h => absurd h hc, fun _ => ?_⟩
    show r.current_byte_count + 1 + to_go (r.decoder.step b).state ≤ 4
    omega
  · have t := s1 h0
    refine ⟨by omega, hv', fun h => absurd h hc, fun _ => ?_⟩
    show r.current_byte_count + 1 + to_go (r.decoder.step b).state ≤ 4
    omega

/-- The index of a write is at most 3 when the invariant holds and the byte is accepted. -/
theorem write_index_le {σ : Type} (r : utf8_reader σ) (b : Nat) (hb : b < 256)
    (hK : bytes_invariant r) (he : (r.decoder.step b).error = false) :
    r.current_byte_count ≤ 3 := by
  obtain ⟨hv, k0, k12⟩ := hK
  rw [error_false_iff] at he
  have hd12 : r.decoder.state ≠ 12 := by
    intro h
    have e := step_state_eq r.decoder b hv hb
    rw [h, if_neg (by decide), contNext_twelve] at e
    exact he e
  have k := k12 hd12
  by_cases h0 : r.decoder.state = 0
  · rw [k0 h0]; omega
  · have := to_go_pos hv h0 hd12
    omega

/-- Every index written during the loop is at most 3. -/
theorem loop_writes_le {σ : Type} (ops : byte_stream_ops σ) (P : σ → Prop)
    (hP : ∀ s, P s → P (ops.next_byte s).2 ∧ ∀ b, (ops.next_byte s).1 = some b → b < 256)
    (fuel : Nat) (r : utf8_reader σ) (hs : P r.stream) (hK : bytes_invariant r) :
    ∀ i ∈ loop_writes ops fuel r, i ≤ 3 := by
  induction fuel generalizing r with
  | zero => intro i hi; simp [loop_writes] at hi
  | succ fuel ih =>
    intro i hi
    unfold loop_writes at hi
    cases hnb : (ops.next_byte r.stream).1 with
    | none => rw [hnb] at hi; simp at hi
    | some b =>
      rw [hnb] at hi
      simp only at hi
      have hb : b < 256 := (hP _ hs).2 b hnb
      by_cases he : (r.decoder.step b).error = true
      · rw [if_pos he] at hi; simp at hi
      · rw [if_neg he] at hi
        have he' : (r.decoder.step b).error = false := by simpa using he
        have hle := write_index_le r b hb hK he'
        by_cases hc : (r.decoder.step b).has_code_point = true
        · rw [if_pos hc] at hi
          simp only [List.mem_singleton] at hi
          omega
        · rw [if_neg hc] at hi
          have hc' : (r.decoder.step b).has_code_point = false := by simpa using hc
          rcases List.mem_cons.1 hi with h | h
          · omega
          · exact ih (pending_turn ops r b) (hP _ hs).1
              (bytes_invariant_pending_turn ops r b hb hK he' hc').2 i h

/-- A turn of the loop that leaves the decoder pending continues with `pending_turn`. -/
theorem read_loop_pending_turn {σ : Type} (exc : Bool) (ops : byte_stream_ops σ) (fuel : Nat)
    (r : utf8_reader σ) (b : Nat) (hnb : (ops.next_byte r.stream).1 = some b)
    (he : (r.decoder.step b).error = false) (hc : (r.decoder.step b).has_code_point = false) :
    read_loop exc ops (fuel + 1) r = read_loop exc ops fuel (pending_turn ops r b) := by
  rw [read_loop]
  simp only [hnb, he, hc, Bool.false_eq_true, if_false]
  rfl

theorem raise_frame {σ : Type} (exc : Bool) (r : utf8_reader σ) (msg : String) :
    (raise exc r msg).2.stream = r.stream ∧ (raise exc r msg).2.decoder = r.decoder ∧
    (raise exc r msg).2.current_byte_count = r.current_byte_count := by
  cases exc <;> exact ⟨rfl, rfl, rfl⟩

theorem bytes_invariant_congr {σ : Type} {r r' : utf8_reader σ} (hd : r'.decoder = r.decoder)
    (hc : r'.current_byte_count = r.current_byte_count) (h : bytes_invariant r) :
    bytes_invariant r' := by
  unfold bytes_invariant at *
  rw [hd, hc]
  exact h

theorem bytes_invariant_reject {σ : Type} {r : utf8_reader σ} (h : r.decoder.state = 12) :
    bytes_invariant r := by
  unfold bytes_invariant
  rw [h]
  exact ⟨by decide, fun h => absurd h (by decide), fun h => absurd rfl h⟩

theorem bytes_invariant_ready {σ : Type} {r : utf8_reader σ} (h : r.decoder.state = 0)
    (hc : r.current_byte_count = 0) : bytes_invariant r := by
  unfold bytes_invariant
  rw [h, hc]
  exact ⟨by decide, fun _ => rfl, fun _ => by decide⟩

/-- The loop of `read_next` keeps the invariant, whatever way it ends. -/
theorem read_loop_invariant {σ : Type} (exc : Bool) (ops : byte_stream_ops σ) (P : σ → Prop)
    (hP : ∀ s, P s → P (ops.next_byte s).2 ∧ ∀ b, (ops.next_byte s).1 = some b → b < 256)
    (fuel : Nat) (r r' : utf8_reader σ) (res : read_result)
    (h : read_loop exc ops fuel r = some (res, r')) (hs : P r.stream) (hK : bytes_invariant r) :
    P r'.stream ∧ bytes_invariant r' := by
  induction fuel generalizing r with
  | zero => simp [read_loop] at h
  | succ fuel ih =>
    have hs' := (hP _ hs).1
    cases hnb : (ops.next_byte r.stream).1 with
    | none =>
      rw [read_loop] at h
      simp only [hnb] at h
      by_cases he : ops.eof (ops.next_byte r.stream).2 = true
      · rw [if_pos he] at h
        by_cases hn : r.decoder.needs_more_input = true
        · rw [if_pos hn] at h
          have e := congrArg Prod.snd (Option.some.inj h)
          simp only at e
          obtain ⟨f1, f2, f3⟩ := raise_frame exc
            { r with stream := (ops.next_byte r.stream).2 }
            "Encountered EOF during incomplete utf-8 code point sequence"
          rw [e] at f1 f2 f3
          exact ⟨by rw [f1]; exact hs', bytes_invariant_congr f2 f3 hK⟩
        · rw [if_neg hn] at h
          simp only [Option.some.injEq, Prod.mk.injEq] at h
          obtain ⟨-, e2⟩ := h
          subst e2
          exact ⟨hs', hK⟩
      · rw [if_neg he] at h
        have e := congrArg Prod.snd (Option.some.inj h)
        simp only at e
        obtain ⟨f1, f2, f3⟩ := raise_frame exc
          { r with stream := (ops.next_byte r.stream).2 }
          "An error occurred while reading from the underlying stream"
        rw [e] at f1 f2 f3
        exact ⟨by rw [f1]; exact hs', bytes_invariant_congr f2 f3 hK⟩
    | some b =>
      have hb : b < 256 := (hP _ hs).2 b hnb
      by_cases he : (r.decoder.step b).error = true
      · rw [read_loop] at h
        simp only [hnb] at h
        rw [if_pos he] at h
        have e := congrArg Prod.snd (Option.some.inj h)
        simp only at e
        obtain ⟨f1, f2, -⟩ := raise_frame exc
          { r with stream := (ops.next_byte r.stream).2, decoder := r.decoder.step b }
          "Encountered invalid utf-8 sequence"
        rw [e] at f1 f2
        refine ⟨by rw [f1]; exact hs', bytes_invariant_reject ?_⟩
        rw [f2]
        exact (error_iff _).1 he
      · have he' : (r.decoder.step b).error = false := by simpa using he
        by_cases hc : (r.decoder.step b).has_code_point = true
        · rw [read_loop] at h
          simp only [hnb] at h
          rw [if_neg he, if_pos hc] at h
          simp only [Option.some.injEq, Prod.mk.injEq] at h
          obtain ⟨-, e2⟩ := h
          subst e2
          exact ⟨hs', bytes_invariant_ready ((has_code_point_iff _).1 hc) rfl⟩
        · have hc' : (r.decoder.step b).has_code_point = false := by simpa using hc
          rw [read_loop_pending_turn exc ops fuel r b hnb he' hc'] at h
          exact ih (pending_turn ops r b) h hs'
            (bytes_invariant_pending_turn ops r b hb hK he' hc').2

/-- A call of `read_next` keeps the invariant, and a decoder that has rejected stays so. -/
theorem read_next_invariant {σ : Type} (exc : Bool) (ops : byte_stream_ops σ) (P : σ → Prop)
    (hP : ∀ s, P s → P (ops.next_byte s).2 ∧ ∀ b, (ops.next_byte s).1 = some b → b < 256)
    (fuel : Nat) (r r' : utf8_reader σ) (res : read_result)
    (h : read_next exc ops fuel r = some (res, r')) (hs : P r.stream) (hK : bytes_invariant r) :
    P r'.stream ∧ bytes_invariant r' ∧ (r.decoder.error = true → r'.decoder = r.decoder) := by
  unfold read_next at h
  by_cases h1 : (!exc && r.err.isSome) = true
  · rw [if_pos h1] at h
    simp only [Option.some.injEq, Prod.mk.injEq] at h
    obtain ⟨-, e2⟩ := h
    subst e2
    exact ⟨hs, hK, fun _ => rfl⟩
  rw [if_neg h1] at h
  by_cases h2 : ops.eof r.stream = true
  · rw [if_pos h2] at h
    simp only [Option.some.injEq, Prod.mk.injEq] at h
    obtain ⟨-, e2⟩ := h
    subst e2
    exact ⟨hs, hK, fun _ => rfl⟩
  rw [if_neg h2] at h
  by_cases h3 : ops.error r.stream = true
  · rw [if_pos h3] at h
    have e := congrArg Prod.snd (Option.some.inj h)
    simp only at e
    obtain ⟨f1, f2, f3⟩ := raise_frame exc r
      "An error occurred while reading from the underlying stream"
    rw [e] at f1 f2 f3
    exact ⟨by rw [f1]; exact hs, bytes_invariant_congr f2 f3 hK, fun _ => f2⟩
  rw [if_neg h3] at h
  by_cases h4 : r.decoder.error = true
  · rw [if_pos h4] at h
    have e := congrArg Prod.snd (Option.some.inj h)
    simp only at e
    obtain ⟨f1, f2, f3⟩ := raise_frame exc r "Encountered invalid utf-8 sequence"
    rw [e] at f1 f2 f3
    exact ⟨by rw [f1]; exact hs, bytes_invariant_congr f2 f3 hK, fun _ => f2⟩
  rw [if_neg h4] at h
  obtain ⟨a, b⟩ := read_loop_invariant exc ops P hP fuel r r' res h hs hK
  exact ⟨a, b, fun h => absurd h h4⟩

/-- The invariant holds in every state reached from a new reader. -/
theorem reached_invariant {σ : Type} (exc : Bool) (ops : byte_stream_ops σ) (P : σ → Prop)
    (hP : ∀ s, P s → P (ops.next_byte s).2 ∧ ∀ b, (ops.next_byte s).1 = some b → b < 256)
    (stream : σ) (path : String) (h0 : P stream) (r : utf8_reader σ) (cs : List utf8_codepoint)
    (hreach : reached exc ops (utf8_reader.create stream path) r cs) :
    P r.stream ∧ bytes_invariant r := by
  induction hreach with
  | start => exact ⟨h0, bytes_invariant_ready rfl rfl⟩
  | call r r' cs fuel res _ hcall ih =>
    obtain ⟨a, b, -⟩ := read_next_invariant exc ops P hP fuel r r' res hcall ih.1 ih.2
    exact ⟨a, b⟩

/-- From a pending state that needs at most `n` more bytes, the decoder is ready or has
rejected after at most `n` bytes. -/
theorem feed_settles (n : Nat) (d : utf8_decoder) (bs : List Nat) (hbs : ∀ b ∈ bs, b < 256)
    (hv : validState d.state) (h0 : d.state ≠ 0) (h12 : d.state ≠ 12) (hn : to_go d.state ≤ n)
    (hl : n ≤ bs.length) :
    ∃ k, 1 ≤ k ∧ k ≤ n ∧ ((feed d (bs.take k)).state = 0 ∨ (feed d (bs.take k)).state = 12) := by
  induction n generalizing d bs with
  | zero =>
    have := to_go_pos hv h0 h12
    omega
  | succ n ih =>
    cases bs with
    | nil => simp at hl
    | cons b t =>
      have hb : b < 256 := hbs b (List.mem_cons_self _ _)
      have ht : ∀ x ∈ t, x < 256 := fun x hx => hbs x (List.mem_cons_of_mem _ hx)
      have hv' := step_valid d b hv hb
      by_cases e0 : (d.step b).state = 0
      · exact ⟨1, le_refl _, by omega, Or.inl (by simpa [feed] using e0)⟩
      by_cases e12 : (d.step b).state = 12
      · exact ⟨1, le_refl _, by omega, Or.inr (by simpa [feed] using e12)⟩
      have hstep := (to_go_step d b hv hb e12).2 h0
      obtain ⟨k, k1, k2, k3⟩ := ih (d.step b) t ht hv' e0 e12 (by omega)
        (by simpa using hl)
      refine ⟨k + 1, by omega, by omega, ?_⟩
      rw [List.take_succ_cons, feed_cons]
      exact k3

/-- Starting from the ready state the decoder is ready or has rejected after at most 4
bytes. -/
theorem fresh_settles (bs : List Nat) (hbs : ∀ b ∈ bs, b < 256) (hl : 4 ≤ bs.length) :
    ∃ k, 1 ≤ k ∧ k ≤ 4 ∧ ((feed utf8_decoder.fresh (bs.take k)).state = 0 ∨
      (feed utf8_decoder.fresh (bs.take k)).state = 12) := by
  cases bs with
  | nil => simp at hl
  | cons b t =>
    have hb : b < 256 := hbs b (List.mem_cons_self _ _)
    have ht : ∀ x ∈ t, x < 256 := fun x hx => hbs x (List.mem_cons_of_mem _ hx)
    have hf : validState utf8_decoder.fresh.state := by decide
    have hv' := step_valid utf8_decoder.fresh b hf hb
    by_cases e0 : (utf8_decoder.fresh.step b).state = 0
    · exact ⟨1, le_refl _, by omega, Or.inl (by simpa [feed] using e0)⟩
    by_cases e12 : (utf8_decoder.fresh.step b).state = 12
    · exact ⟨1, le_refl _, by omega, Or.inr (by simpa [feed] using e12)⟩
    have hstep := (to_go_step utf8_decoder.fresh b hf hb e12).1 rfl
    obtain ⟨k, k1, k2, k3⟩ := feed_settles 3 (utf8_decoder.fresh.step b) t ht hv' e0 e12 hstep
      (by simpa using hl)
    refine ⟨k + 1, by omega, by omega, ?_⟩
    rw [List.take_succ_cons, feed_cons]
    exact k3

/-- The buffer-backed byte source over a buffer of bytes delivers bytes. -/
theorem view_delivers_bytes (s : utf8_byte_stream_view) (h : ∀ b ∈ s.source, b < 256) :
    (∀ b ∈ (utf8_byte_stream_view.ops.next_byte s).2.source, b < 256) ∧
    ∀ b, (utf8_byte_stream_view.ops.next_byte s).1 = some b → b < 256 := by
  show (∀ b ∈ (utf8_byte_stream_view.next_byte s).2.source, b < 256) ∧
    ∀ b, (utf8_byte_stream_view.next_byte s).1 = some b → b < 256
  unfold utf8_byte_stream_view.next_byte
  by_cases hp : s.position ≥ s.source.length
  · rw [if_pos hp]
    exact ⟨h, fun b hb => by simp at hb⟩
  · rw [if_neg hp]
    refine ⟨h, fun b hb => ?_⟩
    simp only [Option.some.injEq] at hb
    subst hb
    have hlt : s.position < s.source.length := by omega
    rw [List.getD_eq_getElem _ _ hlt]
    exact h _ (List.getElem_mem _)

/-- C18: in every state a reader reaches from construction by calls of `read_next`, over a
byte source that delivers bytes (values below 256), the statement
`current.bytes[current_byte_count++] = *nextByte` uses only indices of at most 3 during the
next call; a call that returns a codepoint leaves `current_byte_count` at 0; once the
decoder has rejected, a call writes nothing and leaves the decoder rejected; a turn of the
loop that leaves the decoder pending continues from `pending_turn`; and a fresh decoder is
ready or has rejected after at most 4 bytes. -/
theorem current_bytes_index_le_three {σ : Type} (exc : Bool) (ops : byte_stream_ops σ)
    (P : σ → Prop)
    (hP : ∀ s, P s → P (ops.next_byte s).2 ∧ ∀ b, (ops.next_byte s).1 = some b → b < 256)
    (stream : σ) (path : String) (h0 : P stream) (r : utf8_reader σ) (cs : List utf8_codepoint)
    (hreach : reached exc ops (utf8_reader.create stream path) r cs) :
    (∀ fuel, ∀ i ∈ read_next_writes exc ops fuel r, i ≤ 3) ∧
    bytes_invariant r ∧
    (∀ fuel c r', read_next exc ops fuel r = some (read_result.codepoint c, r') →
      r'.current_byte_count = 0) ∧
    (r.decoder.error = true → ∀ fuel, read_next_writes exc ops fuel r = [] ∧
      ∀ res r', read_next exc ops fuel r = some (res, r') → r'.decoder.error = true) ∧
    (∀ fuel b, (ops.next_byte r.stream).1 = some b → (r.decoder.step b).error = false →
      (r.decoder.step b).has_code_point = false →
      read_loop exc ops (fuel + 1) r = read_loop exc ops fuel (pending_turn ops r b)) ∧
    (∀ bs : List Nat, (∀ b ∈ bs, b < 256) → 4 ≤ bs.length →
      ∃ k, 1 ≤ k ∧ k ≤ 4 ∧ ((feed utf8_decoder.fresh (bs.take k)).state = 0 ∨
        (feed utf8_decoder.fresh (bs.take k)).state = 12)) := by
  obtain ⟨hs, hK⟩ := reached_invariant exc ops P hP stream path h0 r cs hreach
  refine ⟨fun fuel i hi => ?_, hK, fun fuel c r' h => ?_, fun he fuel => ⟨?_, fun res r' h => ?_⟩,
    fun fuel b hnb he hc => read_loop_pending_turn exc ops fuel r b hnb he hc,
    fun bs hbs hl => fresh_settles bs hbs hl⟩
  · unfold read_next_writes at hi
    split_ifs at hi
    all_goals first
      | (exact absurd hi (List.not_mem_nil _))
      | (exact loop_writes_le ops P hP fuel r hs hK i hi)
  · rcases read_next_cases exc ops fuel r r' _ h with
      ⟨c', -, -, -, -, k, -⟩ | ⟨k, -⟩ | ⟨r'', msg, k, -⟩
    · exact k
    · cases k
    · exfalso
      cases exc
      · simp [raise] at k
      · simp [raise] at k
  · unfold read_next_writes
    simp [he]
  · obtain ⟨-, -, k⟩ := read_next_invariant exc ops P hP fuel r r' res h hs hK
    rw [k he]
    exact he

/-- C18 at the buffer `E2 82 AC 41`: the first call writes at the indices 0, 1 and 2. -/
theorem current_bytes_index_le_three_witness :
    (∀ i ∈ read_next_writes false utf8_byte_stream_view.ops 4
      (buffer_reader [0xE2, 0x82, 0xAC, 0x41] ""), i ≤ 3) ∧
    read_next_writes false utf8_byte_stream_view.ops 4
      (buffer_reader [0xE2, 0x82, 0xAC, 0x41] "") = [0, 1, 2] :=
  ⟨(current_bytes_index_le_three false utf8_byte_stream_view.ops
      (fun s => ∀ b ∈ s.source, b < 256) view_delivers_bytes
      (utf8_byte_stream_view.create [0xE2, 0x82, 0xAC, 0x41]) ""
      (by decide) _ [] reached.start).1 4, by decide⟩

/-! ### The calls after a truncated sequence -/

/-- The call of `read_next` that meets the end of the buffer inside a codepoint leaves
the byte source at its end and records nothing but the error it raises. -/
theorem read_next_truncated_state (exc : Bool) (fuel : Nat)
    (r : utf8_reader utf8_byte_stream_view) (p : List Nat) (hr : Ready r)
    (hp : properPrefix p) (h : remaining r.stream = p) (hf : 4 ≤ fuel) :
    ∃ r', read_next exc utf8_byte_stream_view.ops fuel r =
        some (raise exc r' "Encountered EOF during incomplete utf-8 code point sequence") ∧
      r'.prev = r.prev ∧ r'.source_path_ = r.source_path_ ∧
      remaining r'.stream = [] ∧ r'.err = none := by
  obtain ⟨hpos, hle, hpend⟩ := properPrefix_pending r.decoder hr.1 p hp
  obtain ⟨f1, f2, f3, f4, -⟩ := foldl_consume p r
  obtain ⟨c, hc⟩ : ∃ c, fuel = p.length + (c + 1) := ⟨fuel - p.length - 1, by omega⟩
  obtain ⟨b0, t0, hq⟩ : ∃ b0 t0, p = b0 :: t0 := by
    rcases p with _ | ⟨b0, t0⟩
    · simp at hpos
    · exact ⟨b0, t0, rfl⟩
  have hrem : remaining r.stream = p ++ [] := by rw [List.append_nil]; exact h
  have hfin : (p.foldl consume r).decoder.needs_more_input = true := by
    rw [f1]
    have := hpend p.length hpos (Nat.le_refl _)
    rwa [List.take_length] at this
  rw [read_next_eq_loop exc fuel r hr b0 t0 (by rw [h, hq]), hc,
    read_loop_chain exc p [] (c + 1) r hrem hpend,
    read_loop_eof exc c _ (remaining_foldl_consume p [] r hrem) hfin]
  exact ⟨_, rfl, f2, f4, remaining_foldl_consume p [] r hrem, by rw [f3]; exact hr.2.2.2⟩

/-- After an error was raised at the end of the buffer, every call returns `nullptr` and
changes nothing: the error is still recorded when the library is built without
exceptions, and nothing is recorded when it is built with them. -/
theorem read_next_after_raise (exc : Bool) (r : utf8_reader utf8_byte_stream_view)
    (msg : String) (hrem : remaining r.stream = []) (herr : r.err = none) (fuel : Nat) :
    read_next exc utf8_byte_stream_view.ops fuel (raise exc r msg).2 =
      some (read_result.null, (raise exc r msg).2) ∧
    (exc = false → (raise exc r msg).2.err ≠ none) ∧
    (exc = true → (raise exc r msg).2.err = none) := by
  cases exc
  · refine ⟨?_, fun _ => ?_, fun h => absurd h (by decide)⟩
    · unfold read_next
      simp [raise]
    · simp [raise]
  · refine ⟨?_, fun h => absurd h (by decide), fun _ => herr⟩
    exact read_next_at_eof true utf8_byte_stream_view.ops fuel r
      (by rw [ops_eof]; exact (next_byte_nil hrem).2) (fun h => absurd h (by decide))

/-- C6, as amended: for a buffer that holds a well-formed sequence followed by a proper
non-empty prefix of an encoding and that does not start with a byte-order mark,
`read_next` returns the codepoints of the well-formed part and the next call fails with
"Encountered EOF during incomplete utf-8 code point sequence": that call does not report
a clean end-of-input. Every call after it returns `nullptr` and changes nothing; when the
library is built without exceptions the error is still recorded then, and when it is
built with exceptions nothing is recorded, so that these calls report a clean
end-of-input. -/
theorem read_next_truncated_sequence (exc : Bool) (fuel calls : Nat) (path : String)
    (vs p : List Nat) (hvs : ∀ v ∈ vs, isScalar v) (hp : properPrefix p)
    (hbom : ¬ BOM <+: utf8EncodeAll vs ++ p) (hf : 4 ≤ fuel) (hc : vs.length < calls) :
    ∃ recs res r',
      read_all exc utf8_byte_stream_view.ops fuel calls
        (buffer_reader (utf8EncodeAll vs ++ p) path) = some (recs, res, r') ∧
      recs.map (fun c => c.value) = vs ∧
      (∃ e : parse_error, reports exc res r' e ∧
        e.what = "Encountered EOF during incomplete utf-8 code point sequence") ∧
      ¬ (res = read_result.null ∧ r'.err = none) ∧
      (∀ fuel', read_next exc utf8_byte_stream_view.ops fuel' r' =
        some (read_result.null, r')) ∧
      (exc = false → r'.err ≠ none) ∧ (exc = true → r'.err = none) := by
  obtain ⟨i1, i2, i3, i4, i5⟩ := buffer_reader_init (utf8EncodeAll vs ++ p) path
  obtain ⟨n, hn⟩ : ∃ n, calls = vs.length + (n + 1) := ⟨calls - vs.length - 1, by omega⟩
  obtain ⟨r1, hr1, hrem1, -, hprev1, hpath1, -, hall⟩ :=
    read_all_scalars exc fuel hf vs hvs p (n + 1) (buffer_reader (utf8EncodeAll vs ++ p) path)
      i1 (by rw [i2, stripBOM_of_no_BOM hbom])
  obtain ⟨r2, e2, hprev2, hpath2, hrem2, herr2⟩ :=
    read_next_truncated_state exc fuel r1 p hr1 hp hrem1 hf
  have hrep := reports_raise exc r2 "Encountered EOF during incomplete utf-8 code point sequence"
  have hlater := fun fuel' => read_next_after_raise exc r2
    "Encountered EOF during incomplete utf-8 code point sequence" hrem2 herr2 fuel'
  refine ⟨_, (raise exc r2 "Encountered EOF during incomplete utf-8 code point sequence").1,
    (raise exc r2 "Encountered EOF during incomplete utf-8 code point sequence").2, ?_,
    expected_records_values ⟨1, 1⟩ vs, ⟨_, hrep, rfl⟩, ?_, fun fuel' => (hlater fuel').1,
    (hlater 0).2.1, (hlater 0).2.2⟩
  · rw [hn, hall, read_all_raise exc _ fuel n r1 r2 _ e2, i3]
    simp only [Option.map_some', List.append_nil]
  · intro ⟨hn', he⟩
    cases exc
    · exact (hlater 0).2.1 rfl he
    · simp [raise] at hn'

/-- C6 fails as stated when the library is built with exceptions: over the buffer
`61 F0` the first call returns the letter `a`, the second throws the truncated-sequence
error, and the third returns `nullptr` with no error thrown or recorded, a clean
end-of-input. -/
theorem read_next_truncated_sequence_counterexample :
    ∃ c e r1 r2,
      read_next true utf8_byte_stream_view.ops 4 (buffer_reader [0x61, 0xF0] "") =
        some (read_result.codepoint c, r1) ∧
      read_next true utf8_byte_stream_view.ops 4 r1 = some (read_result.thrown e, r2) ∧
      e.what = "Encountered EOF during incomplete utf-8 code point sequence" ∧
      read_next true utf8_byte_stream_view.ops 4 r2 = some (read_result.null, r2) ∧
      r2.err = none :=
  ⟨_, _, _, _, rfl, rfl, rfl, rfl, rfl⟩

/-- C6 as amended, at the buffer `61 F0`: the letter `a`, then the lead byte of a
four-byte sequence, read by a library built without exceptions. -/
theorem read_next_truncated_sequence_witness :
    (∀ v ∈ [0x61], isScalar v) ∧ properPrefix [0xF0] ∧
    ¬ BOM <+: utf8EncodeAll [0x61] ++ [0xF0] ∧
    ∃ recs res r',
      read_all false utf8_byte_stream_view.ops 4 2
        (buffer_reader (utf8EncodeAll [0x61] ++ [0xF0]) "") = some (recs, res, r') ∧
      recs.map (fun c => c.value) = [0x61] ∧
      (∃ e : parse_error, reports false res r' e ∧
        e.what = "Encountered EOF during incomplete utf-8 code point sequence") ∧
      ¬ (res = read_result.null ∧ r'.err = none) ∧
      (∀ fuel', read_next false utf8_byte_stream_view.ops fuel' r' =
        some (read_result.null, r')) ∧
      (false = false → r'.err ≠ none) ∧ (false = true → r'.err = none) :=
  ⟨by decide, ⟨0x10000, by decide, by decide, by decide, by decide⟩, by decide,
   read_next_truncated_sequence false 4 2 "" [0x61] [0xF0] (by decide)
     ⟨0x10000, by decide, by decide, by decide, by decide⟩ (by decide) (by decide) (by decide)⟩

end CodepointReader

section BufferedReader

open utf8_buffered_reader

/-! ### The buffered reader -/

variable {ρ : Type}

theorem read_many_zero (exc : Bool) (I : utf8_reader_interface ρ) (b : utf8_buffered_reader ρ) :
    read_many exc I 0 b = some ([], b) := rfl

theorem read_many_succ (exc : Bool) (I : utf8_reader_interface ρ) (n : Nat)
    (b b' : utf8_buffered_reader ρ) (res : read_result)
    (h : read_next exc I b = some (res, b')) :
    read_many exc I (n + 1) b =
      (read_many exc I n b').map (fun x => (res :: x.1, x.2)) := by
  rw [read_many, h]
  simp only []
  rcases read_many exc I n b' with _ | ⟨rs, b''⟩ <;> rfl

/-- The first call of a run of calls, when the run returns. -/
theorem read_many_succ_inv (exc : Bool) (I : utf8_reader_interface ρ) (n : Nat)
    (b bn : utf8_buffered_reader ρ) (rs : List read_result)
    (h : read_many exc I (n + 1) b = some (rs, bn)) :
    ∃ res b' rs', read_next exc I b = some (res, b') ∧
      read_many exc I n b' = some (rs', bn) ∧ rs = res :: rs' := by
  rw [read_many] at h
  rcases h1 : read_next exc I b with _ | ⟨res, b'⟩
  · rw [h1] at h; cases h
  · rw [h1] at h
    simp only [] at h
    rcases h2 : read_many exc I n b' with _ | ⟨rs', b''⟩
    · rw [h2] at h; cases h
    · rw [h2] at h
      simp only [Option.some.injEq, Prod.mk.injEq] at h
      obtain ⟨e1, e2⟩ := h
      subst e2
      exact ⟨res, b', rs', rfl, h2, e1.symm⟩

/-- What `pull` does when the wrapped reader returns a record. -/
theorem pull_codepoint (I : utf8_reader_interface ρ) (b b' : utf8_buffered_reader ρ)
    (c : utf8_codepoint) (h : pull I b = some (read_result.codepoint c, b')) :
    ∃ rd, b' = { b with reader := rd, head := some c } := by
  unfold pull at h
  rcases h1 : I.read_next b.reader with _ | ⟨res, rd⟩
  · rw [h1] at h; cases h
  · rw [h1] at h
    cases res with
    | codepoint c' =>
      simp only [Option.some.injEq, Prod.mk.injEq, read_result.codepoint.injEq] at h
      exact ⟨rd, by rw [← h.2, h.1]⟩
    | null => simp at h
    | thrown e => simp at h

theorem forward_state_create (rd : ρ) : forward_state [] (create rd) := by
  refine ⟨rfl, rfl, rfl, rfl, ?_, fun j hj => ?_⟩
  · simp [create]
  · simp at hj

/-- A forward read that returns a record extends the history without overwriting, as
long as fewer than `max_history_length` records have been read. -/
theorem forward_state_step (exc : Bool) (I : utf8_reader_interface ρ)
    (cs : List utf8_codepoint) (b b' : utf8_buffered_reader ρ) (c : utf8_codepoint)
    (hs : forward_state cs b) (hlen : cs.length < 64)
    (h : read_next exc I b = some (read_result.codepoint c, b')) :
    forward_state (cs ++ [c]) b' := by
  obtain ⟨h1, h2, h3, h4, h5, h6⟩ := hs
  unfold read_next at h
  by_cases he : (!exc && I.error b.reader) = true
  · rw [if_pos he] at h; simp at h
  rw [if_neg he, if_neg (by simp [h1])] at h
  rcases cs.eq_nil_or_concat with rfl | ⟨cs', x, rfl⟩
  all_goals try rw [List.concat_eq_append] at *
  · have hh : b.head = none := by simpa using h2
    have hc : b.history_count = 0 := by simpa using h4
    rw [if_pos ⟨hc, by simp [hh]⟩] at h
    obtain ⟨rd, rfl⟩ := pull_codepoint I b b' c h
    refine ⟨h1, by simp, h3, by simpa using hc, h5, fun j hj => ?_⟩
    simp at hj
  · have hh : b.head = some x := by simpa using h2
    have hc : b.history_count = cs'.length := by simpa using h4
    rw [if_neg (by simp [hh])] at h
    simp only [hh] at h
    have hlt : b.history_count < history_buffer_size := by
      rw [hc]; simp [history_buffer_size, max_history_length] at hlen ⊢; omega
    rw [if_pos hlt] at h
    obtain ⟨rd, rfl⟩ := pull_codepoint I _ b' c h
    refine ⟨h1, by simp, h3, by simp [hc], by simpa using h5, fun j hj => ?_⟩
    simp only [List.length_append, List.length_cons, List.length_nil, Nat.zero_add,
      Nat.add_sub_cancel] at hj
    simp only [List.getD_eq_getElem?_getD]
    by_cases hj' : j = cs'.length
    · subst hj'
      rw [hc, List.getElem?_set_self (by rw [h5, ← hc]; exact hlt),
        List.getElem?_append_left (by simp), List.getElem?_append_right (Nat.le_refl _)]
      simp
    · have hjl : j < cs'.length := by omega
      rw [hc, List.getElem?_set_ne (fun e => hj' e.symm)]
      have := h6 j (by simpa using hjl)
      simp only [List.getD_eq_getElem?_getD] at this
      rw [this, List.append_assoc, List.getElem?_append_left hjl,
        List.getElem?_append_left hjl]

/-- Forward reads that all return a record, at most `max_history_length` in total. -/
theorem forward_state_reads (exc : Bool) (I : utf8_reader_interface ρ) (n : Nat)
    (cs cs' : List utf8_codepoint) (b bn : utf8_buffered_reader ρ)
    (hs : forward_state cs b) (hlen : cs.length + n ≤ 64)
    (h : read_many exc I n b = some (cs'.map read_result.codepoint, bn)) :
    forward_state (cs ++ cs') bn ∧ cs'.length = n := by
  induction n generalizing cs cs' b with
  | zero =>
    rw [read_many_zero] at h
    simp only [Option.some.injEq, Prod.mk.injEq] at h
    obtain ⟨e1, e2⟩ := h
    have : cs' = [] := by simpa using e1.symm
    subst this; subst e2
    exact ⟨by simpa using hs, rfl⟩
  | succ n ih =>
    obtain ⟨res, b', rs', h1, h2, h3⟩ := read_many_succ_inv exc I n b bn _ h
    rcases cs' with _ | ⟨c, cs''⟩
    · simp at h3
    · simp only [List.map_cons, List.cons.injEq] at h3
      obtain ⟨e1, e2⟩ := h3
      subst e1; subst e2
      have hs' := forward_state_step exc I cs b b' c hs (by omega) h1
      obtain ⟨k1, k2⟩ := ih (cs ++ [c]) cs'' b' hs' (by simp; omega) h2
      exact ⟨by simpa using k1, by simp [k2]⟩

theorem history_at_forward (cs : List utf8_codepoint) (b : utf8_buffered_reader ρ)
    (hs : forward_state cs b) (hlen : cs.length ≤ 64) (m : Nat) (hm0 : 0 < m)
    (hm : m < cs.length) :
    history_at { b with negative_offset := m } =
      cs.getD (cs.length - 1 - m) utf8_codepoint.zero := by
  obtain ⟨h1, h2, h3, h4, h5, h6⟩ := hs
  unfold history_at
  simp only [h3, h4, Nat.zero_add]
  have : (cs.length - 1 - m) % history_buffer_size = cs.length - 1 - m := by
    apply Nat.mod_eq_of_lt
    simp [history_buffer_size, max_history_length]; omega
  rw [this]
  exact h6 _ (by omega)

/-- After forward reads, `step_back(k)` with `0 < k < N` passes its assertions, sets the
offset to `k` and returns the record read `k` calls before the head. -/
theorem step_back_forward (exc : Bool) (I : utf8_reader_interface ρ)
    (cs : List utf8_codepoint) (b : utf8_buffered_reader ρ) (hs : forward_state cs b)
    (hlen : cs.length ≤ 64) (hok : exc = false → I.error b.reader = false) (k : Nat)
    (hk0 : 0 < k) (hk : k < cs.length) :
    step_back exc I b k =
      some (read_result.codepoint (cs.getD (cs.length - 1 - k) utf8_codepoint.zero),
        { b with negative_offset := k }) := by
  have hat := history_at_forward cs b hs hlen k hk0 hk
  obtain ⟨h1, h2, h3, h4, h5, h6⟩ := hs
  have he : (!exc && I.error b.reader) = false := by
    cases exc
    · simp [hok rfl]
    · rfl
  have hmod : k % size_modulus = k :=
    Nat.mod_eq_of_lt (lt_of_lt_of_le (lt_of_lt_of_le hk hlen) (by decide))
  unfold step_back
  rw [he]
  simp only [Bool.false_eq_true, if_false, h1, Nat.zero_add, hmod]
  rw [if_neg (by omega), if_neg (by rw [h4]; omega), if_pos (by omega), hat]

/-- Replaying after a step back: `m` calls return the last `m` records again and leave
the reader as it was before the step back. -/
theorem replay_forward (exc : Bool) (I : utf8_reader_interface ρ)
    (cs : List utf8_codepoint) (b : utf8_buffered_reader ρ) (hs : forward_state cs b)
    (hlen : cs.length ≤ 64) (hok : exc = false → I.error b.reader = false) (m : Nat)
    (hm : m < cs.length) :
    read_many exc I m { b with negative_offset := m } =
      some ((cs.drop (cs.length - m)).map read_result.codepoint, b) := by
  have he : (!exc && I.error b.reader) = false := by
    cases exc
    · simp [hok rfl]
    · rfl
  induction m with
  | zero =>
    have : ({ b with negative_offset := 0 } : utf8_buffered_reader ρ) = b := by
      cases b; simp only [forward_state] at hs; simp [hs.1]
    rw [this, read_many_zero]
    simp
  | succ m ih =>
    have hstep : read_next exc I { b with negative_offset := m + 1 } =
        some (read_result.codepoint (cs.getD (cs.length - 1 - m) utf8_codepoint.zero),
          { b with negative_offset := m }) := by
      unfold read_next
      simp only [he, Bool.false_eq_true, if_false, Nat.add_sub_cancel, ne_eq,
        Nat.add_one_ne_zero, not_false_eq_true, if_true]
      by_cases hm0 : m = 0
      · subst hm0
        obtain ⟨-, h2, -⟩ := hs
        simp only [if_true, h2]
        rcases cs.eq_nil_or_concat with rfl | ⟨cs', x, rfl⟩
        · simp at hm
        · simp [to_result, List.concat_eq_append, List.getElem?_append_right]
      · rw [if_neg hm0, history_at_forward cs b hs hlen m (by omega) (by omega)]
    rw [read_many_succ exc I m _ _ _ hstep, ih (by omega)]
    simp only [Option.map_some', Option.some.injEq, Prod.mk.injEq, and_true]
    have hi : cs.length - (m + 1) < cs.length := by omega
    rw [List.drop_eq_getElem_cons hi, List.map_cons]
    have e1 : cs.length - 1 - m = cs.length - (m + 1) := by omega
    have e2 : cs.length - (m + 1) + 1 = cs.length - m := by omega
    rw [e1, e2, List.getD_eq_getElem?_getD, List.getElem?_eq_getElem hi]
    rfl

/-- A forward read that returns a record is a call of the wrapped reader that returns
that record. -/
theorem read_next_forward_reader (exc : Bool) (I : utf8_reader_interface ρ)
    (cs : List utf8_codepoint) (b b' : utf8_buffered_reader ρ) (c : utf8_codepoint)
    (hs : forward_state cs b)
    (h : read_next exc I b = some (read_result.codepoint c, b')) :
    ∃ rd, I.read_next rd = some (read_result.codepoint c, b'.reader) := by
  have key : ∀ x : utf8_buffered_reader ρ, pull I x = some (read_result.codepoint c, b') →
      I.read_next x.reader = some (read_result.codepoint c, b'.reader) := by
    intro x hx
    unfold pull at hx
    rcases h1 : I.read_next x.reader with _ | ⟨res, rd⟩
    · rw [h1] at hx; cases hx
    · rw [h1] at hx
      cases res with
      | codepoint c' =>
        simp only [Option.some.injEq, Prod.mk.injEq, read_result.codepoint.injEq] at hx
        obtain ⟨e1, e2⟩ := hx
        subst e1; subst e2; rfl
      | null => simp at hx
      | thrown e => simp at hx
  obtain ⟨h1, -⟩ := hs
  unfold read_next at h
  by_cases he : (!exc && I.error b.reader) = true
  · rw [if_pos he] at h; simp at h
  rw [if_neg he, if_neg (by simp [h1])] at h
  by_cases hc : b.history_count = 0 ∧ b.head.isNone = true
  · rw [if_pos hc] at h
    exact ⟨_, key b h⟩
  · rw [if_neg hc] at h
    rcases hh : b.head with _ | x
    · rw [hh] at h; simp at h
    · rw [hh] at h
      simp only [] at h
      split_ifs at h
      · exact ⟨_, key _ h⟩
      · exact ⟨_, key _ h⟩

/-- A property that every record-returning call of the wrapped reader establishes holds
of the wrapped reader after forward reads that returned at least one record. -/
theorem forward_reads_reader (exc : Bool) (I : utf8_reader_interface ρ) (Q : ρ → Prop)
    (hQ : ∀ rd c rd', I.read_next rd = some (read_result.codepoint c, rd') → Q rd') (n : Nat)
    (cs cs' : List utf8_codepoint) (b bn : utf8_buffered_reader ρ)
    (hs : forward_state cs b) (hlen : cs.length + n ≤ 64) (hb : cs ≠ [] → Q b.reader)
    (h : read_many exc I n b = some (cs'.map read_result.codepoint, bn)) :
    cs ++ cs' ≠ [] → Q bn.reader := by
  induction n generalizing cs cs' b with
  | zero =>
    rw [read_many_zero] at h
    simp only [Option.some.injEq, Prod.mk.injEq] at h
    obtain ⟨e1, e2⟩ := h
    have : cs' = [] := by simpa using e1.symm
    subst this; subst e2
    simpa using hb
  | succ n ih =>
    obtain ⟨res, b', rs', h1, h2, h3⟩ := read_many_succ_inv exc I n b bn _ h
    rcases cs' with _ | ⟨c, cs''⟩
    · simp at h3
    · simp only [List.map_cons, List.cons.injEq] at h3
      obtain ⟨e1, e2⟩ := h3
      subst e1; subst e2
      have hs' := forward_state_step exc I cs b b' c hs (by omega) h1
      obtain ⟨rd, hrd⟩ := read_next_forward_reader exc I cs b b' c hs h1
      intro _
      exact ih (cs ++ [c]) cs'' b' hs' (by simp; omega) (fun _ => hQ _ _ _ hrd) h2 (by simp)

/-- Step back and replay over any wrapped reader that holds no error after the forward
reads. -/
theorem step_back_replay_general (exc : Bool) (I : utf8_reader_interface ρ) (rd0 : ρ)
    (N k : Nat) (cs : List utf8_codepoint) (bN : utf8_buffered_reader ρ) (hN : N ≤ 64)
    (hk0 : 0 < k) (hk : k < N)
    (hreads : read_many exc I N (create rd0) = some (cs.map read_result.codepoint, bN))
    (hok : exc = false → I.error bN.reader = false) :
    ∃ res b' b'', step_back exc I bN k = some (res, b') ∧
      read_many exc I k b' = some ((cs.drop (N - k)).map read_result.codepoint, b'') ∧
      b''.negative_offset = 0 ∧ read_next exc I b'' = read_next exc I bN := by
  obtain ⟨hs, hlen⟩ := forward_state_reads exc I N [] cs (create rd0) bN
    (forward_state_create rd0) (by simpa using hN) hreads
  rw [List.nil_append] at hs
  subst hlen
  refine ⟨_, _, bN, step_back_forward exc I cs bN hs hN hok k hk0 hk,
    replay_forward exc I cs bN hs hN hok k hk, hs.1, rfl⟩

theorem raise_ne_codepoint {σ : Type} (exc : Bool) (r r' : utf8_reader σ) (msg : String)
    (c : utf8_codepoint) : utf8_reader.raise exc r msg ≠ (read_result.codepoint c, r') := by
  cases exc <;> simp [utf8_reader.raise]

/-- The loop of `utf8_reader::read_next` does not touch `err` when it returns a record. -/
theorem read_loop_codepoint_err {σ : Type} (exc : Bool) (ops : byte_stream_ops σ) (fuel : Nat)
    (r r' : utf8_reader σ) (c : utf8_codepoint)
    (h : utf8_reader.read_loop exc ops fuel r = some (read_result.codepoint c, r')) :
    r'.err = r.err := by
  induction fuel generalizing r with
  | zero => simp [utf8_reader.read_loop] at h
  | succ fuel ih =>
    rw [utf8_reader.read_loop] at h
    simp only [] at h
    split at h <;> split_ifs at h
    all_goals
      first
      | exact absurd (Option.some.inj h) (raise_ne_codepoint _ _ _ _ _)
      | (have e := ih _ h; exact e)
      | (simp only [Option.some.injEq, Prod.mk.injEq] at h
         rw [← h.2])

/-- A call of `utf8_reader::read_next` that returns a record leaves no error recorded
(library built without exceptions). -/
theorem read_next_codepoint_err {σ : Type} (exc : Bool) (ops : byte_stream_ops σ) (fuel : Nat)
    (r r' : utf8_reader σ) (c : utf8_codepoint)
    (h : utf8_reader.read_next exc ops fuel r = some (read_result.codepoint c, r'))
    (he : exc = false) : r'.err.isSome = false := by
  subst he
  unfold utf8_reader.read_next at h
  by_cases h1 : r.err.isSome = true
  · simp [h1] at h
  · simp only [Bool.not_false, Bool.true_and, h1, Bool.false_eq_true, if_false] at h
    split_ifs at h
    · simp at h
    · exact absurd (Option.some.inj h) (raise_ne_codepoint _ _ _ _ _)
    · exact absurd (Option.some.inj h) (raise_ne_codepoint _ _ _ _ _)
    · rw [read_loop_codepoint_err false ops fuel r r' c h]
      simpa using h1

/-- C10, as amended: after `N` calls of `utf8_buffered_reader::read_next` that each
returned a codepoint, `N` at most the 64 codepoints of the history window, and for every
`k` with `0 < k < N`: `step_back(k)` followed by `k` calls of `read_next` returns the same
codepoints as the last `k` of the forward reads, leaves the backward offset at 0, and the
next `read_next` behaves as if `step_back` had not been called. -/
theorem step_back_then_replay {σ : Type} (exc : Bool) (ops : byte_stream_ops σ) (fuel : Nat)
    (rd0 : utf8_reader σ) (N k : Nat) (cs : List utf8_codepoint)
    (bN : utf8_buffered_reader (utf8_reader σ)) (hN : N ≤ 64) (hk0 : 0 < k) (hk : k < N)
    (hreads : read_many exc (utf8_reader.interface exc ops fuel) N (create rd0) =
      some (cs.map read_result.codepoint, bN)) :
    ∃ res b' b'', step_back exc (utf8_reader.interface exc ops fuel) bN k = some (res, b') ∧
      read_many exc (utf8_reader.interface exc ops fuel) k b' =
        some ((cs.drop (N - k)).map read_result.codepoint, b'') ∧
      b''.negative_offset = 0 ∧
      read_next exc (utf8_reader.interface exc ops fuel) b'' =
        read_next exc (utf8_reader.interface exc ops fuel) bN := by
  obtain ⟨-, hlen⟩ := forward_state_reads exc _ N [] cs (create rd0) bN
    (forward_state_create rd0) (by simpa using hN) hreads
  have hcs : [] ++ cs ≠ [] := by
    intro e; rw [List.nil_append] at e; rw [e] at hlen; simp at hlen; omega
  have hok := forward_reads_reader exc (utf8_reader.interface exc ops fuel)
    (fun rd => exc = false → rd.err.isSome = false)
    (fun rd c rd' hrd he => read_next_codepoint_err exc ops fuel rd rd' c hrd he)
    N [] cs (create rd0) bN (forward_state_create rd0) (by simpa using hN)
    (fun e => absurd rfl e) hreads hcs
  exact step_back_replay_general exc _ rd0 N k cs bN hN hk0 hk hreads hok

/-- C10 fails as stated at `k = N`: after two reads over the buffer "ab" that each
returned a codepoint, `step_back(2)` violates the assertion
`negative_offset + count <= history.count`, since the history holds one record. -/
theorem step_back_then_replay_counterexample :
    ∃ c1 c2 bN,
      read_many false (utf8_reader.interface false utf8_byte_stream_view.ops 4) 2
        (create (buffer_reader [0x61, 0x62] "")) =
          some ([read_result.codepoint c1, read_result.codepoint c2], bN) ∧
      bN.history_count = 1 ∧
      step_back false (utf8_reader.interface false utf8_byte_stream_view.ops 4) bN 2 = none :=
  ⟨_, _, _, rfl, rfl, rfl⟩

/-- C10 as amended, at `N = 3`, `k = 2` over the buffer "abc". -/
theorem step_back_then_replay_witness :
    ∃ bN, 3 ≤ 64 ∧ 0 < 2 ∧ 2 < 3 ∧
      read_many false (utf8_reader.interface false utf8_byte_stream_view.ops 4) 3
        (create (buffer_reader [0x61, 0x62, 0x63] "")) =
          some ((expected_records ⟨1, 1⟩ [0x61, 0x62, 0x63]).map read_result.codepoint, bN) ∧
      ∃ res b' b'',
        step_back false (utf8_reader.interface false utf8_byte_stream_view.ops 4) bN 2 =
          some (res, b') ∧
        read_many false (utf8_reader.interface false utf8_byte_stream_view.ops 4) 2 b' =
          some (((expected_records ⟨1, 1⟩ [0x61, 0x62, 0x63]).drop (3 - 2)).map
            read_result.codepoint, b'') ∧
        b''.negative_offset = 0 ∧
        read_next false (utf8_reader.interface false utf8_byte_stream_view.ops 4) b'' =
          read_next false (utf8_reader.interface false utf8_byte_stream_view.ops 4) bN :=
  ⟨_, by decide, by decide, by decide, rfl,
   step_back_then_replay false utf8_byte_stream_view.ops 4
     (buffer_reader [0x61, 0x62, 0x63] "") 3 2 (expected_records ⟨1, 1⟩ [0x61, 0x62, 0x63]) _
     (by decide) (by decide) (by decide) rfl⟩

/-! ### The contract of `step_back` -/

theorem error_check_false (exc : Bool) (I : utf8_reader_interface ρ)
    (b : utf8_buffered_reader ρ) (hok : exc = false → I.error b.reader = false) :
    (!exc && I.error b.reader) = false := by
  cases exc
  · simp [hok rfl]
  · rfl

/-- A call of `step_back` on a reader that holds no error: rejected by one of the two
assertions, or accepted with the offset set to the sum reduced modulo `size_modulus`. -/
theorem step_back_eq (exc : Bool) (I : utf8_reader_interface ρ) (b : utf8_buffered_reader ρ)
    (n : Nat) (hok : exc = false → I.error b.reader = false) :
    step_back exc I b n =
      if b.history_count = 0 ∨ b.history_count < (b.negative_offset + n) % size_modulus
      then none
      else some
        (if (b.negative_offset + n) % size_modulus ≠ 0 then
            read_result.codepoint
              (history_at { b with negative_offset := (b.negative_offset + n) % size_modulus })
          else to_result b.head,
          { b with negative_offset := (b.negative_offset + n) % size_modulus }) := by
  unfold step_back
  rw [error_check_false exc I b hok]
  simp only [Bool.false_eq_true, if_false]
  by_cases hc : b.history_count = 0
  · simp only [hc, true_or, if_true]
  · by_cases hle : (b.negative_offset + n) % size_modulus ≤ b.history_count
    · have h2 : ¬ (b.history_count < (b.negative_offset + n) % size_modulus) := by omega
      simp only [hc, hle, h2, not_true_eq_false, or_self, if_false]
    · have h2 : b.history_count < (b.negative_offset + n) % size_modulus := by omega
      simp only [hc, hle, h2, not_false_eq_true, or_true, if_true, if_false]

/-- C11, as amended: a call `step_back(n)` on a buffered reader that holds no error is
rejected by an assertion exactly when the history is empty or the sum
`negative_offset + n`, computed in `size_t`, exceeds `history.count`; when it returns, the
offset is that sum and the record returned is the one at the new offset, the head when
the new offset is 0: nothing is clamped. With a history that is not empty and a sum that
does not wrap around, the call is accepted exactly when
`negative_offset + n <= history.count`. A sum of exactly `size_modulus` wraps around to 0:
on a history that is not empty (and holds at most `history_buffer_size` records) the call
is then accepted although `negative_offset + n` exceeds `history.count`, the offset is
reset to 0 and the head is returned. On a reader that holds an error (library built
without exceptions) the call returns `nullptr` and changes nothing. -/
theorem step_back_contract (exc : Bool) (I : utf8_reader_interface ρ)
    (b : utf8_buffered_reader ρ) (n : Nat) (hok : exc = false → I.error b.reader = false) :
    (step_back exc I b n = none ↔
      b.history_count = 0 ∨ b.history_count < (b.negative_offset + n) % size_modulus) ∧
    (∀ res b', step_back exc I b n = some (res, b') →
      b' = { b with negative_offset := (b.negative_offset + n) % size_modulus } ∧
      res = if b'.negative_offset ≠ 0 then read_result.codepoint b'.history_at
        else to_result b.head) ∧
    (b.negative_offset + n < size_modulus → b.history_count ≠ 0 →
      (step_back exc I b n ≠ none ↔ b.negative_offset + n ≤ b.history_count) ∧
      ∀ res b', step_back exc I b n = some (res, b') →
        b'.negative_offset = b.negative_offset + n) ∧
    (b.negative_offset + n = size_modulus → b.history_count ≠ 0 →
      b.history_count ≤ history_buffer_size →
      b.history_count < b.negative_offset + n ∧
      step_back exc I b n = some (to_result b.head, { b with negative_offset := 0 })) ∧
    (∀ b0 : utf8_buffered_reader ρ, I.error b0.reader = true →
      step_back false I b0 n = some (read_result.null, b0)) := by
  have e := step_back_eq exc I b n hok
  refine ⟨?_, fun res b' h => ?_, fun hlt hc => ⟨?_, fun res b' h => ?_⟩,
    fun hw hc hcap => ⟨?_, ?_⟩, fun b0 h0 => ?_⟩
  · rw [e]
    by_cases hcond :
        b.history_count = 0 ∨ b.history_count < (b.negative_offset + n) % size_modulus
    · rw [if_pos hcond]; simp [hcond]
    · rw [if_neg hcond]; simp [hcond]
  · rw [e] at h
    by_cases hcond :
        b.history_count = 0 ∨ b.history_count < (b.negative_offset + n) % size_modulus
    · rw [if_pos hcond] at h; cases h
    · rw [if_neg hcond] at h
      simp only [Option.some.injEq, Prod.mk.injEq] at h
      obtain ⟨e1, e2⟩ := h
      subst e2
      exact ⟨rfl, e1.symm⟩
  · rw [e, Nat.mod_eq_of_lt hlt]
    by_cases hle : b.negative_offset + n ≤ b.history_count
    · rw [if_neg (by rintro (h | h); exact hc h; omega)]
      simp [hle]
    · rw [if_pos (Or.inr (by omega))]
      simp [hle]
  · rw [e, Nat.mod_eq_of_lt hlt] at h
    by_cases hcond : b.history_count = 0 ∨ b.history_count < b.negative_offset + n
    · rw [if_pos hcond] at h; cases h
    · rw [if_neg hcond] at h
      simp only [Option.some.injEq, Prod.mk.injEq] at h
      rw [← h.2]
  · rw [hw]
    exact lt_of_le_of_lt hcap (by decide)
  · rw [e, hw, Nat.mod_self]
    rw [if_neg (by rintro (h | h); exact hc h; omega)]
    simp
  · unfold step_back
    simp [h0]

/-- C11 fails as stated in two ways. On a reader just constructed, `step_back(0)` meets
`negative_offset + n <= history.count` and is rejected all the same, by the assertion
`history.count`. And over the buffer "ab", after two reads and `step_back(1)` the offset is
1 and the history holds one record: `step_back(18446744073709551615)` exceeds the history,
yet the sum wraps around to 0 in `size_t`, both assertions pass, the offset is reset to 0
and the head is returned. -/
theorem step_back_contract_counterexample :
    ((create (buffer_reader [] "")).negative_offset + 0 ≤
        (create (buffer_reader [] "")).history_count ∧
      step_back false (utf8_reader.interface false utf8_byte_stream_view.ops 4)
        (create (buffer_reader [] "")) 0 = none) ∧
    ∃ c1 c2 b1 b2,
      read_many false (utf8_reader.interface false utf8_byte_stream_view.ops 4) 2
        (create (buffer_reader [0x61, 0x62] "")) =
          some ([read_result.codepoint c1, read_result.codepoint c2], b1) ∧
      step_back false (utf8_reader.interface false utf8_byte_stream_view.ops 4) b1 1 =
        some (read_result.codepoint c1, b2) ∧
      b2.negative_offset = 1 ∧ b2.history_count = 1 ∧ b2.head = some c2 ∧
      b2.history_count < b2.negative_offset + 18446744073709551615 ∧
      step_back false (utf8_reader.interface false utf8_byte_stream_view.ops 4) b2
        18446744073709551615 = some (read_result.codepoint c2, { b2 with negative_offset := 0 }) :=
  ⟨⟨by decide, rfl⟩, _, _, _, _, rfl, rfl, rfl, rfl, rfl, by decide, rfl⟩

/-- C11 as amended, over the buffer "ab": after two reads the history holds one record,
`step_back(1)` is accepted, sets the offset to 1 and returns the first record, and
`step_back(2)` is rejected. -/
theorem step_back_contract_witness :
    ∃ c1 c2 b1,
      read_many false (utf8_reader.interface false utf8_byte_stream_view.ops 4) 2
        (create (buffer_reader [0x61, 0x62] "")) =
          some ([read_result.codepoint c1, read_result.codepoint c2], b1) ∧
      (false = false → (utf8_reader.interface false utf8_byte_stream_view.ops 4).error
        b1.reader = false) ∧
      b1.negative_offset = 0 ∧ b1.history_count = 1 ∧
      (step_back false (utf8_reader.interface false utf8_byte_stream_view.ops 4) b1 1 ≠ none ↔
        b1.negative_offset + 1 ≤ b1.history_count) ∧
      (step_back false (utf8_reader.interface false utf8_byte_stream_view.ops 4) b1 2 ≠ none ↔
        b1.negative_offset + 2 ≤ b1.history_count) ∧
      step_back false (utf8_reader.interface false utf8_byte_stream_view.ops 4) b1 1 =
        some (read_result.codepoint c1, { b1 with negative_offset := 1 }) := by
  obtain ⟨c1, c2, b1, h1, h2, h3, h4, h5⟩ : ∃ c1 c2 b1,
      read_many false (utf8_reader.interface false utf8_byte_stream_view.ops 4) 2
        (create (buffer_reader [0x61, 0x62] "")) =
          some ([read_result.codepoint c1, read_result.codepoint c2], b1) ∧
      (false = false → (utf8_reader.interface false utf8_byte_stream_view.ops 4).error
        b1.reader = false) ∧
      b1.negative_offset = 0 ∧ b1.history_count = 1 ∧
      step_back false (utf8_reader.interface false utf8_byte_stream_view.ops 4) b1 1 =
        some (read_result.codepoint c1, { b1 with negative_offset := 1 }) :=
    ⟨_, _, _, rfl, fun _ => rfl, rfl, rfl, rfl⟩
  exact ⟨c1, c2, b1, h1, h2, h3, h4,
    ((step_back_contract false (utf8_reader.interface false utf8_byte_stream_view.ops 4)
      b1 1 h2).2.2.1 (by rw [h3]; decide) (by rw [h4]; decide)).1,
    ((step_back_contract false (utf8_reader.interface false utf8_byte_stream_view.ops 4)
      b1 2 h2).2.2.1 (by rw [h3]; decide) (by rw [h4]; decide)).1, h5⟩

/-! ### Reading past the end of the input -/

/-- What `pull` does when the wrapped reader returns `nullptr`. -/
theorem pull_null (I : utf8_reader_interface ρ) (b b' : utf8_buffered_reader ρ)
    (h : pull I b = some (read_result.null, b')) :
    ∃ rd, b' = { b with reader := rd, head := none } := by
  unfold pull at h
  rcases h1 : I.read_next b.reader with _ | ⟨res, rd⟩
  · rw [h1] at h; cases h
  · rw [h1] at h
    cases res with
    | codepoint c' => simp at h
    | null =>
      simp only [Option.some.injEq, Prod.mk.injEq, true_and] at h
      exact ⟨rd, h.symm⟩
    | thrown e => simp at h

/-- With a history that is not empty, no head and no backward offset, `read_next` returns
`nullptr` and calls nothing. -/
theorem read_next_cached_end (exc : Bool) (I : utf8_reader_interface ρ)
    (b : utf8_buffered_reader ρ) (h0 : b.negative_offset = 0) (hh : b.head = none)
    (hc : b.history_count ≠ 0) : read_next exc I b = some (read_result.null, b) := by
  unfold read_next
  by_cases he : (!exc && I.error b.reader) = true
  · rw [if_pos he]
  · rw [if_neg he, if_neg (by simp [h0]), if_neg (by simp [hc]), hh]

/-- With an empty history, no head and no backward offset, `read_next` is a call of the
wrapped reader. -/
theorem read_next_first_branch (exc : Bool) (I : utf8_reader_interface ρ)
    (b : utf8_buffered_reader ρ) (hok : exc = false → I.error b.reader = false)
    (h0 : b.negative_offset = 0) (hh : b.head = none) (hc : b.history_count = 0) :
    read_next exc I b = pull I b := by
  unfold read_next
  rw [error_check_false exc I b hok]
  simp only [Bool.false_eq_true, if_false]
  rw [if_neg (by simp [h0]), if_pos ⟨hc, by simp [hh]⟩]

/-! ### Invariants of the history ring -/

theorem history_buffer_size_eq : history_buffer_size = 63 := rfl

/-- The statements `head = reader.read_next(); return head;` leave the history and the
offset alone. -/
theorem pull_frame (I : utf8_reader_interface ρ) (b b' : utf8_buffered_reader ρ)
    (res : read_result) (h : pull I b = some (res, b')) :
    b'.history_buffer = b.history_buffer ∧ b'.history_count = b.history_count ∧
    b'.history_first = b.history_first ∧ b'.negative_offset = b.negative_offset := by
  unfold pull at h
  rcases h1 : I.read_next b.reader with _ | ⟨res', rd⟩
  · rw [h1] at h; cases h
  · rw [h1] at h
    cases res' with
    | codepoint c' =>
      simp only [Option.some.injEq, Prod.mk.injEq] at h
      rw [← h.2]
      exact ⟨rfl, rfl, rfl, rfl⟩
    | null =>
      simp only [Option.some.injEq, Prod.mk.injEq] at h
      rw [← h.2]
      exact ⟨rfl, rfl, rfl, rfl⟩
    | thrown e =>
      simp only [Option.some.injEq, Prod.mk.injEq] at h
      rw [← h.2]
      exact ⟨rfl, rfl, rfl, rfl⟩

/-- A call of `read_next` with no backward offset on a reader that holds no error: with
no head and a history that is not empty nothing changes; otherwise the head, if any, is
appended to the history, or overwrites the slot `history.first % history_buffer_size`
when the history is full, and the wrapped reader is called. -/
theorem read_next_forward_cases (exc : Bool) (I : utf8_reader_interface ρ)
    (b b' : utf8_buffered_reader ρ) (res : read_result)
    (hok : exc = false → I.error b.reader = false) (h0 : b.negative_offset = 0)
    (h : read_next exc I b = some (res, b')) :
    (b.head = none ∧ b.history_count ≠ 0 ∧ b' = b) ∨
    (b.head = none ∧ b.history_count = 0 ∧ b'.history_buffer = b.history_buffer ∧
      b'.history_count = 0 ∧ b'.history_first = b.history_first ∧ b'.negative_offset = 0) ∨
    (∃ x, b.head = some x ∧ b.history_count < history_buffer_size ∧
      b'.history_buffer = b.history_buffer.set b.history_count x ∧
      b'.history_count = b.history_count + 1 ∧ b'.history_first = b.history_first ∧
      b'.negative_offset = 0) ∨
    (∃ x, b.head = some x ∧ ¬ b.history_count < history_buffer_size ∧
      b'.history_buffer = b.history_buffer.set (b.history_first % history_buffer_size) x ∧
      b'.history_count = b.history_count ∧ b'.history_first = b.history_first + 1 ∧
      b'.negative_offset = 0) := by
  unfold read_next at h
  rw [error_check_false exc I b hok] at h
  simp only [Bool.false_eq_true, if_false] at h
  rw [if_neg (by simp [h0])] at h
  by_cases hc : b.history_count = 0 ∧ b.head.isNone = true
  · rw [if_pos hc] at h
    obtain ⟨f1, f2, f3, f4⟩ := pull_frame I b b' res h
    exact Or.inr (Or.inl ⟨by simpa using hc.2, hc.1, f1, by rw [f2, hc.1], f3, by rw [f4, h0]⟩)
  · rw [if_neg hc] at h
    rcases hh : b.head with _ | x
    · rw [hh] at h
      simp only [Option.some.injEq, Prod.mk.injEq] at h
      refine Or.inl ⟨rfl, fun e => hc ⟨e, by simp [hh]⟩, h.2.symm⟩
    · rw [hh] at h
      simp only [] at h
      by_cases hlt : b.history_count < history_buffer_size
      · rw [if_pos hlt] at h
        obtain ⟨f1, f2, f3, f4⟩ := pull_frame I _ b' res h
        exact Or.inr (Or.inr (Or.inl ⟨x, rfl, hlt, f1, f2, f3, by rw [f4]; exact h0⟩))
      · rw [if_neg hlt] at h
        obtain ⟨f1, f2, f3, f4⟩ := pull_frame I _ b' res h
        refine Or.inr (Or.inr (Or.inr ⟨x, rfl, hlt, ?_, f2, f3, by rw [f4]; exact h0⟩))
        rw [f1]
        show b.history_buffer.set ((b.history_first + history_buffer_size) %
          history_buffer_size) x = _
        rw [Nat.add_mod_right]

/-- A call of `read_next` behind a backward offset, or on a reader that holds an error,
leaves the history alone and does not increase the offset. -/
theorem read_next_replay_frame (exc : Bool) (I : utf8_reader_interface ρ)
    (b b' : utf8_buffered_reader ρ) (res : read_result)
    (hc : (exc = false ∧ I.error b.reader = true) ∨ b.negative_offset ≠ 0)
    (h : read_next exc I b = some (res, b')) :
    b'.history_buffer = b.history_buffer ∧ b'.history_count = b.history_count ∧
    b'.history_first = b.history_first ∧ b'.negative_offset ≤ b.negative_offset := by
  unfold read_next at h
  by_cases he : (!exc && I.error b.reader) = true
  · rw [if_pos he] at h
    simp only [Option.some.injEq, Prod.mk.injEq] at h
    rw [← h.2]
    exact ⟨rfl, rfl, rfl, le_refl _⟩
  · rw [if_neg he] at h
    have hn : b.negative_offset ≠ 0 := by
      rcases hc with ⟨e1, e2⟩ | hc
      · subst e1; simp [e2] at he
      · exact hc
    rw [if_pos hn] at h
    simp only [] at h
    split_ifs at h
    all_goals
      simp only [Option.some.injEq, Prod.mk.injEq] at h
      rw [← h.2]
      exact ⟨rfl, rfl, rfl, Nat.sub_le _ _⟩

theorem read_next_bounds (exc : Bool) (I : utf8_reader_interface ρ)
    (b b' : utf8_buffered_reader ρ) (res : read_result) (hb : history_bounds b)
    (h : read_next exc I b = some (res, b')) :
    history_bounds b' ∧ b.history_count ≤ b'.history_count := by
  obtain ⟨k1, k2, k3⟩ := hb
  by_cases hc : (exc = false ∧ I.error b.reader = true) ∨ b.negative_offset ≠ 0
  · obtain ⟨f1, f2, f3, f4⟩ := read_next_replay_frame exc I b b' res hc h
    exact ⟨⟨by rw [f2]; exact k1, by rw [f2]; omega, by rw [f1]; exact k3⟩, by rw [f2]⟩
  · have hok : exc = false → I.error b.reader = false := by
      intro e
      by_contra hne
      exact hc (Or.inl ⟨e, by simpa using hne⟩)
    have h0 : b.negative_offset = 0 := by
      by_contra hne
      exact hc (Or.inr hne)
    rcases read_next_forward_cases exc I b b' res hok h0 h with
      ⟨-, -, e⟩ | ⟨-, e0, f1, f2, -, f4⟩ | ⟨x, -, hlt, f1, f2, -, f4⟩ | ⟨x, -, hlt, f1, f2, -, f4⟩
    · subst e
      exact ⟨⟨k1, k2, k3⟩, le_refl _⟩
    · exact ⟨⟨by rw [f2]; omega, by rw [f2, f4], by rw [f1]; exact k3⟩, by rw [f2, e0]⟩
    · exact ⟨⟨by rw [f2]; omega, by rw [f4]; omega, by rw [f1, List.length_set]; exact k3⟩,
        by rw [f2]; omega⟩
    · exact ⟨⟨by rw [f2]; omega, by rw [f4]; omega, by rw [f1, List.length_set]; exact k3⟩,
        by rw [f2]⟩

theorem step_back_bounds (exc : Bool) (I : utf8_reader_interface ρ)
    (b b' : utf8_buffered_reader ρ) (n : Nat) (res : read_result) (hb : history_bounds b)
    (h : step_back exc I b n = some (res, b')) :
    history_bounds b' ∧ b'.history_count = b.history_count ∧
    b'.history_buffer = b.history_buffer ∧ b'.history_first = b.history_first := by
  obtain ⟨k1, k2, k3⟩ := hb
  unfold step_back at h
  by_cases he : (!exc && I.error b.reader) = true
  · rw [if_pos he] at h
    simp only [Option.some.injEq, Prod.mk.injEq] at h
    rw [← h.2]
    exact ⟨⟨k1, k2, k3⟩, rfl, rfl, rfl⟩
  · rw [if_neg he] at h
    by_cases hc : b.history_count = 0
    · rw [if_pos hc] at h; cases h
    · rw [if_neg hc] at h
      by_cases hle : (b.negative_offset + n) % size_modulus ≤ b.history_count
      · rw [if_neg (not_not.2 hle)] at h
        simp only [Option.some.injEq, Prod.mk.injEq] at h
        rw [← h.2]
        exact ⟨⟨k1, hle, k3⟩, rfl, rfl, rfl⟩
      · rw [if_pos hle] at h; cases h

theorem reachable_bounds (exc : Bool) (I : utf8_reader_interface ρ) (rd : ρ)
    (b : utf8_buffered_reader ρ) (hr : reachable exc I rd b) : history_bounds b := by
  induction hr with
  | create => exact ⟨Nat.zero_le _, le_refl _, by simp [create]⟩
  | read_next b b' res _ h ih => exact (read_next_bounds exc I b b' res ih h).1
  | step_back b b' n res _ h ih => exact (step_back_bounds exc I b b' n res ih h).1

theorem reachable_read_many (exc : Bool) (I : utf8_reader_interface ρ) (rd : ρ) (n : Nat)
    (b bn : utf8_buffered_reader ρ) (rs : List read_result) (hr : reachable exc I rd b)
    (h : read_many exc I n b = some (rs, bn)) : reachable exc I rd bn := by
  induction n generalizing b rs with
  | zero =>
    rw [read_many_zero] at h
    simp only [Option.some.injEq, Prod.mk.injEq] at h
    rw [← h.2]
    exact hr
  | succ n ih =>
    obtain ⟨res, b', rs', h1, h2, -⟩ := read_many_succ_inv exc I n b bn rs h
    exact ih b' rs' (reachable.read_next b b' res hr h1) h2

/-! ### The records the history ring holds -/

theorem ring_log_congr {log : List utf8_codepoint} {b b' : utf8_buffered_reader ρ}
    (f1 : b'.history_buffer = b.history_buffer) (f2 : b'.history_count = b.history_count)
    (f3 : b'.history_first = b.history_first) (h : ring_log log b) : ring_log log b' := by
  unfold ring_log at *
  rw [f1, f2, f3]
  exact h

theorem getD_snoc_left (log : List utf8_codepoint) (x : utf8_codepoint) (j : Nat)
    (hj : j < log.length) :
    (log ++ [x]).getD j utf8_codepoint.zero = log.getD j utf8_codepoint.zero := by
  rw [List.getD_eq_getElem?_getD, List.getD_eq_getElem?_getD, List.getElem?_append_left hj]

theorem getD_snoc_self (log : List utf8_codepoint) (x : utf8_codepoint) :
    (log ++ [x]).getD log.length utf8_codepoint.zero = x := by
  rw [List.getD_eq_getElem?_getD, List.getElem?_append_right (Nat.le_refl _)]
  simp

/-- Appending to a history that is not full keeps the ring in order. -/
theorem ring_log_append (log : List utf8_codepoint) (b b' : utf8_buffered_reader ρ)
    (x : utf8_codepoint) (hl : ring_log log b) (hlen : b.history_buffer.length = 63)
    (hlt : b.history_count < 63)
    (f1 : b'.history_buffer = b.history_buffer.set b.history_count x)
    (f2 : b'.history_count = b.history_count + 1) (f3 : b'.history_first = b.history_first) :
    ring_log (log ++ [x]) b' := by
  obtain ⟨h1, h2, h3⟩ := hl
  rw [history_buffer_size_eq] at h1 h3
  unfold ring_log
  rw [history_buffer_size_eq, List.length_append, List.length_singleton, f2, f3]
  have hcnt : b.history_count = log.length := by omega
  have hfirst : b.history_first = 0 := by omega
  refine ⟨by omega, by omega, fun j hj => ?_⟩
  rw [hfirst, Nat.zero_add, Nat.mod_eq_of_lt (by omega : j < 63), f1,
    List.getD_eq_getElem?_getD]
  by_cases hj' : j = b.history_count
  · rw [hj', List.getElem?_set_self (by rw [hlen]; exact hlt), hcnt, getD_snoc_self]
    rfl
  · rw [List.getElem?_set_ne (fun e => hj' e.symm), ← List.getD_eq_getElem?_getD,
      getD_snoc_left log x j (by omega)]
    have := h3 j (by omega)
    rw [hfirst, Nat.zero_add, Nat.mod_eq_of_lt (by omega : j < 63)] at this
    exact this

/-- Writing to a full history overwrites the oldest record and keeps the ring in
order. -/
theorem ring_log_overwrite (log : List utf8_codepoint) (b b' : utf8_buffered_reader ρ)
    (x : utf8_codepoint) (hl : ring_log log b) (hlen : b.history_buffer.length = 63)
    (hfull : b.history_count = 63)
    (f1 : b'.history_buffer = b.history_buffer.set (b.history_first % 63) x)
    (f2 : b'.history_count = b.history_count) (f3 : b'.history_first = b.history_first + 1) :
    ring_log (log ++ [x]) b' := by
  obtain ⟨h1, h2, h3⟩ := hl
  rw [history_buffer_size_eq] at h1 h3
  unfold ring_log
  rw [history_buffer_size_eq, List.length_append, List.length_singleton, f2, f3]
  refine ⟨by omega, by omega, fun j hj => ?_⟩
  rw [f1, List.getD_eq_getElem?_getD]
  by_cases hj' : j = 62
  · subst hj'
    have e1 : (b.history_first + 1 + 62) % 63 = b.history_first % 63 := by omega
    have e2 : b.history_first + 1 + 62 = log.length := by omega
    rw [e1, List.getElem?_set_self (by rw [hlen]; exact Nat.mod_lt _ (by decide)), e2,
      getD_snoc_self]
    rfl
  · have hne : b.history_first % 63 ≠ (b.history_first + 1 + j) % 63 := by omega
    rw [List.getElem?_set_ne hne, ← List.getD_eq_getElem?_getD,
      getD_snoc_left log x _ (by omega)]
    have := h3 (j + 1) (by omega)
    rw [← Nat.add_assoc, Nat.add_right_comm] at this
    exact this

/-- The record a forward read writes, case by case. -/
theorem read_next_pushes_forward (exc : Bool) (I : utf8_reader_interface ρ)
    (b : utf8_buffered_reader ρ) (hok : exc = false → I.error b.reader = false)
    (h0 : b.negative_offset = 0) :
    (b.head = none → read_next_pushes exc I b = []) ∧
    (∀ x, b.head = some x → read_next_pushes exc I b = [x]) := by
  unfold read_next_pushes
  rw [error_check_false exc I b hok]
  simp only [Bool.false_eq_true, if_false]
  rw [if_neg (by simp [h0])]
  refine ⟨fun hh => ?_, fun x hh => ?_⟩
  · rw [hh]
    split_ifs <;> rfl
  · rw [hh, if_neg (by simp)]

theorem read_next_pushes_replay (exc : Bool) (I : utf8_reader_interface ρ)
    (b : utf8_buffered_reader ρ)
    (hc : (exc = false ∧ I.error b.reader = true) ∨ b.negative_offset ≠ 0) :
    read_next_pushes exc I b = [] := by
  unfold read_next_pushes
  by_cases he : (!exc && I.error b.reader) = true
  · rw [if_pos he]
  · rw [if_neg he]
    have hn : b.negative_offset ≠ 0 := by
      rcases hc with ⟨e1, e2⟩ | hc
      · subst e1; simp [e2] at he
      · exact hc
    rw [if_pos hn]

/-- A call of `read_next` keeps the ring in order, with the record it writes added to the
records written. -/
theorem read_next_ring_log (exc : Bool) (I : utf8_reader_interface ρ)
    (b b' : utf8_buffered_reader ρ) (res : read_result) (log : List utf8_codepoint)
    (hb : history_bounds b) (hl : ring_log log b)
    (h : read_next exc I b = some (res, b')) :
    ring_log (log ++ read_next_pushes exc I b) b' := by
  obtain ⟨k1, k2, k3⟩ := hb
  rw [history_buffer_size_eq] at k1 k3
  by_cases hc : (exc = false ∧ I.error b.reader = true) ∨ b.negative_offset ≠ 0
  · obtain ⟨f1, f2, f3, -⟩ := read_next_replay_frame exc I b b' res hc h
    rw [read_next_pushes_replay exc I b hc, List.append_nil]
    exact ring_log_congr f1 f2 f3 hl
  · have hok : exc = false → I.error b.reader = false := by
      intro e
      by_contra hne
      exact hc (Or.inl ⟨e, by simpa using hne⟩)
    have h0 : b.negative_offset = 0 := by
      by_contra hne
      exact hc (Or.inr hne)
    obtain ⟨p1, p2⟩ := read_next_pushes_forward exc I b hok h0
    rcases read_next_forward_cases exc I b b' res hok h0 h with
      ⟨e1, -, e⟩ | ⟨e1, e0, f1, f2, f3, -⟩ | ⟨x, e1, hlt, f1, f2, f3, -⟩ |
      ⟨x, e1, hlt, f1, f2, f3, -⟩
    · subst e
      rw [p1 e1, List.append_nil]
      exact hl
    · rw [p1 e1, List.append_nil]
      exact ring_log_congr f1 (by rw [f2, e0]) f3 hl
    · rw [p2 x e1]
      rw [history_buffer_size_eq] at hlt
      exact ring_log_append log b b' x hl k3 hlt f1 f2 f3
    · rw [p2 x e1]
      rw [history_buffer_size_eq] at hlt f1
      exact ring_log_overwrite log b b' x hl k3 (by omega) f1 f2 f3

theorem logged_reachable (exc : Bool) (I : utf8_reader_interface ρ) (rd : ρ)
    (b : utf8_buffered_reader ρ) (log : List utf8_codepoint) (hr : logged exc I rd b log) :
    reachable exc I rd b := by
  induction hr with
  | create => exact reachable.create
  | read_next b b' res log _ h ih => exact reachable.read_next b b' res ih h
  | step_back b b' n res log _ h ih => exact reachable.step_back b b' n res ih h

theorem reachable_logged (exc : Bool) (I : utf8_reader_interface ρ) (rd : ρ)
    (b : utf8_buffered_reader ρ) (hr : reachable exc I rd b) :
    ∃ log, logged exc I rd b log := by
  induction hr with
  | create => exact ⟨[], logged.create⟩
  | read_next b b' res _ h ih =>
    obtain ⟨log, hl⟩ := ih
    exact ⟨_, logged.read_next b b' res log hl h⟩
  | step_back b b' n res _ h ih =>
    obtain ⟨log, hl⟩ := ih
    exact ⟨_, logged.step_back b b' n res log hl h⟩

/-- In every reachable state the ring holds the last records written, oldest first. -/
theorem logged_ring_log (exc : Bool) (I : utf8_reader_interface ρ) (rd : ρ)
    (b : utf8_buffered_reader ρ) (log : List utf8_codepoint) (hr : logged exc I rd b log) :
    ring_log log b := by
  induction hr with
  | create => exact ⟨rfl, rfl, fun j hj => absurd hj (Nat.not_lt_zero _)⟩
  | read_next b b' res log hl h ih =>
    exact read_next_ring_log exc I b b' res log
      (reachable_bounds exc I rd b (logged_reachable exc I rd b log hl)) ih h
  | step_back b b' n res log hl h ih =>
    obtain ⟨-, f2, f1, f3⟩ := step_back_bounds exc I b b' n res
      (reachable_bounds exc I rd b (logged_reachable exc I rd b log hl)) h
    exact ring_log_congr f1 f2 f3 ih

/-! ### The history ring after any number of forward reads -/

theorem getD_append_left (cs : List utf8_codepoint) (c : utf8_codepoint) (j : Nat)
    (hj : j < cs.length) :
    (cs ++ [c]).getD j utf8_codepoint.zero = cs.getD j utf8_codepoint.zero := by
  rw [List.getD_eq_getElem?_getD, List.getD_eq_getElem?_getD, List.getElem?_append_left hj]

theorem getD_of_getLast (cs : List utf8_codepoint) (x : utf8_codepoint)
    (h : cs.getLast? = some x) :
    0 < cs.length ∧ cs.getD (cs.length - 1) utf8_codepoint.zero = x := by
  rcases cs.eq_nil_or_concat with rfl | ⟨cs', y, rfl⟩
  · simp at h
  · rw [List.concat_eq_append] at h ⊢
    have e : y = x := by simpa using h
    subst e
    refine ⟨by simp, ?_⟩
    rw [List.getD_eq_getElem?_getD]
    simp

theorem ring_state_create (rd : ρ) : ring_state [] (create rd) := by
  refine ⟨rfl, rfl, rfl, rfl, ?_, fun j hj => ?_⟩
  · simp [create]
  · exact absurd hj (Nat.not_lt_zero _)

/-- A call with no backward offset that returns a record makes it the head. -/
theorem read_next_forward_head (exc : Bool) (I : utf8_reader_interface ρ)
    (b b' : utf8_buffered_reader ρ) (c : utf8_codepoint) (h0 : b.negative_offset = 0)
    (h : read_next exc I b = some (read_result.codepoint c, b')) :
    (exc = false → I.error b.reader = false) ∧ b'.head = some c ∧
    ∃ rd, I.read_next rd = some (read_result.codepoint c, b'.reader) := by
  have key : ∀ x : utf8_buffered_reader ρ, pull I x = some (read_result.codepoint c, b') →
      b'.head = some c ∧ I.read_next x.reader = some (read_result.codepoint c, b'.reader) := by
    intro x hx
    unfold pull at hx
    rcases h1 : I.read_next x.reader with _ | ⟨res, rd⟩
    · rw [h1] at hx; cases hx
    · rw [h1] at hx
      cases res with
      | codepoint c' =>
        simp only [Option.some.injEq, Prod.mk.injEq, read_result.codepoint.injEq] at hx
        obtain ⟨e1, e2⟩ := hx
        subst e1; subst e2
        exact ⟨rfl, rfl⟩
      | null => simp at hx
      | thrown e => simp at hx
  unfold read_next at h
  by_cases he : (!exc && I.error b.reader) = true
  · rw [if_pos he] at h; simp at h
  have hok : exc = false → I.error b.reader = false := by
    intro e
    subst e
    simpa using he
  rw [if_neg he, if_neg (by simp [h0])] at h
  by_cases hc : b.history_count = 0 ∧ b.head.isNone = true
  · rw [if_pos hc] at h
    exact ⟨hok, (key b h).1, _, (key b h).2⟩
  · rw [if_neg hc] at h
    rcases hh : b.head with _ | x
    · rw [hh] at h; simp at h
    · rw [hh] at h
      simp only [] at h
      split_ifs at h
      · exact ⟨hok, (key _ h).1, _, (key _ h).2⟩
      · exact ⟨hok, (key _ h).1, _, (key _ h).2⟩

/-- A forward read that returns a record keeps the ring in order: the head moves into
the history, over the oldest record once the history is full. -/
theorem ring_state_step (exc : Bool) (I : utf8_reader_interface ρ)
    (cs : List utf8_codepoint) (b b' : utf8_buffered_reader ρ) (c : utf8_codepoint)
    (hs : ring_state cs b)
    (h : read_next exc I b = some (read_result.codepoint c, b')) :
    ring_state (cs ++ [c]) b' := by
  obtain ⟨h1, h2, h3, h4, h5, h6⟩ := hs
  rw [history_buffer_size_eq] at h3 h5 h6
  obtain ⟨hok, hhead, -⟩ := read_next_forward_head exc I b b' c h1 h
  have hlast : (cs ++ [c]).getLast? = some c := by simp
  unfold ring_state
  rw [history_buffer_size_eq, hlast, List.length_append, List.length_singleton,
    Nat.add_sub_cancel]
  rcases read_next_forward_cases exc I b b' _ hok h1 h with
    ⟨e1, -, e⟩ | ⟨e1, e0, f1, f2, f3, f4⟩ | ⟨x, e1, hlt, f1, f2, f3, f4⟩ |
    ⟨x, e1, hlt, f1, f2, f3, f4⟩
  · subst e
    rw [e1] at hhead
    cases hhead
  · rw [e1] at h2
    have hnil : cs = [] := by
      rcases cs.eq_nil_or_concat with rfl | ⟨cs', y, rfl⟩
      · rfl
      · rw [List.concat_eq_append] at h2; simp at h2
    subst hnil
    refine ⟨f4, hhead, by rw [f2]; rfl, ?_, by rw [f1]; exact h5, fun j hj => ?_⟩
    · rw [f3, h4, f2, e0]
      rfl
    · rw [f2] at hj
      exact absurd hj (Nat.not_lt_zero _)
  · rw [history_buffer_size_eq] at hlt
    rw [e1] at h2
    obtain ⟨hpos, hx⟩ := getD_of_getLast cs x h2.symm
    have hcnt : b.history_count = cs.length - 1 := by omega
    have hfirst : b.history_first = 0 := by omega
    refine ⟨f4, hhead, by rw [f2]; omega, by rw [f3, f2]; omega,
      by rw [f1, List.length_set]; exact h5, fun j hj => ?_⟩
    rw [f2] at hj
    rw [f3, hfirst, Nat.zero_add, Nat.mod_eq_of_lt (by omega : j < 63),
      getD_append_left cs c j (by omega), f1, List.getD_eq_getElem?_getD]
    by_cases hj' : j = b.history_count
    · rw [hj', List.getElem?_set_self (by rw [h5]; exact hlt), hcnt, hx]
      rfl
    · rw [List.getElem?_set_ne (fun e => hj' e.symm), ← List.getD_eq_getElem?_getD]
      have := h6 j (by omega)
      rw [hfirst, Nat.zero_add, Nat.mod_eq_of_lt (by omega : j < 63)] at this
      exact this
  · rw [history_buffer_size_eq] at hlt f1
    rw [e1] at h2
    obtain ⟨hpos, hx⟩ := getD_of_getLast cs x h2.symm
    have hcnt : b.history_count = 63 := by omega
    have hlen : 64 ≤ cs.length := by omega
    refine ⟨f4, hhead, by rw [f2]; omega, by rw [f3, f2]; omega,
      by rw [f1, List.length_set]; exact h5, fun j hj => ?_⟩
    rw [f2, hcnt] at hj
    have hidx : b.history_first + 1 + j < cs.length := by omega
    rw [f3, getD_append_left cs c _ hidx, f1, List.getD_eq_getElem?_getD]
    by_cases hj' : j = 62
    · subst hj'
      have e1 : (b.history_first + 1 + 62) % 63 = b.history_first % 63 := by omega
      have e2 : b.history_first + 1 + 62 = cs.length - 1 := by omega
      rw [e1, List.getElem?_set_self (by rw [h5]; exact Nat.mod_lt _ (by decide)), e2, hx]
      rfl
    · have hne : b.history_first % 63 ≠ (b.history_first + 1 + j) % 63 := by omega
      rw [List.getElem?_set_ne hne, ← List.getD_eq_getElem?_getD]
      have := h6 (j + 1) (by omega)
      rw [← Nat.add_assoc, Nat.add_right_comm] at this
      exact this

/-- Forward reads that all return a record, however many. -/
theorem ring_state_reads (exc : Bool) (I : utf8_reader_interface ρ) (Q : ρ → Prop)
    (hQ : ∀ rd c rd', I.read_next rd = some (read_result.codepoint c, rd') → Q rd') (n : Nat)
    (cs cs' : List utf8_codepoint) (b bn : utf8_buffered_reader ρ)
    (hs : ring_state cs b) (hb : cs ≠ [] → Q b.reader)
    (h : read_many exc I n b = some (cs'.map read_result.codepoint, bn)) :
    ring_state (cs ++ cs') bn ∧ cs'.length = n ∧ (cs ++ cs' ≠ [] → Q bn.reader) := by
  induction n generalizing cs cs' b with
  | zero =>
    rw [read_many_zero] at h
    simp only [Option.some.injEq, Prod.mk.injEq] at h
    obtain ⟨e1, e2⟩ := h
    have : cs' = [] := by simpa using e1.symm
    subst this; subst e2
    exact ⟨by simpa using hs, rfl, by simpa using hb⟩
  | succ n ih =>
    obtain ⟨res, b', rs', h1, h2, h3⟩ := read_many_succ_inv exc I n b bn _ h
    rcases cs' with _ | ⟨c, cs''⟩
    · simp at h3
    · simp only [List.map_cons, List.cons.injEq] at h3
      obtain ⟨e1, e2⟩ := h3
      subst e1; subst e2
      have hs' := ring_state_step exc I cs b b' c hs h1
      obtain ⟨-, -, rd, hrd⟩ := read_next_forward_head exc I b b' c hs.1 h1
      obtain ⟨k1, k2, k3⟩ := ih (cs ++ [c]) cs'' b' hs' (fun _ => hQ _ _ _ hrd) h2
      exact ⟨by simpa using k1, by simp [k2], fun _ => k3 (by simp)⟩

theorem ring_state_count {cs : List utf8_codepoint} {b : utf8_buffered_reader ρ}
    (hs : ring_state cs b) :
    b.history_count = min (cs.length - 1) 63 ∧
    b.history_first + b.history_count = cs.length - 1 := by
  obtain ⟨-, -, h3, h4, -⟩ := hs
  rw [history_buffer_size_eq] at h3
  exact ⟨h3, by omega⟩

/-- The record `m` places before the head, for `m` up to the number of records kept. -/
theorem history_at_ring (cs : List utf8_codepoint) (b : utf8_buffered_reader ρ)
    (hs : ring_state cs b) (m : Nat) (hm0 : 0 < m) (hm : m ≤ b.history_count) :
    history_at { b with negative_offset := m } =
      cs.getD (cs.length - 1 - m) utf8_codepoint.zero := by
  obtain ⟨k1, k2⟩ := ring_state_count hs
  obtain ⟨-, -, -, -, -, h6⟩ := hs
  unfold history_at
  have := h6 (b.history_count - m) (by omega)
  have e1 : b.history_first + (b.history_count - m) = b.history_first + b.history_count - m := by
    omega
  have e2 : b.history_first + b.history_count - m = cs.length - 1 - m := by omega
  rw [e1] at this
  rw [← e2]
  exact this

/-- After forward reads, `step_back(k)` with `k` from 1 up to the number of records kept
passes its assertions and returns the record read `k` calls before the head. -/
theorem step_back_ring (exc : Bool) (I : utf8_reader_interface ρ)
    (cs : List utf8_codepoint) (b : utf8_buffered_reader ρ) (hs : ring_state cs b)
    (hok : exc = false → I.error b.reader = false) (k : Nat)
    (hk0 : 0 < k) (hk : k ≤ b.history_count) :
    step_back exc I b k =
      some (read_result.codepoint (cs.getD (cs.length - 1 - k) utf8_codepoint.zero),
        { b with negative_offset := k }) := by
  have hat := history_at_ring cs b hs k hk0 hk
  obtain ⟨k1, -⟩ := ring_state_count hs
  have hmod : (b.negative_offset + k) % size_modulus = k := by
    rw [hs.1, Nat.zero_add]
    exact Nat.mod_eq_of_lt (lt_of_le_of_lt (by omega : k ≤ 63) (by decide))
  rw [step_back_eq exc I b k hok, hmod, if_neg (by omega), if_pos (by omega), hat]

/-- Replaying after a step back: `m` calls return the last `m` records again and leave
the reader as it was before the step back. -/
theorem replay_ring (exc : Bool) (I : utf8_reader_interface ρ)
    (cs : List utf8_codepoint) (b : utf8_buffered_reader ρ) (hs : ring_state cs b)
    (hok : exc = false → I.error b.reader = false) (m : Nat) (hm : m ≤ b.history_count) :
    read_many exc I m { b with negative_offset := m } =
      some ((cs.drop (cs.length - m)).map read_result.codepoint, b) := by
  have he := error_check_false exc I b hok
  obtain ⟨k1, k2⟩ := ring_state_count hs
  induction m with
  | zero =>
    have : ({ b with negative_offset := 0 } : utf8_buffered_reader ρ) = b := by
      have := hs.1
      cases b
      simp only at this
      simp [this]
    rw [this, read_many_zero]
    simp
  | succ m ih =>
    have hstep : read_next exc I { b with negative_offset := m + 1 } =
        some (read_result.codepoint (cs.getD (cs.length - 1 - m) utf8_codepoint.zero),
          { b with negative_offset := m }) := by
      unfold read_next
      simp only [he, Bool.false_eq_true, if_false, Nat.add_sub_cancel, ne_eq,
        Nat.add_one_ne_zero, not_false_eq_true, if_true]
      by_cases hm0 : m = 0
      · subst hm0
        obtain ⟨-, h2, -⟩ := hs
        simp only [if_true, h2]
        rcases cs.eq_nil_or_concat with rfl | ⟨cs', x, rfl⟩
        · simp at k2; omega
        · simp [to_result, List.concat_eq_append, List.getElem?_append_right]
      · rw [if_neg hm0, history_at_ring cs b hs m (by omega) (by omega)]
    rw [read_many_succ exc I m _ _ _ hstep, ih (by omega)]
    simp only [Option.map_some', Option.some.injEq, Prod.mk.injEq, and_true]
    have hi : cs.length - (m + 1) < cs.length := by omega
    rw [List.drop_eq_getElem_cons hi, List.map_cons]
    have e1 : cs.length - 1 - m = cs.length - (m + 1) := by omega
    have e2 : cs.length - (m + 1) + 1 = cs.length - m := by omega
    rw [e1, e2, List.getD_eq_getElem?_getD, List.getElem?_eq_getElem hi]
    rfl

/-- No reachable state accepts `step_back(64)`. -/
theorem step_back_capacity (exc : Bool) (I : utf8_reader_interface ρ) (rd : ρ)
    (b : utf8_buffered_reader ρ) (hr : reachable exc I rd b)
    (hok : exc = false → I.error b.reader = false) : step_back exc I b 64 = none := by
  obtain ⟨k1, k2, -⟩ := reachable_bounds exc I rd b hr
  rw [history_buffer_size_eq] at k1
  have hmod : (b.negative_offset + 64) % size_modulus = b.negative_offset + 64 :=
    Nat.mod_eq_of_lt (lt_of_le_of_lt (by omega : b.negative_offset + 64 ≤ 127) (by decide))
  rw [step_back_eq exc I b 64 hok, hmod, if_pos (Or.inr (by omega))]

/-- C16: after `M >= 2` calls of `utf8_buffered_reader::read_next` that each returned a
codepoint (the records `cs`), over a `utf8_reader` on any byte source and for any `M`,
beyond the 64 codepoints of the window too, and for every `k` with
`1 <= k <= min(M - 1, 63)`: `step_back(k)` returns the `(M - k)`-th record read, the
following `k` calls of `read_next` return the `(M - k + 1)`-th to the `M`-th record in
order and leave the reader as it was before the step back; `step_back(63)` is accepted
once `M >= 64`; and `step_back(64)` is rejected by the assertion, here and in every state
reached from construction in which the wrapped reader holds no error. The counters stay
below the number of records read: `history.first + history.count + 1 = M`. -/
theorem ring_wrap_around {σ : Type} (exc : Bool) (ops : byte_stream_ops σ) (fuel : Nat)
    (rd0 : utf8_reader σ) (M k : Nat) (cs : List utf8_codepoint)
    (bM : utf8_buffered_reader (utf8_reader σ)) (hM : 2 ≤ M) (hk1 : 1 ≤ k)
    (hk : k ≤ min (M - 1) 63)
    (hreads : read_many exc (utf8_reader.interface exc ops fuel) M (create rd0) =
      some (cs.map read_result.codepoint, bM)) :
    cs.length = M ∧ bM.negative_offset = 0 ∧
    bM.history_first + bM.history_count + 1 = M ∧
    (∃ b', step_back exc (utf8_reader.interface exc ops fuel) bM k =
        some (read_result.codepoint (cs.getD (M - k - 1) utf8_codepoint.zero), b') ∧
      b'.negative_offset = k ∧
      read_many exc (utf8_reader.interface exc ops fuel) k b' =
        some ((cs.drop (M - k)).map read_result.codepoint, bM)) ∧
    (64 ≤ M → ∃ res b', step_back exc (utf8_reader.interface exc ops fuel) bM 63 =
      some (res, b')) ∧
    step_back exc (utf8_reader.interface exc ops fuel) bM 64 = none ∧
    (∀ b, reachable exc (utf8_reader.interface exc ops fuel) rd0 b →
      (exc = false → (utf8_reader.interface exc ops fuel).error b.reader = false) →
      step_back exc (utf8_reader.interface exc ops fuel) b 64 = none) := by
  obtain ⟨hs, hlen, hQ⟩ := ring_state_reads exc (utf8_reader.interface exc ops fuel)
    (fun rd => exc = false → rd.err.isSome = false)
    (fun rd c rd' hrd he => read_next_codepoint_err exc ops fuel rd rd' c hrd he)
    M [] cs (create rd0) bM (ring_state_create rd0) (fun e => absurd rfl e) hreads
  rw [List.nil_append] at hs hQ
  have hne : cs ≠ [] := by
    intro e
    rw [e] at hlen
    simp at hlen
    omega
  have hok : exc = false → (utf8_reader.interface exc ops fuel).error bM.reader = false :=
    hQ hne
  obtain ⟨k1, k2⟩ := ring_state_count hs
  rw [hlen] at k1 k2
  have hreach := reachable_read_many exc (utf8_reader.interface exc ops fuel) rd0 M
    (create rd0) bM _ reachable.create hreads
  refine ⟨hlen, hs.1, by omega, ⟨{ bM with negative_offset := k }, ?_, rfl, ?_⟩,
    fun h64 => ⟨_, _, step_back_ring exc _ cs bM hs hok 63 (by omega) (by omega)⟩,
    step_back_capacity exc _ rd0 bM hreach hok,
    fun b hb hokb => step_back_capacity exc _ rd0 b hb hokb⟩
  · have e := step_back_ring exc _ cs bM hs hok k (by omega) (by omega)
    rw [hlen, Nat.sub_right_comm] at e
    exact e
  · have e := replay_ring exc _ cs bM hs hok k (by omega)
    rw [hlen] at e
    exact e

set_option maxRecDepth 1000000 in
/-- The results of 66 reads over a buffer of 70 letters "a". -/
theorem reads_of_letters :
    (read_many false (utf8_reader.interface false utf8_byte_stream_view.ops 4) 66
        (create (buffer_reader (List.replicate 70 0x61) ""))).map Prod.fst =
      some ((expected_records ⟨1, 1⟩ (List.replicate 66 0x61)).map read_result.codepoint) := by
  decide!

theorem exists_of_map_fst {α β : Type} (o : Option (α × β)) (a : α)
    (h : o.map Prod.fst = some a) : ∃ b, o = some (a, b) := by
  rcases o with _ | ⟨x, y⟩
  · cases h
  · simp only [Option.map_some', Option.some.injEq] at h
    subst h
    exact ⟨y, rfl⟩

/-- C16 at a buffer of 70 letters "a", `M = 66` and `k = 63`: two records have been
overwritten, `step_back(63)` returns the third record read, of column 3, and the 63 calls
that follow return the records 4 to 66. -/
theorem ring_wrap_around_witness :
    ∃ bM, 2 ≤ 66 ∧ 1 ≤ 63 ∧ 63 ≤ min (66 - 1) 63 ∧
      read_many false (utf8_reader.interface false utf8_byte_stream_view.ops 4) 66
        (create (buffer_reader (List.replicate 70 0x61) "")) =
          some ((expected_records ⟨1, 1⟩ (List.replicate 66 0x61)).map read_result.codepoint,
            bM) ∧
      bM.history_first + bM.history_count + 1 = 66 ∧
      ((expected_records ⟨1, 1⟩ (List.replicate 66 0x61)).getD (66 - 63 - 1)
        utf8_codepoint.zero).position = ⟨1, 3⟩ ∧
      ∃ b', step_back false (utf8_reader.interface false utf8_byte_stream_view.ops 4) bM 63 =
          some (read_result.codepoint
            ((expected_records ⟨1, 1⟩ (List.replicate 66 0x61)).getD (66 - 63 - 1)
              utf8_codepoint.zero), b') ∧
        b'.negative_offset = 63 ∧
        read_many false (utf8_reader.interface false utf8_byte_stream_view.ops 4) 63 b' =
          some (((expected_records ⟨1, 1⟩ (List.replicate 66 0x61)).drop (66 - 63)).map
            read_result.codepoint, bM) := by
  obtain ⟨bM, hreads⟩ := exists_of_map_fst _ _ reads_of_letters
  have k := ring_wrap_around false utf8_byte_stream_view.ops 4
    (buffer_reader (List.replicate 70 0x61) "") 66 63
    (expected_records ⟨1, 1⟩ (List.replicate 66 0x61)) bM
    (by decide) (by decide) (by decide) hreads
  exact ⟨bM, by decide, by decide, by decide, hreads, k.2.2.1, rfl, k.2.2.2.1⟩

/-- C13, as amended: after a call of `utf8_buffered_reader::read_next` with no backward
offset that returned `nullptr`, there is still no backward offset. When a codepoint had
been read before (there was a head), the history is not empty afterwards; and whenever the
history is not empty, or the wrapped reader holds an error, the next call returns
`nullptr` and changes nothing, so it makes no call of the wrapped reader. When the history
is empty (no codepoint was ever read: the empty input) and the wrapped reader holds no
error, there is no head and the next call is a call of `read_next` on the wrapped reader
again. -/
theorem read_next_after_null (exc : Bool) (I : utf8_reader_interface ρ)
    (b b' : utf8_buffered_reader ρ) (h0 : b.negative_offset = 0)
    (h : read_next exc I b = some (read_result.null, b')) :
    b'.negative_offset = 0 ∧
    (b.head ≠ none → (exc = false → I.error b.reader = false) → b'.history_count ≠ 0) ∧
    (b'.history_count ≠ 0 ∨ (exc = false ∧ I.error b'.reader = true) →
      read_next exc I b' = some (read_result.null, b')) ∧
    (b'.history_count = 0 → (exc = false → I.error b'.reader = false) →
      b'.head = none ∧ read_next exc I b' = pull I b') := by
  have key : b'.negative_offset = 0 ∧
      ((!exc && I.error b'.reader) = true ∨ b'.head = none) := by
    unfold read_next at h
    by_cases he : (!exc && I.error b.reader) = true
    · rw [if_pos he] at h
      simp only [Option.some.injEq, Prod.mk.injEq, true_and] at h
      subst h
      exact ⟨h0, Or.inl he⟩
    rw [if_neg he, if_neg (by simp [h0])] at h
    by_cases hc : b.history_count = 0 ∧ b.head.isNone = true
    · rw [if_pos hc] at h
      obtain ⟨rd, rfl⟩ := pull_null I b b' h
      exact ⟨h0, Or.inr rfl⟩
    · rw [if_neg hc] at h
      rcases hh : b.head with _ | x
      · rw [hh] at h
        simp only [Option.some.injEq, Prod.mk.injEq, true_and] at h
        subst h
        exact ⟨h0, Or.inr hh⟩
      · rw [hh] at h
        simp only [] at h
        obtain ⟨rd, rfl⟩ := pull_null I _ b' h
        refine ⟨?_, Or.inr rfl⟩
        split_ifs <;> exact h0
  obtain ⟨k0, k⟩ := key
  refine ⟨k0, fun hh hok => ?_, fun hc => ?_, fun hc hok => ?_⟩
  · rcases read_next_forward_cases exc I b b' _ hok h0 h with
      ⟨e1, -⟩ | ⟨e1, -⟩ | ⟨x, -, -, -, f2, -⟩ | ⟨x, -, hlt, -, f2, -⟩
    · exact absurd e1 hh
    · exact absurd e1 hh
    · rw [f2]; exact Nat.succ_ne_zero _
    · rw [f2]
      intro e
      rw [e, history_buffer_size_eq] at hlt
      exact hlt (by decide)
  · rcases hc with hc | ⟨e1, e2⟩
    · rcases k with k | k
      · unfold read_next
        rw [if_pos k]
      · exact read_next_cached_end exc I b' k0 k hc
    · unfold read_next
      rw [if_pos (by subst e1; simp [e2])]
  · have hne := error_check_false exc I b' hok
    rcases k with k | k
    · rw [hne] at k; cases k
    · exact ⟨k, read_next_first_branch exc I b' hok k0 k hc⟩

/-- C13 fails as stated on the empty input: over a wrapped reader at the end of its input
that counts the calls made on it, three calls of the buffered reader return `nullptr` and
call the wrapped reader three times; and over a `utf8_reader` on the empty buffer the
buffered reader is, after a call that returned `nullptr`, as it was constructed, with no
head and an empty history. -/
theorem read_next_after_null_counterexample :
    (∃ b1 b2 b3,
      read_next false counting_reader (create 0) = some (read_result.null, b1) ∧
      read_next false counting_reader b1 = some (read_result.null, b2) ∧
      read_next false counting_reader b2 = some (read_result.null, b3) ∧
      b1.negative_offset = 0 ∧ b2.negative_offset = 0 ∧
      b1.reader = 1 ∧ b2.reader = 2 ∧ b3.reader = 3) ∧
    read_next false (utf8_reader.interface false utf8_byte_stream_view.ops 4)
      (create (buffer_reader [] "")) =
      some (read_result.null, create (buffer_reader [] "")) :=
  ⟨⟨_, _, _, rfl, rfl, rfl, rfl, rfl, rfl, rfl, rfl⟩, rfl⟩

/-- C13 as amended, over the buffer "a": the second call returns `nullptr` and leaves a
history of one record, and the third call returns `nullptr` and changes nothing, the
wrapped reader included. -/
theorem read_next_after_null_witness :
    ∃ c b1 b2,
      read_next false (utf8_reader.interface false utf8_byte_stream_view.ops 4)
        (create (buffer_reader [0x61] "")) = some (read_result.codepoint c, b1) ∧
      b1.negative_offset = 0 ∧ b1.head = some c ∧
      read_next false (utf8_reader.interface false utf8_byte_stream_view.ops 4) b1 =
        some (read_result.null, b2) ∧
      b2.history_count ≠ 0 ∧
      read_next false (utf8_reader.interface false utf8_byte_stream_view.ops 4) b2 =
        some (read_result.null, b2) := by
  obtain ⟨c, b1, b2, h1, h2, h3, h4, h5⟩ : ∃ c b1 b2,
      read_next false (utf8_reader.interface false utf8_byte_stream_view.ops 4)
        (create (buffer_reader [0x61] "")) = some (read_result.codepoint c, b1) ∧
      b1.negative_offset = 0 ∧ b1.head = some c ∧
      read_next false (utf8_reader.interface false utf8_byte_stream_view.ops 4) b1 =
        some (read_result.null, b2) ∧
      (false = false →
        (utf8_reader.interface false utf8_byte_stream_view.ops 4).error b1.reader = false) :=
    ⟨_, _, _, rfl, rfl, rfl, rfl, fun _ => rfl⟩
  have k := read_next_after_null false _ b1 b2 h2 h4
  have hc : b2.history_count ≠ 0 := k.2.1 (by rw [h3]; exact Option.some_ne_none c) h5
  exact ⟨c, b1, b2, h1, h2, h3, h4, hc, k.2.2.1 (Or.inl hc)⟩

/-- C17: in every state a buffered reader reaches from construction by calls of
`read_next` and by calls of `step_back` that pass their assertions, `history.count` is at
most 63, `negative_offset` is at most `history.count`, and the buffer has its 63 slots; no
call of `read_next` decreases `history.count` and no call of `step_back` changes it. When
`history.count` is 63, a call of `read_next` with no backward offset, on a reader that
holds no error, changes nothing when there is no head (the end of the input was reached)
and otherwise writes the head to the slot `history.first % 63`, leaves every other slot
as it was, adds one to `history.first` and keeps `history.count` at 63. That slot holds
the oldest record: with `log` the records written to the history so far, in the order
they were written, the ring holds the last `history.count` of them, the slot
`(history.first + j) % 63` the `j`-th oldest, so that with a full history the slot
`history.first % 63` holds the oldest of the last 63 records written; and a read that
writes a record adds it to the end of `log`. -/
theorem history_ring_invariants (exc : Bool) (I : utf8_reader_interface ρ) (rd : ρ)
    (b : utf8_buffered_reader ρ) (hr : reachable exc I rd b) :
    b.history_count ≤ 63 ∧ b.negative_offset ≤ b.history_count ∧
    b.history_buffer.length = 63 ∧
    (∀ res b', read_next exc I b = some (res, b') → b.history_count ≤ b'.history_count) ∧
    (∀ n res b', step_back exc I b n = some (res, b') →
      b'.history_count = b.history_count) ∧
    (b.history_count = 63 → b.negative_offset = 0 →
      (exc = false → I.error b.reader = false) →
      ∀ res b', read_next exc I b = some (res, b') →
        (b.head = none → b' = b) ∧
        (∀ x, b.head = some x →
          b'.history_buffer = b.history_buffer.set (b.history_first % 63) x ∧
          b'.history_buffer.getD (b.history_first % 63) utf8_codepoint.zero = x ∧
          (∀ j, j ≠ b.history_first % 63 →
            b'.history_buffer.getD j utf8_codepoint.zero =
              b.history_buffer.getD j utf8_codepoint.zero) ∧
          b'.history_first = b.history_first + 1 ∧ b'.history_count = 63)) ∧
    (∃ log, logged exc I rd b log) ∧
    (∀ log, logged exc I rd b log →
      b.history_count = min log.length 63 ∧
      b.history_first + b.history_count = log.length ∧
      (∀ j, j < b.history_count →
        b.history_buffer.getD ((b.history_first + j) % 63) utf8_codepoint.zero =
          log.getD (log.length - b.history_count + j) utf8_codepoint.zero) ∧
      (b.history_count = 63 →
        b.history_buffer.getD (b.history_first % 63) utf8_codepoint.zero =
          log.getD (log.length - 63) utf8_codepoint.zero) ∧
      (∀ res b', read_next exc I b = some (res, b') →
        logged exc I rd b' (log ++ read_next_pushes exc I b)) ∧
      (b.negative_offset = 0 → (exc = false → I.error b.reader = false) →
        (b.head = none → read_next_pushes exc I b = []) ∧
        (∀ x, b.head = some x → read_next_pushes exc I b = [x]))) := by
  have hb := reachable_bounds exc I rd b hr
  have hb' := hb
  obtain ⟨k1, k2, k3⟩ := hb'
  rw [history_buffer_size_eq] at k1 k3
  refine ⟨k1, k2, k3, fun res b' h => (read_next_bounds exc I b b' res hb h).2,
    fun n res b' h => (step_back_bounds exc I b b' n res hb h).2.1,
    fun hc h0 hok res b' h => ?_, reachable_logged exc I rd b hr, fun log hl => ?_⟩
  · rcases read_next_forward_cases exc I b b' res hok h0 h with
      ⟨e1, -, e⟩ | ⟨-, e0, -⟩ | ⟨x, -, hlt, -⟩ | ⟨x, e1, -, f1, f2, f3, -⟩
    · exact ⟨fun _ => e, fun x hx => (by rw [e1] at hx; cases hx)⟩
    · rw [hc] at e0; cases e0
    · rw [hc, history_buffer_size_eq] at hlt; omega
    · rw [history_buffer_size_eq] at f1
      refine ⟨fun hn => (by rw [e1] at hn; cases hn), fun y hy => ?_⟩
      rw [e1] at hy
      cases hy
      have hlt : b.history_first % 63 < b.history_buffer.length := by
        rw [k3]; exact Nat.mod_lt _ (by decide)
      refine ⟨f1, ?_, fun j hj => ?_, f3, by rw [f2, hc]⟩
      · rw [f1, List.getD_eq_getElem?_getD, List.getElem?_set_self hlt]
        rfl
      · rw [f1, List.getD_eq_getElem?_getD, List.getD_eq_getElem?_getD,
          List.getElem?_set_ne (fun e => hj e.symm)]
  · obtain ⟨h1, h2, h3⟩ := logged_ring_log exc I rd b log hl
    rw [history_buffer_size_eq] at h1 h3
    have hidx : log.length - b.history_count = b.history_first := by omega
    refine ⟨h1, h2, fun j hj => ?_, fun hc => ?_,
      fun res b' h => logged.read_next b b' res log hl h,
      fun h0 hok => read_next_pushes_forward exc I b hok h0⟩
    · rw [hidx]
      exact h3 j hj
    · have e : b.history_buffer.getD (b.history_first % 63) utf8_codepoint.zero =
          log.getD b.history_first utf8_codepoint.zero := h3 0 (by omega)
      rw [e, ← hc, hidx]

set_option maxRecDepth 1000000 in
/-- C17 at a buffer of 66 letters "a": after 64 reads the history is full and the slot 0
holds the first record read, of column 1; the 65th read writes the head, the record of
column 64, to the slot 0 and sets `history.first` to 1. -/
theorem history_ring_invariants_witness :
    ∃ rs b x res b',
      read_many false (utf8_reader.interface false utf8_byte_stream_view.ops 4) 64
        (create (buffer_reader (List.replicate 66 0x61) "")) = some (rs, b) ∧
      b.history_count = 63 ∧ b.negative_offset = 0 ∧ b.history_first = 0 ∧ b.head = some x ∧
      (b.history_buffer.getD (b.history_first % 63) utf8_codepoint.zero).position = ⟨1, 1⟩ ∧
      x.position = ⟨1, 64⟩ ∧
      read_next false (utf8_reader.interface false utf8_byte_stream_view.ops 4) b =
        some (res, b') ∧
      b'.history_buffer = b.history_buffer.set (b.history_first % 63) x ∧
      b'.history_first = b.history_first + 1 ∧ b'.history_count = 63 ∧
      b'.history_first = 1 ∧
      (∀ log, logged false (utf8_reader.interface false utf8_byte_stream_view.ops 4)
          (buffer_reader (List.replicate 66 0x61) "") b log →
        b.history_buffer.getD (b.history_first % 63) utf8_codepoint.zero =
          log.getD (log.length - 63) utf8_codepoint.zero) := by
  obtain ⟨rs, b, x, res, b', h1, h2, h3, h4, h5, h6, h7, h8, p1, p2⟩ : ∃ rs b x res b',
      read_many false (utf8_reader.interface false utf8_byte_stream_view.ops 4) 64
        (create (buffer_reader (List.replicate 66 0x61) "")) = some (rs, b) ∧
      b.history_count = 63 ∧ b.negative_offset = 0 ∧ b.history_first = 0 ∧ b.head = some x ∧
      (false = false →
        (utf8_reader.interface false utf8_byte_stream_view.ops 4).error b.reader = false) ∧
      read_next false (utf8_reader.interface false utf8_byte_stream_view.ops 4) b =
        some (res, b') ∧ b'.history_first = 1 ∧
      (b.history_buffer.getD (b.history_first % 63) utf8_codepoint.zero).position = ⟨1, 1⟩ ∧
      x.position = ⟨1, 64⟩ :=
    ⟨_, _, _, _, _, rfl, rfl, rfl, rfl, rfl, fun _ => rfl, rfl, rfl, rfl, rfl⟩
  have k := history_ring_invariants false _ _ b
    (reachable_read_many false _ _ 64 _ b rs reachable.create h1)
  have k6 := (k.2.2.2.2.2.1 h2 h3 h6 res b' h7).2 x h5
  exact ⟨rs, b, x, res, b', h1, h2, h3, h4, h5, p1, p2, h7, k6.1, k6.2.2.2.1, k6.2.2.2.2, h8,
    fun log hl => (k.2.2.2.2.2.2.2 log hl).2.2.2.1 h2⟩

end BufferedReader

end toml
